import Mathlib

/-!
# Extendible hash table and LRU replacer

A shallow embedding of `src/hash/extendible_hash.cpp` and
`src/buffer/lru_replacer.cpp`, followed by theorems about the embedding.

Conventions of the embedding.

* `std::shared_ptr<Bucket>` values are indices into an append-only arena
  (`heap`); the directory `buckets_` is a list of such indices, so that two
  directory slots holding the same pointer see the same bucket and a write
  through one is visible through the other.
* `std::map<K, V>` is a list of key/value pairs without repeated keys. Only
  `find`, `insert`, `erase`, `size` and whole-map iteration are used by the
  source, and none of them depends on the iteration order.
* `std::list<T>::iterator` values are node identities; a node identity is
  never handed out twice, so an iterator to an erased node designates no node
  and `list_.erase` through it is undefined behaviour.
* The mutexes are not modelled: every operation is one atomic step.
* Operations whose C++ execution can be undefined (an out-of-range vector
  index, a 32-bit shift by 32 or more, erasing through an invalidated
  iterator) or can loop return an `Outcome`.
* All counters are far below `2 ^ 64` in every state the model can reach
  (depths never exceed 32, list lengths are bounded by the address space), so
  they are natural numbers; the places where the machine width decides the
  behaviour are the 32-bit shift `1u << n`, modelled by `shl1u`, and the
  conversion of a result to the 32-bit `int` return type of the three
  introspection methods, modelled by `toInt`.
-/

/-- Result of running an operation of the source. -/
inductive Outcome (α : Type) where
  | ok (a : α)
  | undefinedBehaviour
  | outOfFuel
  deriving DecidableEq, Repr

/-- The value of `std::hash<K>()(key)` before conversion to `size_t`. -/
class StdHash (K : Type) where
  hash : K → Nat

/-- Integral and pointer keys hash to their own value. -/
instance : StdHash Nat := ⟨fun n => n⟩

/-- A `std::map<K, V>`: key/value pairs without repeated keys. -/
abbrev StdMap (K V : Type) := List (K × V)

namespace StdMap

variable {K V : Type} [DecidableEq K]

/-- The method `std::map::find`, returning the mapped value when the key is present. -/
def find : StdMap K V → K → Option V
  | [], _ => none
  | (k, v) :: rest, key => if k = key then some v else find rest key

/-- The method `std::map::insert(std::make_pair(key, value))`: no effect when the key is present. -/
def insert (m : StdMap K V) (key : K) (value : V) : StdMap K V :=
  match find m key with
  | some _ => m
  | none => m ++ [(key, value)]

/-- The method `std::map::erase(key)`: the remaining map. -/
def erase (m : StdMap K V) (key : K) : StdMap K V :=
  m.filter (fun e => decide (e.1 ≠ key))

/-- The method `std::map::erase(key)`: the number of elements removed. -/
def eraseCount (m : StdMap K V) (key : K) : Nat :=
  m.countP (fun e => decide (e.1 = key))

end StdMap

/-- The conversion of an unsigned value to a 32-bit `int`: the value is reduced modulo
`2 ^ 32` into the range of `int`. -/
def toInt (n : Nat) : Int :=
  if n % 2 ^ 32 < 2 ^ 31 then ((n % 2 ^ 32 : Nat) : Int) else ((n % 2 ^ 32 : Nat) : Int) - 2 ^ 32

/-- The C++ expression `1u << n` on a 32-bit `unsigned int`; undefined for `n ≥ 32`. -/
def shl1u (n : Nat) : Option Nat :=
  if n < 32 then some ((1 <<< n) % 2 ^ 32) else none

/-- The struct `ExtendibleHash::Bucket`. -/
structure Bucket (K V : Type) where
  store : StdMap K V
  localDepth : Nat
  mask : Nat
  flag : Nat
  deriving DecidableEq, Repr

/-- The constructor `Bucket(uint64_t depth)`. -/
def Bucket.new {K V : Type} (depth : Nat) : Option (Bucket K V) :=
  match shl1u depth with
  | none => none
  | some sh => some { store := [], localDepth := depth, mask := sh - 1, flag := 0 }

/-- The class `ExtendibleHash<K, V>`; `heap` holds the buckets owned through `BucketPtr`. -/
structure ExtendibleHash (K V : Type) where
  MaxNumKeyPerBucket : Nat
  heap : List (Bucket K V)
  buckets_ : List Nat
  globalDepth_ : Nat
  globalMask_ : Nat
  deriving DecidableEq, Repr

namespace ExtendibleHash

variable {K V : Type} [DecidableEq K] [StdHash K]

/-- The constructor `ExtendibleHash(size_t size)`. -/
def new (size : Nat) : ExtendibleHash K V :=
  { MaxNumKeyPerBucket := size
    heap := [{ store := [], localDepth := 0, mask := (1 <<< 0) % 2 ^ 32 - 1, flag := 0 }]
    buckets_ := [0]
    globalDepth_ := 0
    globalMask_ := 0 }

/-- The method `HashKey`: the hash as a `size_t`. -/
def HashKey (key : K) : Nat := StdHash.hash key % 2 ^ 64

/-- The method `GetGlobalDepth`, returning `int`. -/
def GetGlobalDepth (s : ExtendibleHash K V) : Int := toInt s.globalDepth_

/-- The expression `buckets_[id]` followed by a dereference: the pointer and the bucket. -/
def bucketAt (s : ExtendibleHash K V) (id : Nat) : Option (Nat × Bucket K V) :=
  match s.buckets_[id]? with
  | none => none
  | some p =>
    match s.heap[p]? with
    | none => none
    | some b => some (p, b)

/-- The method `GetLocalDepth`, returning `int`; the argument is a non-negative `int`. -/
def GetLocalDepth (s : ExtendibleHash K V) (bucket_id : Nat) : Outcome Int :=
  match bucketAt s bucket_id with
  | none => .undefinedBehaviour
  | some (_, b) => .ok (toInt b.localDepth)

/-- The method `GetNumBuckets`, returning `buckets_.size()` as an `int`. -/
def GetNumBuckets (s : ExtendibleHash K V) : Int := toInt s.buckets_.length

/-- The method `Find`: `some v` stands for `true` with `value = v`. -/
def Find (s : ExtendibleHash K V) (key : K) : Outcome (Option V) :=
  match bucketAt s (HashKey key &&& s.globalMask_) with
  | none => .undefinedBehaviour
  | some (_, bucket) => .ok (StdMap.find bucket.store key)

/-- The method `Remove`: the new table and the returned flag. -/
def Remove (s : ExtendibleHash K V) (key : K) : Outcome (ExtendibleHash K V × Bool) :=
  match bucketAt s (HashKey key &&& s.globalMask_) with
  | none => .undefinedBehaviour
  | some (p, bucket) =>
    .ok ({ s with heap := s.heap.set p { bucket with store := StdMap.erase bucket.store key } },
         decide (StdMap.eraseCount bucket.store key > 0))

/-- The `std::for_each` of `extend` with its `inserter` lambda: fills `newBucket->store`. -/
def inserterLoop (mask flag : Nat) : StdMap K V → StdMap K V → StdMap K V
  | [], acc => acc
  | pair :: rest, acc =>
    inserterLoop mask flag rest
      (if HashKey pair.1 &&& mask = flag then StdMap.insert acc pair.1 pair.2 else acc)

/-- The loop of `extend` that erases from `bucket->store` every key of `newBucket->store`. -/
def eraseLoop : StdMap K V → StdMap K V → StdMap K V
  | [], store => store
  | pair :: rest, store => eraseLoop rest (StdMap.erase store pair.1)

/-- The directory doubling loop of `extend`: `n` iterations starting at index `i`. -/
def growLoop (globalMask : Nat) : Nat → Nat → List Nat → Option (List Nat)
  | 0, _, dir => some dir
  | n + 1, i, dir =>
    match dir[i &&& globalMask]? with
    | none => none
    | some p => growLoop globalMask n (i + 1) (dir ++ [p])

/-- The last loop of `extend`: `n` iterations starting at index `i`. -/
def rewriteLoop (mask flag newBucket : Nat) : Nat → Nat → List Nat → List Nat
  | 0, _, dir => dir
  | n + 1, i, dir =>
    rewriteLoop mask flag newBucket n (i + 1)
      (if i &&& mask = flag then dir.set i newBucket else dir)

/-- The method `extend`; `none` stands for undefined behaviour. -/
def extend (s : ExtendibleHash K V) (id : Nat) : Option (ExtendibleHash K V) :=
  match bucketAt s id with
  | none => none
  | some (p, bucket) =>
    let localDepth := bucket.localDepth + 1
    match shl1u localDepth, (Bucket.new localDepth : Option (Bucket K V)), shl1u (localDepth - 1) with
    | some sh, some fresh, some bit =>
      let mask := sh - 1
      let newFlag := bucket.flag + bit
      let newStore := inserterLoop mask newFlag bucket.store fresh.store
      let oldStore := eraseLoop newStore bucket.store
      let newBucket : Bucket K V := { fresh with mask := mask, flag := newFlag, store := newStore }
      let q := s.heap.length
      let heap := s.heap.set p { bucket with localDepth := localDepth, mask := mask, store := oldStore }
        ++ [newBucket]
      if localDepth > s.globalDepth_ then
        match growLoop s.globalMask_ s.buckets_.length s.buckets_.length s.buckets_,
              shl1u (s.globalDepth_ + 1) with
        | some dir, some gsh =>
          some { s with
            heap := heap
            buckets_ := rewriteLoop mask newFlag q dir.length 0 dir
            globalDepth_ := s.globalDepth_ + 1
            globalMask_ := gsh - 1 }
        | _, _ => none
      else
        some { s with
          heap := heap
          buckets_ := rewriteLoop mask newFlag q s.buckets_.length 0 s.buckets_ }
    | _, _, _ => none

/-- The `while` loop of `Insert` with the bucket lookup before it: the table and the
pointer held in the local variable `bucket` when the loop exits. The loop body runs at most
`fuel` times; the first clause is the loop test with no fuel left. -/
def insertLoop : Nat → ExtendibleHash K V → K → Outcome (ExtendibleHash K V × Nat)
  | 0, s, key =>
    match bucketAt s (HashKey key &&& s.globalMask_) with
    | none => .undefinedBehaviour
    | some (p, bucket) =>
      if bucket.store.length ≥ s.MaxNumKeyPerBucket then .outOfFuel else .ok (s, p)
  | fuel + 1, s, key =>
    match bucketAt s (HashKey key &&& s.globalMask_) with
    | none => .undefinedBehaviour
    | some (p, bucket) =>
      if bucket.store.length ≥ s.MaxNumKeyPerBucket then
        match extend s (HashKey key &&& s.globalMask_) with
        | none => .undefinedBehaviour
        | some s' => insertLoop fuel s' key
      else .ok (s, p)

/-- The method `Insert`; `fuel` bounds the number of iterations of its loop. -/
def Insert (fuel : Nat) (s : ExtendibleHash K V) (key : K) (value : V) :
    Outcome (ExtendibleHash K V) :=
  match insertLoop fuel s key with
  | .ok (s', p) =>
    match s'.heap[p]? with
    | none => .undefinedBehaviour
    | some bucket =>
      .ok { s' with heap := s'.heap.set p { bucket with store := StdMap.insert bucket.store key value } }
  | .undefinedBehaviour => .undefinedBehaviour
  | .outOfFuel => .outOfFuel

/-- A run of `Insert` calls, one per key/value pair of the list, in order. -/
def insertList (fuel : Nat) : ExtendibleHash K V → List (K × V) → Outcome (ExtendibleHash K V)
  | s, [] => .ok s
  | s, pair :: rest =>
    match Insert fuel s pair.1 pair.2 with
    | .ok s' => insertList fuel s' rest
    | .undefinedBehaviour => .undefinedBehaviour
    | .outOfFuel => .outOfFuel

end ExtendibleHash


/-- The class `LRUReplacer<T>`. A node of `list_` is its identity paired with its value, the
front of the list first; `nextNode` is the identity the next allocated node receives. -/
structure LRUReplacer (T : Type) where
  size_ : Nat
  list_ : List (Nat × T)
  nextNode : Nat
  hash_ : ExtendibleHash T Nat
  deriving DecidableEq, Repr

namespace LRUReplacer

variable {T : Type} [DecidableEq T] [StdHash T]

/-- The constructor `LRUReplacer()`. -/
def new : LRUReplacer T :=
  { size_ := 0, list_ := [], nextNode := 0, hash_ := ExtendibleHash.new 2 }

/-- The call `list_.erase(p)`; `none` when `p` designates no node of the list. -/
def listErase : List (Nat × T) → Nat → Option (List (Nat × T))
  | [], _ => none
  | node :: rest, p =>
    if node.1 = p then some rest
    else
      match listErase rest p with
      | none => none
      | some rest' => some (node :: rest')

/-- The last two statements of `Insert`: `list_.push_front(value)` and
`hash_.Insert(value, list_.begin())`. -/
def pushFront (fuel : Nat) (r : LRUReplacer T) (value : T) : Outcome (LRUReplacer T) :=
  match ExtendibleHash.Insert fuel r.hash_ value r.nextNode with
  | .ok h =>
    .ok { r with list_ := (r.nextNode, value) :: r.list_, nextNode := r.nextNode + 1, hash_ := h }
  | .undefinedBehaviour => .undefinedBehaviour
  | .outOfFuel => .outOfFuel

/-- The method `Insert`; `fuel` bounds the loop of `hash_.Insert`. -/
def Insert (fuel : Nat) (r : LRUReplacer T) (value : T) : Outcome (LRUReplacer T) :=
  match ExtendibleHash.Find r.hash_ value with
  | .ok (some p) =>
    match listErase r.list_ p with
    | none => .undefinedBehaviour
    | some l => pushFront fuel { r with list_ := l } value
  | .ok none => pushFront fuel { r with size_ := r.size_ + 1 } value
  | .undefinedBehaviour => .undefinedBehaviour
  | .outOfFuel => .outOfFuel

/-- The method `Victim`: the new replacer and, when `true` is returned, the value. -/
def Victim (r : LRUReplacer T) : Outcome (LRUReplacer T × Option T) :=
  match r.list_.getLast? with
  | none => .ok (r, none)
  | some node =>
    match ExtendibleHash.Remove r.hash_ node.2 with
    | .ok (h, _) =>
      .ok ({ r with hash_ := h, list_ := r.list_.dropLast, size_ := r.size_ - 1 }, some node.2)
    | .undefinedBehaviour => .undefinedBehaviour
    | .outOfFuel => .outOfFuel

/-- The method `Erase`: the new replacer and the returned flag. -/
def Erase (r : LRUReplacer T) (value : T) : Outcome (LRUReplacer T × Bool) :=
  match ExtendibleHash.Find r.hash_ value with
  | .ok none => .ok (r, false)
  | .ok (some p) =>
    match ExtendibleHash.Remove r.hash_ value with
    | .ok (h, _) =>
      match listErase r.list_ p with
      | none => .undefinedBehaviour
      | some l => .ok ({ r with hash_ := h, list_ := l, size_ := r.size_ - 1 }, true)
    | .undefinedBehaviour => .undefinedBehaviour
    | .outOfFuel => .outOfFuel
  | .undefinedBehaviour => .undefinedBehaviour
  | .outOfFuel => .outOfFuel

/-- The method `Size`. -/
def Size (r : LRUReplacer T) : Nat := r.size_

/-- A run of `Insert` calls, one per element of the list, in order. -/
def insertAll (fuel : Nat) : LRUReplacer T → List T → Outcome (LRUReplacer T)
  | r, [] => .ok r
  | r, x :: xs =>
    match Insert fuel r x with
    | .ok r' => insertAll fuel r' xs
    | .undefinedBehaviour => .undefinedBehaviour
    | .outOfFuel => .outOfFuel

/-- A run of `n` `Victim` calls: the final replacer and the results in call order. -/
def victims : Nat → LRUReplacer T → Outcome (LRUReplacer T × List (Option T))
  | 0, r => .ok (r, [])
  | n + 1, r =>
    match Victim r with
    | .ok (r', res) =>
      match victims n r' with
      | .ok (r'', rest) => .ok (r'', res :: rest)
      | .undefinedBehaviour => .undefinedBehaviour
      | .outOfFuel => .outOfFuel
    | .undefinedBehaviour => .undefinedBehaviour
    | .outOfFuel => .outOfFuel

end LRUReplacer

/-! ## Predicates used in the statements -/

namespace ExtendibleHash

variable {K V : Type} [DecidableEq K] [StdHash K]

/-- Well-formedness of the bucket seen from directory slot `i` when the global depth is `G`. -/
structure BucketOk (G i : Nat) (b : Bucket K V) : Prop where
  depth_le : b.localDepth ≤ G
  mask_eq : b.mask = 2 ^ b.localDepth - 1
  flag_eq : i % 2 ^ b.localDepth = b.flag
  keys : ∀ e ∈ b.store, HashKey e.1 % 2 ^ b.localDepth = b.flag
  nodup : (b.store.map Prod.fst).Nodup

/-- The structural invariant of the table. -/
structure Inv (s : ExtendibleHash K V) : Prop where
  depth_le : s.globalDepth_ ≤ 31
  mask_eq : s.globalMask_ = 2 ^ s.globalDepth_ - 1
  dir_len : s.buckets_.length = 2 ^ s.globalDepth_
  slot : ∀ i, i < 2 ^ s.globalDepth_ →
    ∃ p b, bucketAt s i = some (p, b) ∧ BucketOk s.globalDepth_ i b
  share : ∀ i j p b, i < 2 ^ s.globalDepth_ → j < 2 ^ s.globalDepth_ →
    bucketAt s j = some (p, b) → i % 2 ^ b.localDepth = b.flag → bucketAt s i = some (p, b)

/-- The states a table constructed with bucket capacity `B` can be in after any number of
`Insert` and `Remove` calls that returned. -/
inductive Reachable (B : Nat) : ExtendibleHash K V → Prop
  | init : Reachable B (new B)
  | insert {s s' : ExtendibleHash K V} (fuel : Nat) (key : K) (value : V) :
      Reachable B s → Insert fuel s key value = .ok s' → Reachable B s'
  | remove {s s' : ExtendibleHash K V} (key : K) (flag : Bool) :
      Reachable B s → Remove s key = .ok (s', flag) → Reachable B s'

/-- What `extend` leaves in the bucket it splits. -/
def splitLow (b : Bucket K V) : Bucket K V :=
  { b with
    localDepth := b.localDepth + 1
    mask := 2 ^ (b.localDepth + 1) - 1
    store := b.store.filter
      (fun e => !decide (HashKey e.1 % 2 ^ (b.localDepth + 1) = b.flag + 2 ^ b.localDepth)) }

/-- The bucket `extend` allocates. -/
def splitHigh (b : Bucket K V) : Bucket K V :=
  { store := b.store.filter
      (fun e => decide (HashKey e.1 % 2 ^ (b.localDepth + 1) = b.flag + 2 ^ b.localDepth))
    localDepth := b.localDepth + 1
    mask := 2 ^ (b.localDepth + 1) - 1
    flag := b.flag + 2 ^ b.localDepth }

/-- No bucket referenced by the directory holds more than `MaxNumKeyPerBucket` entries. -/
def SizeOk (s : ExtendibleHash K V) : Prop :=
  ∀ i p b, bucketAt s i = some (p, b) → b.store.length ≤ s.MaxNumKeyPerBucket

/-- Some bucket referenced by the directory is as deep as the directory. -/
def MaxDepth (s : ExtendibleHash K V) : Prop :=
  ∃ i p b, bucketAt s i = some (p, b) ∧ b.localDepth = s.globalDepth_

/-- The directory slots that hold the pointer `p`, in increasing order. -/
def slotsOf (s : ExtendibleHash K V) (p : Nat) : List Nat :=
  (List.range s.buckets_.length).filter (fun i => decide (s.buckets_[i]? = some p))

/-- The keys held by the bucket behind the pointer `p`. -/
def bucketKeys (s : ExtendibleHash K V) (p : Nat) : List K :=
  match s.heap[p]? with
  | none => []
  | some b => b.store.map Prod.fst

/-- The keys held by the buckets the directory references, each bucket taken once. -/
def storedKeys (s : ExtendibleHash K V) : List K :=
  s.buckets_.dedup.flatMap (bucketKeys s)

end ExtendibleHash

namespace LRUReplacer

variable {T : Type} [DecidableEq T] [StdHash T]

/-- The elements of the access list, most recently used first. -/
def values (r : LRUReplacer T) : List T := r.list_.map Prod.snd

/-- The states a replacer can be in after any number of `Insert`, `Victim` and `Erase` calls
that returned. -/
inductive Reachable : LRUReplacer T → Prop
  | init : Reachable new
  | insert {r r' : LRUReplacer T} (fuel : Nat) (value : T) :
      Reachable r → Insert fuel r value = .ok r' → Reachable r'
  | victim {r r' : LRUReplacer T} (res : Option T) :
      Reachable r → Victim r = .ok (r', res) → Reachable r'
  | erase {r r' : LRUReplacer T} (value : T) (flag : Bool) :
      Reachable r → Erase r value = .ok (r', flag) → Reachable r'

/-- The invariant of the replacer. The index and the list hold the same elements; the cursor
recorded for an element is either the identity of the node holding it or the identity of a
node that is no longer in the list. -/
structure LInv (r : LRUReplacer T) : Prop where
  hash_inv : ExtendibleHash.Inv r.hash_
  capacity : r.hash_.MaxNumKeyPerBucket = 2
  size_eq : r.size_ = r.list_.length
  nodup : (values r).Nodup
  ids_lt : ∀ node ∈ r.list_, node.1 < r.nextNode
  cursor_lt : ∀ x p, ExtendibleHash.Find r.hash_ x = .ok (some p) → p < r.nextNode
  cursor : ∀ x p, ExtendibleHash.Find r.hash_ x = .ok (some p) →
    ∀ node ∈ r.list_, node.1 = p → node.2 = x
  tracked : ∀ x, x ∈ values r ↔ ∃ p, ExtendibleHash.Find r.hash_ x = .ok (some p)

end LRUReplacer

/-! ## Concrete states used to instantiate the theorems -/

/-- A table of capacity 1 after `Insert(0, 5)`. -/
def oneKeyTable : ExtendibleHash Nat Nat :=
  { MaxNumKeyPerBucket := 1
    heap := [{ store := [(0, 5)], localDepth := 0, mask := 0, flag := 0 }]
    buckets_ := [0]
    globalDepth_ := 0
    globalMask_ := 0 }

/-- A table of capacity 2 after `Insert(1, 10)`. -/
def singletonTable : ExtendibleHash Nat Nat :=
  { MaxNumKeyPerBucket := 2
    heap := [{ store := [(1, 10)], localDepth := 0, mask := 0, flag := 0 }]
    buckets_ := [0]
    globalDepth_ := 0
    globalMask_ := 0 }

/-- A table of capacity 2 after `Insert(1, 10); Insert(3, 30)`: its only bucket is full. -/
def fullTable : ExtendibleHash Nat Nat :=
  { MaxNumKeyPerBucket := 2
    heap := [{ store := [(1, 10), (3, 30)], localDepth := 0, mask := 0, flag := 0 }]
    buckets_ := [0]
    globalDepth_ := 0
    globalMask_ := 0 }

/-- The table `fullTable` after `Insert(5, 50)`, which splits twice. -/
def splitTable : ExtendibleHash Nat Nat :=
  { MaxNumKeyPerBucket := 2
    heap := [{ store := [], localDepth := 1, mask := 1, flag := 0 },
             { store := [(1, 10), (5, 50)], localDepth := 2, mask := 3, flag := 1 },
             { store := [(3, 30)], localDepth := 2, mask := 3, flag := 3 }]
    buckets_ := [0, 1, 0, 2]
    globalDepth_ := 2
    globalMask_ := 3 }

/-- A table of capacity 2 after the keys 0, 1, 2, 3, 4 were inserted in that order. -/
def fiveKeyTable : ExtendibleHash Nat Nat :=
  { MaxNumKeyPerBucket := 2
    heap := [{ store := [(0, 0), (4, 40)], localDepth := 2, mask := 3, flag := 0 },
             { store := [(1, 10), (3, 30)], localDepth := 1, mask := 1, flag := 1 },
             { store := [(2, 20)], localDepth := 2, mask := 3, flag := 2 }]
    buckets_ := [0, 1, 2, 1]
    globalDepth_ := 2
    globalMask_ := 3 }

/-- A table of capacity 2 after the keys 0 to 7 were inserted in that order. -/
def eightKeyTable : ExtendibleHash Nat Nat :=
  { MaxNumKeyPerBucket := 2
    heap := [{ store := [(0, 0), (4, 40)], localDepth := 2, mask := 3, flag := 0 },
             { store := [(1, 10), (5, 50)], localDepth := 2, mask := 3, flag := 1 },
             { store := [(2, 20), (6, 60)], localDepth := 2, mask := 3, flag := 2 },
             { store := [(3, 30), (7, 70)], localDepth := 2, mask := 3, flag := 3 }]
    buckets_ := [0, 1, 2, 3]
    globalDepth_ := 2
    globalMask_ := 3 }

/-- A replacer after `Insert(1)`. -/
def singleReplacer : LRUReplacer Nat :=
  { size_ := 1
    list_ := [(0, 1)]
    nextNode := 1
    hash_ :=
      { MaxNumKeyPerBucket := 2
        heap := [{ store := [(1, 0)], localDepth := 0, mask := 0, flag := 0 }]
        buckets_ := [0]
        globalDepth_ := 0
        globalMask_ := 0 } }

/-- A replacer after `Insert(1); Insert(1)`: the index still maps 1 to the erased node 0. -/
def touchedReplacer : LRUReplacer Nat :=
  { size_ := 1
    list_ := [(1, 1)]
    nextNode := 2
    hash_ :=
      { MaxNumKeyPerBucket := 2
        heap := [{ store := [(1, 0)], localDepth := 0, mask := 0, flag := 0 }]
        buckets_ := [0]
        globalDepth_ := 0
        globalMask_ := 0 } }

/-- A replacer after `Insert(0); Insert(2 ^ 31)`. -/
def collidingReplacer : LRUReplacer Nat :=
  { size_ := 2
    list_ := [(1, 2147483648), (0, 0)]
    nextNode := 2
    hash_ :=
      { MaxNumKeyPerBucket := 2
        heap := [{ store := [(0, 0), (2147483648, 1)], localDepth := 0, mask := 0, flag := 0 }]
        buckets_ := [0]
        globalDepth_ := 0
        globalMask_ := 0 } }

/-- A replacer after `Insert(1); Insert(2); Insert(3); Insert(1)`. -/
def abcaReplacer : LRUReplacer Nat :=
  { size_ := 3
    list_ := [(3, 1), (2, 3), (1, 2)]
    nextNode := 4
    hash_ :=
      { MaxNumKeyPerBucket := 2
        heap := [{ store := [(2, 1)], localDepth := 1, mask := 1, flag := 0 },
                 { store := [(1, 0)], localDepth := 2, mask := 3, flag := 1 },
                 { store := [(3, 2)], localDepth := 2, mask := 3, flag := 3 }]
        buckets_ := [0, 1, 0, 2]
        globalDepth_ := 2
        globalMask_ := 3 } }

/-! # Theorems -/

set_option linter.unusedSectionVars false

/-! ## Maps and the loops of `extend` -/

theorem shl1u_of_lt {n : Nat} (h : n < 32) : shl1u n = some (2 ^ n) := by
  unfold shl1u
  rw [if_pos h, Nat.one_shiftLeft, Nat.mod_eq_of_lt (Nat.pow_lt_pow_right (by norm_num) h)]

theorem shl1u_of_ge {n : Nat} (h : 32 ≤ n) : shl1u n = none := by
  unfold shl1u
  rw [if_neg (by omega)]

namespace StdMap

variable {K V : Type} [DecidableEq K]

theorem find_eq_none_iff (m : StdMap K V) (key : K) :
    find m key = none ↔ key ∉ m.map Prod.fst := by
  induction m with
  | nil => simp [find]
  | cons e rest ih =>
    obtain ⟨k, v⟩ := e
    by_cases h : k = key
    · simp [find, h]
    · simp only [find, if_neg h, ih, List.map_cons, List.mem_cons]
      constructor
      · rintro h1 (h2 | h2)
        · exact h h2.symm
        · exact h1 h2
      · intro h1 h2
        exact h1 (Or.inr h2)

theorem mem_of_find_eq_some {m : StdMap K V} {key : K} {v : V} (h : find m key = some v) :
    (key, v) ∈ m := by
  induction m with
  | nil => simp [find] at h
  | cons e rest ih =>
    obtain ⟨k, w⟩ := e
    by_cases hk : k = key
    · simp only [find, if_pos hk, Option.some.injEq] at h
      subst hk; subst h
      exact List.mem_cons_self _ _
    · simp only [find, if_neg hk] at h
      exact List.mem_cons_of_mem _ (ih h)

theorem find_isSome_iff (m : StdMap K V) (key : K) :
    (find m key).isSome ↔ key ∈ m.map Prod.fst := by
  rw [← not_iff_not, ← find_eq_none_iff]
  cases find m key <;> simp

theorem find_filter_key (P : K → Bool) (m : StdMap K V) (key : K) :
    find (m.filter (fun e => P e.1)) key = if P key then find m key else none := by
  induction m with
  | nil => simp [find]
  | cons e rest ih =>
    obtain ⟨k, v⟩ := e
    by_cases hP : P k = true
    · rw [List.filter_cons_of_pos (by simpa using hP)]
      by_cases hk : k = key
      · subst hk
        simp [find, hP]
      · simp only [find, if_neg hk, ih]
    · rw [List.filter_cons_of_neg (by simpa using hP)]
      by_cases hk : k = key
      · subst hk
        simp only [find, if_true, ih, if_neg hP]
      · simp only [find, if_neg hk, ih]

theorem find_append (m m' : StdMap K V) (key : K) :
    find (m ++ m') key = (find m key).orElse (fun _ => find m' key) := by
  induction m with
  | nil => simp [find]
  | cons e rest ih =>
    obtain ⟨k, v⟩ := e
    by_cases hk : k = key
    · simp [find, hk]
    · rw [List.cons_append]
      simp only [find, if_neg hk]
      exact ih

theorem find_insert_self (m : StdMap K V) (key : K) (value : V) :
    find (insert m key value) key = some ((find m key).getD value) := by
  unfold insert
  cases h : find m key with
  | some w => simp [h]
  | none => simp [find_append, h, find]

theorem find_insert_of_ne (m : StdMap K V) {key key' : K} (value : V) (h : key' ≠ key) :
    find (insert m key value) key' = find m key' := by
  unfold insert
  cases find m key with
  | some w => rfl
  | none =>
    simp only [find_append, find, if_neg (Ne.symm h)]
    cases find m key' <;> rfl

theorem find_erase (m : StdMap K V) (key key' : K) :
    find (erase m key) key' = if key' = key then none else find m key' := by
  unfold erase
  rw [find_filter_key (fun k => decide (k ≠ key)) m key']
  by_cases h : key' = key <;> simp [h]

theorem eraseCount_pos_iff (m : StdMap K V) (key : K) :
    0 < eraseCount m key ↔ (find m key).isSome := by
  rw [find_isSome_iff]
  unfold eraseCount
  rw [List.countP_pos_iff]
  simp

theorem keys_insert (m : StdMap K V) (key : K) (value : V) :
    ∀ k, k ∈ (insert m key value).map Prod.fst ↔ k = key ∨ k ∈ m.map Prod.fst := by
  intro k
  unfold insert
  cases h : find m key with
  | some w =>
    have hk : key ∈ m.map Prod.fst := (find_isSome_iff m key).1 (by simp [h])
    constructor
    · exact Or.inr
    · rintro (rfl | h1)
      · exact hk
      · exact h1
  | none => simp [or_comm]

theorem nodup_insert {m : StdMap K V} (key : K) (value : V) (h : (m.map Prod.fst).Nodup) :
    ((insert m key value).map Prod.fst).Nodup := by
  unfold insert
  cases hf : find m key with
  | some w => exact h
  | none =>
    have hk := (find_eq_none_iff m key).1 hf
    simp only [List.map_append, List.map_cons, List.map_nil]
    rw [List.nodup_append]
    refine ⟨h, List.nodup_singleton _, ?_⟩
    intro a ha hb
    simp only [List.mem_singleton] at hb
    subst hb
    exact hk ha

omit [DecidableEq K] in
theorem nodup_filter {m : StdMap K V} (P : K × V → Bool) (h : (m.map Prod.fst).Nodup) :
    ((m.filter P).map Prod.fst).Nodup :=
  List.Nodup.sublist ((List.filter_sublist m).map Prod.fst) h

theorem length_insert (m : StdMap K V) (key : K) (value : V) :
    (insert m key value).length = if (find m key).isSome then m.length else m.length + 1 := by
  unfold insert
  cases find m key <;> simp

end StdMap

namespace ExtendibleHash

variable {K V : Type} [DecidableEq K] [StdHash K]

theorem inserterLoop_eq (mask flag : Nat) (l : StdMap K V) :
    ∀ acc : StdMap K V, (l.map Prod.fst).Nodup →
      (∀ k ∈ acc.map Prod.fst, k ∉ l.map Prod.fst) →
      inserterLoop mask flag l acc
        = acc ++ l.filter (fun e => decide (HashKey e.1 &&& mask = flag)) := by
  induction l with
  | nil => intro acc _ _; simp [inserterLoop]
  | cons e rest ih =>
    intro acc hl hd
    rw [List.map_cons, List.nodup_cons] at hl
    unfold inserterLoop
    by_cases hc : HashKey e.1 &&& mask = flag
    · have hnone : StdMap.find acc e.1 = none := by
        rw [StdMap.find_eq_none_iff]
        intro hmem
        exact hd _ hmem (by simp)
      rw [if_pos hc, List.filter_cons_of_pos (by simpa using hc)]
      have hins : StdMap.insert acc e.1 e.2 = acc ++ [e] := by
        unfold StdMap.insert
        rw [hnone]
      rw [hins, ih _ hl.2]
      · simp
      · intro k hk hk'
        simp only [List.map_append, List.map_cons, List.map_nil, List.mem_append,
          List.mem_singleton] at hk
        rcases hk with hk | hk
        · exact hd k hk (by simp [hk'])
        · subst hk
          exact hl.1 hk'
    · rw [if_neg hc, List.filter_cons_of_neg (by simpa using hc), ih _ hl.2]
      intro k hk hk'
      exact hd k hk (by simp [hk'])

omit [StdHash K] in
theorem eraseLoop_eq (ns : StdMap K V) :
    ∀ store : StdMap K V,
      eraseLoop ns store = store.filter (fun e => decide (e.1 ∉ ns.map Prod.fst)) := by
  induction ns with
  | nil => intro store; simp [eraseLoop]
  | cons e rest ih =>
    intro store
    unfold eraseLoop
    rw [ih, StdMap.erase, List.filter_filter]
    apply List.filter_congr
    intro x _
    simp only [List.map_cons, List.mem_cons, not_or, Bool.decide_and, ne_eq]
    rw [Bool.and_comm]

theorem eraseLoop_filter (P : K → Bool) (store : StdMap K V) :
    eraseLoop (store.filter (fun e => P e.1)) store = store.filter (fun e => !P e.1) := by
  rw [eraseLoop_eq]
  apply List.filter_congr
  intro x hx
  by_cases hP : P x.1 = true
  · have : x.1 ∈ (store.filter (fun e => P e.1)).map Prod.fst :=
      List.mem_map_of_mem _ (List.mem_filter.2 ⟨hx, hP⟩)
    simp [this, hP]
  · have : x.1 ∉ (store.filter (fun e => P e.1)).map Prod.fst := by
      intro hmem
      obtain ⟨y, hy, hxy⟩ := List.mem_map.1 hmem
      rw [List.mem_filter] at hy
      rw [← hxy] at hP
      exact hP hy.2
    simp [this, hP]

theorem growLoop_eq (G : Nat) (dir0 : List Nat) (hlen : dir0.length = 2 ^ G) :
    ∀ n j, j + n = 2 ^ G →
      growLoop (2 ^ G - 1) n (2 ^ G + j) (dir0 ++ dir0.take j) = some (dir0 ++ dir0) := by
  intro n
  induction n with
  | zero =>
    intro j hj
    have : dir0.take j = dir0 := List.take_of_length_le (by omega)
    simp [growLoop, this]
  | succ n ih =>
    intro j hj
    have hjlt : j < dir0.length := by omega
    have hidx : (2 ^ G + j) &&& (2 ^ G - 1) = j := by
      rw [Nat.and_pow_two_sub_one_eq_mod, Nat.add_mod_left, Nat.mod_eq_of_lt (by omega)]
    have hget : (dir0 ++ dir0.take j)[j]? = some dir0[j] := by
      rw [List.getElem?_append_left hjlt, List.getElem?_eq_getElem hjlt]
    unfold growLoop
    rw [hidx, hget]
    have htake : dir0 ++ dir0.take j ++ [dir0[j]] = dir0 ++ dir0.take (j + 1) := by
      rw [List.append_assoc, List.take_succ, List.getElem?_eq_getElem hjlt]
      rfl
    simp only []
    rw [htake, Nat.add_assoc]
    exact ih (j + 1) (by omega)

theorem growLoop_double (G : Nat) (dir : List Nat) (hlen : dir.length = 2 ^ G) :
    growLoop (2 ^ G - 1) dir.length dir.length dir = some (dir ++ dir) := by
  have h := growLoop_eq G dir hlen (2 ^ G) 0 (by omega)
  simpa [hlen] using h

theorem length_rewriteLoop (mask flag nb : Nat) :
    ∀ n i dir, (rewriteLoop mask flag nb n i dir).length = dir.length := by
  intro n
  induction n with
  | zero => intro i dir; rfl
  | succ n ih =>
    intro i dir
    unfold rewriteLoop
    rw [ih]
    split <;> simp

theorem rewriteLoop_get (mask flag nb : Nat) :
    ∀ n i dir j, (rewriteLoop mask flag nb n i dir)[j]?
      = if i ≤ j ∧ j < i + n ∧ j &&& mask = flag ∧ j < dir.length then some nb else dir[j]? := by
  intro n
  induction n with
  | zero =>
    intro i dir j
    have : ¬ (i ≤ j ∧ j < i + 0 ∧ j &&& mask = flag ∧ j < dir.length) := by omega
    rw [if_neg this]
    rfl
  | succ n ih =>
    intro i dir j
    unfold rewriteLoop
    rw [ih]
    by_cases hc : i &&& mask = flag
    · rw [if_pos hc, List.length_set, List.getElem?_set]
      by_cases hij : i = j
      · subst hij
        by_cases hlt : i < dir.length
        · simp [hc, hlt]
        · have h1 : dir[i]? = none := List.getElem?_eq_none (by omega)
          simp [hc, hlt, h1]
      · rw [if_neg hij]
        by_cases hj : j &&& mask = flag ∧ j < dir.length
        · by_cases h1 : i + 1 ≤ j ∧ j < i + 1 + n
          · rw [if_pos ⟨h1.1, h1.2, hj⟩, if_pos ⟨by omega, by omega, hj⟩]
          · rw [if_neg (fun h => h1 ⟨h.1, h.2.1⟩), if_neg (fun h => h1 ⟨by omega, by omega⟩)]
        · rw [if_neg (fun h => hj h.2.2), if_neg (fun h => hj h.2.2)]
    · rw [if_neg hc]
      by_cases hij : i = j
      · subst hij
        rw [if_neg (fun h => by omega), if_neg (fun h => hc h.2.2.1)]
      · by_cases hj : j &&& mask = flag ∧ j < dir.length
        · by_cases h1 : i + 1 ≤ j ∧ j < i + 1 + n
          · rw [if_pos ⟨h1.1, h1.2, hj⟩, if_pos ⟨by omega, by omega, hj⟩]
          · rw [if_neg (fun h => h1 ⟨h.1, h.2.1⟩), if_neg (fun h => h1 ⟨by omega, by omega⟩)]
        · rw [if_neg (fun h => hj h.2.2), if_neg (fun h => hj h.2.2)]

theorem rewriteLoop_get_full (mask flag nb : Nat) (dir : List Nat) (j : Nat)
    (hj : j < dir.length) :
    (rewriteLoop mask flag nb dir.length 0 dir)[j]?
      = if j &&& mask = flag then some nb else dir[j]? := by
  rw [rewriteLoop_get]
  by_cases h : j &&& mask = flag
  · rw [if_pos ⟨by omega, by omega, h, hj⟩, if_pos h]
  · rw [if_neg (fun h' => h h'.2.2.1), if_neg h]

end ExtendibleHash

/-! ## The effect of `extend` on the directory -/

theorem mod_pow_succ_cases (x d : Nat) :
    x % 2 ^ (d + 1) = x % 2 ^ d ∨ x % 2 ^ (d + 1) = x % 2 ^ d + 2 ^ d := by
  rw [Nat.mod_pow_succ]
  rcases Nat.mod_two_eq_zero_or_one (x / 2 ^ d) with h | h <;> simp [h]

theorem mod_mod_pow (x : Nat) {d G : Nat} (h : d ≤ G) : x % 2 ^ G % 2 ^ d = x % 2 ^ d :=
  Nat.mod_mod_of_dvd x (Nat.pow_dvd_pow 2 h)

theorem mod_pow_lt (x d : Nat) : x % 2 ^ d < 2 ^ d :=
  Nat.mod_lt _ (Nat.pos_pow_of_pos d (by norm_num))

namespace ExtendibleHash

variable {K V : Type} [DecidableEq K] [StdHash K]

/-- The directory `extend` leaves behind, before the rewrite loop. -/
theorem extend_eq {s : ExtendibleHash K V} {id p : Nat} {b : Bucket K V}
    (hb : bucketAt s id = some (p, b)) (hd : b.localDepth < 31)
    (hdG : b.localDepth ≤ s.globalDepth_)
    (hmask : s.globalMask_ = 2 ^ s.globalDepth_ - 1)
    (hlen : s.buckets_.length = 2 ^ s.globalDepth_)
    (hnd : (b.store.map Prod.fst).Nodup) :
    extend s id = some
      { s with
        heap := s.heap.set p (splitLow b) ++ [splitHigh b]
        buckets_ :=
          if b.localDepth + 1 > s.globalDepth_ then
            rewriteLoop (2 ^ (b.localDepth + 1) - 1) (b.flag + 2 ^ b.localDepth) s.heap.length
              (s.buckets_ ++ s.buckets_).length 0 (s.buckets_ ++ s.buckets_)
          else
            rewriteLoop (2 ^ (b.localDepth + 1) - 1) (b.flag + 2 ^ b.localDepth) s.heap.length
              s.buckets_.length 0 s.buckets_
        globalDepth_ :=
          if b.localDepth + 1 > s.globalDepth_ then s.globalDepth_ + 1 else s.globalDepth_
        globalMask_ :=
          if b.localDepth + 1 > s.globalDepth_ then 2 ^ (s.globalDepth_ + 1) - 1
          else s.globalMask_ } := by
  have hins : inserterLoop (2 ^ (b.localDepth + 1) - 1) (b.flag + 2 ^ b.localDepth) b.store []
      = (splitHigh b).store := by
    rw [inserterLoop_eq _ _ _ _ hnd (by simp)]
    simp [splitHigh, Nat.and_pow_two_sub_one_eq_mod]
  have hers : eraseLoop (splitHigh b).store b.store = (splitLow b).store := by
    exact eraseLoop_filter
      (fun k => decide (HashKey k % 2 ^ (b.localDepth + 1) = b.flag + 2 ^ b.localDepth)) b.store
  unfold extend
  simp only [hb, Bucket.new, shl1u_of_lt (show b.localDepth + 1 < 32 by omega),
    Nat.add_sub_cancel, shl1u_of_lt (show b.localDepth < 32 by omega), hins, hers]
  by_cases hg : b.localDepth + 1 > s.globalDepth_
  · have hG : s.globalDepth_ + 1 < 32 := by omega
    simp only [hg, if_true, hmask, shl1u_of_lt hG]
    rw [growLoop_double s.globalDepth_ s.buckets_ hlen]
    rfl
  · simp only [hg, if_false]
    rfl

end ExtendibleHash

namespace ExtendibleHash

variable {K V : Type} [DecidableEq K] [StdHash K]

omit [DecidableEq K] [StdHash K] in
theorem bucketAt_eq_some_iff (s : ExtendibleHash K V) (i p : Nat) (b : Bucket K V) :
    bucketAt s i = some (p, b) ↔ s.buckets_[i]? = some p ∧ s.heap[p]? = some b := by
  unfold bucketAt
  constructor
  · intro h
    cases h1 : s.buckets_[i]? with
    | none => rw [h1] at h; simp at h
    | some r =>
      rw [h1] at h
      simp only at h
      cases h2 : s.heap[r]? with
      | none => rw [h2] at h; simp at h
      | some c =>
        rw [h2] at h
        simp only [Option.some.injEq, Prod.mk.injEq] at h
        obtain ⟨rfl, rfl⟩ := h
        exact ⟨rfl, h2⟩
  · rintro ⟨h1, h2⟩
    rw [h1]
    simp only
    rw [h2]

omit [DecidableEq K] in
theorem Inv.flag_lt {s : ExtendibleHash K V} (hinv : Inv s) {i p : Nat} {b : Bucket K V}
    (hi : i < 2 ^ s.globalDepth_) (hb : bucketAt s i = some (p, b)) :
    b.flag < 2 ^ b.localDepth ∧ BucketOk s.globalDepth_ i b := by
  obtain ⟨p', b', h1, h2⟩ := hinv.slot i hi
  rw [hb] at h1
  obtain ⟨rfl, rfl⟩ := Prod.mk.inj (Option.some.inj h1)
  exact ⟨h2.flag_eq ▸ mod_pow_lt _ _, h2⟩

theorem extend_spec {s : ExtendibleHash K V} (hinv : Inv s) {id p : Nat} {b : Bucket K V}
    (hid : id < 2 ^ s.globalDepth_) (hb : bucketAt s id = some (p, b))
    (hd : b.localDepth < 31) :
    ∃ s', extend s id = some s' ∧ s'.MaxNumKeyPerBucket = s.MaxNumKeyPerBucket ∧
      s.globalDepth_ ≤ s'.globalDepth_ ∧ s'.globalDepth_ ≤ 31 ∧
      b.localDepth + 1 ≤ s'.globalDepth_ ∧ s'.globalDepth_ ≤ s.globalDepth_ + 1 ∧
      s'.globalMask_ = 2 ^ s'.globalDepth_ - 1 ∧
      s'.buckets_.length = 2 ^ s'.globalDepth_ ∧
      ∀ i, i < 2 ^ s'.globalDepth_ → ∀ r c, bucketAt s (i % 2 ^ s.globalDepth_) = some (r, c) →
        bucketAt s' i =
          if r = p then
            if i % 2 ^ (b.localDepth + 1) = b.flag + 2 ^ b.localDepth then
              some (s.heap.length, splitHigh b)
            else some (p, splitLow b)
          else some (r, c) := by
  obtain ⟨hflt, hok⟩ := hinv.flag_lt hid hb
  have hdG := hok.depth_le
  have hG := hinv.depth_le
  refine ⟨_, extend_eq hb hd hdG hinv.mask_eq hinv.dir_len hok.nodup, rfl, ?_, ?_, ?_, ?_, ?_, ?_, ?_⟩
  · simp only; split <;> omega
  · simp only; split <;> omega
  · simp only; split <;> omega
  · simp only; split <;> omega
  · simp only
    split
    · rfl
    · exact hinv.mask_eq
  · simp only
    split
    · rw [length_rewriteLoop, List.length_append, hinv.dir_len, Nat.pow_succ]
      omega
    · rw [length_rewriteLoop, hinv.dir_len]
  · intro i hi r c hrc
    simp only at hi
    rw [bucketAt_eq_some_iff] at hrc hb
    obtain ⟨hr, hc⟩ := hrc
    have hrlt : r < s.heap.length := by
      by_contra hcon
      rw [List.getElem?_eq_none (by omega)] at hc
      exact absurd hc (by simp)
    have hplt : p < s.heap.length := by
      by_contra hcon
      have hb2 := hb.2
      rw [List.getElem?_eq_none (by omega)] at hb2
      exact absurd hb2 (by simp)
    have hlen := hinv.dir_len
    -- the directory before the rewrite loop
    have hpos : 0 < 2 ^ s.globalDepth_ := Nat.pos_pow_of_pos _ (by norm_num)
    have hdir : ∀ dir : List Nat,
        dir = (if b.localDepth + 1 > s.globalDepth_ then s.buckets_ ++ s.buckets_
          else s.buckets_) → i < dir.length ∧ dir[i]? = some r := by
      intro dir hdir
      subst hdir
      split
      · rename_i hg
        rw [if_pos hg, Nat.pow_succ] at hi
        rw [List.length_append, hinv.dir_len]
        refine ⟨by omega, ?_⟩
        by_cases hlt : i < 2 ^ s.globalDepth_
        · rw [List.getElem?_append_left (by omega), ← hr, Nat.mod_eq_of_lt hlt]
        · rw [List.getElem?_append_right (by omega), ← hr, hinv.dir_len]
          congr 1
          rw [Nat.mod_eq_sub_mod (by omega), Nat.mod_eq_of_lt (by omega)]
      · rename_i hg
        rw [if_neg hg] at hi
        rw [hinv.dir_len]
        refine ⟨hi, ?_⟩
        rw [← hr, Nat.mod_eq_of_lt hi]
    -- the slot after the rewrite loop
    have hslot : (if b.localDepth + 1 > s.globalDepth_ then
          rewriteLoop (2 ^ (b.localDepth + 1) - 1) (b.flag + 2 ^ b.localDepth) s.heap.length
            (s.buckets_ ++ s.buckets_).length 0 (s.buckets_ ++ s.buckets_)
        else
          rewriteLoop (2 ^ (b.localDepth + 1) - 1) (b.flag + 2 ^ b.localDepth) s.heap.length
            s.buckets_.length 0 s.buckets_)[i]?
        = if i % 2 ^ (b.localDepth + 1) = b.flag + 2 ^ b.localDepth then some s.heap.length
          else some r := by
      split
      · rename_i hg
        obtain ⟨h1, h2⟩ := hdir (s.buckets_ ++ s.buckets_) (by rw [if_pos hg])
        rw [rewriteLoop_get_full _ _ _ _ _ h1, Nat.and_pow_two_sub_one_eq_mod, h2]
      · rename_i hg
        obtain ⟨h1, h2⟩ := hdir s.buckets_ (by rw [if_neg hg])
        rw [rewriteLoop_get_full _ _ _ _ _ h1, Nat.and_pow_two_sub_one_eq_mod, h2]
    have hshare : i % 2 ^ b.localDepth = b.flag → r = p := by
      intro h
      have h1 := hinv.share (i % 2 ^ s.globalDepth_) id p b (Nat.mod_lt _ hpos) hid
        ((bucketAt_eq_some_iff _ _ _ _).2 hb) (by rw [mod_mod_pow _ hdG]; exact h)
      rw [bucketAt_eq_some_iff, hr] at h1
      exact Option.some.inj h1.1
    by_cases hhi : i % 2 ^ (b.localDepth + 1) = b.flag + 2 ^ b.localDepth
    · have hrp : r = p := by
        apply hshare
        have h1 := mod_pow_succ_cases i b.localDepth
        have h2 := mod_pow_lt i b.localDepth
        omega
      rw [if_pos hrp, if_pos hhi, bucketAt_eq_some_iff]
      simp only
      rw [hslot, if_pos hhi]
      refine ⟨rfl, ?_⟩
      have : s.heap.length = (s.heap.set p (splitLow b)).length := by simp
      rw [List.getElem?_append_right (by omega), ← this]
      simp
    · by_cases hrp : r = p
      · rw [if_pos hrp, if_neg hhi, bucketAt_eq_some_iff]
        simp only
        rw [hslot, if_neg hhi]
        refine ⟨by rw [hrp], ?_⟩
        rw [List.getElem?_append_left (by simpa using hplt), List.getElem?_set]
        simp [hplt]
      · rw [if_neg hrp, bucketAt_eq_some_iff]
        simp only
        rw [hslot, if_neg hhi]
        refine ⟨rfl, ?_⟩
        rw [List.getElem?_append_left (by simpa using hrlt), List.getElem?_set,
          if_neg (Ne.symm hrp)]
        exact hc

end ExtendibleHash

/-! ## `extend` keeps the invariant -/

namespace ExtendibleHash

variable {K V : Type} [DecidableEq K] [StdHash K]

theorem BucketOk.splitHigh {G i : Nat} {b : Bucket K V} (hok : BucketOk G (i % 2 ^ G) b)
    {G' : Nat} (hG : b.localDepth + 1 ≤ G')
    (hi : i % 2 ^ (b.localDepth + 1) = b.flag + 2 ^ b.localDepth) :
    BucketOk G' i (splitHigh b) where
  depth_le := hG
  mask_eq := rfl
  flag_eq := hi
  keys := by
    intro e he
    simp only [ExtendibleHash.splitHigh, List.mem_filter, decide_eq_true_eq] at he
    exact he.2
  nodup := StdMap.nodup_filter _ hok.nodup

theorem BucketOk.splitLow {G i : Nat} {b : Bucket K V} (hok : BucketOk G (i % 2 ^ G) b)
    {G' : Nat} (hG : b.localDepth + 1 ≤ G')
    (hi : ¬ i % 2 ^ (b.localDepth + 1) = b.flag + 2 ^ b.localDepth) :
    BucketOk G' i (splitLow b) where
  depth_le := hG
  mask_eq := rfl
  flag_eq := by
    have h0 := hok.flag_eq
    rw [mod_mod_pow _ hok.depth_le] at h0
    have h1 := mod_pow_succ_cases i b.localDepth
    show i % 2 ^ (b.localDepth + 1) = b.flag
    omega
  keys := by
    intro e he
    simp only [ExtendibleHash.splitLow, List.mem_filter, Bool.not_eq_true', decide_eq_false_iff_not] at he
    have h0 := hok.keys e he.1
    have h1 := mod_pow_succ_cases (HashKey e.1) b.localDepth
    show HashKey e.1 % 2 ^ (b.localDepth + 1) = b.flag
    omega
  nodup := StdMap.nodup_filter _ hok.nodup

theorem BucketOk.lift {G i : Nat} {b : Bucket K V} (hok : BucketOk G (i % 2 ^ G) b)
    {G' : Nat} (hG : G ≤ G') : BucketOk G' i b where
  depth_le := le_trans hok.depth_le hG
  mask_eq := hok.mask_eq
  flag_eq := by
    have h0 := hok.flag_eq
    rwa [mod_mod_pow _ hok.depth_le] at h0
  keys := hok.keys
  nodup := hok.nodup

theorem extend_inv {s : ExtendibleHash K V} (hinv : Inv s) {id p : Nat} {b : Bucket K V}
    (hid : id < 2 ^ s.globalDepth_) (hb : bucketAt s id = some (p, b))
    (hd : b.localDepth < 31) {s' : ExtendibleHash K V} (hs' : extend s id = some s') :
    Inv s' := by
  obtain ⟨s'', he, -, hGG, hG31, hdG', -, hmask, hlen, hat⟩ := extend_spec hinv hid hb hd
  rw [he] at hs'
  obtain rfl := Option.some.inj hs'
  obtain ⟨hflt, hok⟩ := hinv.flag_lt hid hb
  have hpos : 0 < 2 ^ s.globalDepth_ := Nat.pos_pow_of_pos _ (by norm_num)
  -- a slot of the old directory holding the split bucket sees `b`
  have hsame : ∀ j c, bucketAt s j = some (p, c) → c = b := by
    intro j c hj
    rw [bucketAt_eq_some_iff] at hj hb
    exact Option.some.inj (hj.2.symm.trans hb.2)
  refine ⟨hG31, hmask, hlen, ?_, ?_⟩
  · intro i hi
    obtain ⟨r, c, hrc, hokc⟩ := hinv.slot (i % 2 ^ s.globalDepth_) (Nat.mod_lt _ hpos)
    have h := hat i hi r c hrc
    by_cases hrp : r = p
    · subst hrp
      obtain rfl := hsame _ _ hrc
      rw [if_pos rfl] at h
      by_cases hhi : i % 2 ^ (c.localDepth + 1) = c.flag + 2 ^ c.localDepth
      · rw [if_pos hhi] at h
        exact ⟨_, _, h, BucketOk.splitHigh hokc hdG' hhi⟩
      · rw [if_neg hhi] at h
        exact ⟨_, _, h, BucketOk.splitLow hokc hdG' hhi⟩
    · rw [if_neg hrp] at h
      exact ⟨_, _, h, BucketOk.lift hokc hGG⟩
  · intro i j q c hi hj hjc hic
    obtain ⟨r, c0, hrc, hokc⟩ := hinv.slot (j % 2 ^ s.globalDepth_) (Nat.mod_lt _ hpos)
    obtain ⟨ri, ci, hri, hoki⟩ := hinv.slot (i % 2 ^ s.globalDepth_) (Nat.mod_lt _ hpos)
    have hj' := hat j hj r c0 hrc
    have hi' := hat i hi ri ci hri
    rw [hjc] at hj'
    have hsh : ∀ (c1 : Bucket K V) (r1 : Nat), bucketAt s (j % 2 ^ s.globalDepth_) = some (r1, c1) →
        i % 2 ^ c1.localDepth = c1.flag → ri = r1 ∧ ci = c1 := by
      intro c1 r1 h1 h2
      have hle : c1.localDepth ≤ s.globalDepth_ :=
        (hinv.flag_lt (Nat.mod_lt _ hpos) h1).2.depth_le
      have := hinv.share (i % 2 ^ s.globalDepth_) (j % 2 ^ s.globalDepth_) r1 c1
        (Nat.mod_lt _ hpos) (Nat.mod_lt _ hpos) h1 (by rw [mod_mod_pow _ hle]; exact h2)
      rw [hri] at this
      exact Prod.mk.inj (Option.some.inj this)
    by_cases hrp : r = p
    · subst hrp
      obtain rfl := hsame _ _ hrc
      rw [if_pos rfl] at hj'
      have hib : i % 2 ^ c0.localDepth = c0.flag := by
        have h1 := mod_pow_succ_cases i c0.localDepth
        have h2 := mod_pow_lt i c0.localDepth
        by_cases hhj : j % 2 ^ (c0.localDepth + 1) = c0.flag + 2 ^ c0.localDepth
        · rw [if_pos hhj] at hj'
          obtain ⟨-, rfl⟩ := Prod.mk.inj (Option.some.inj hj')
          simp only [ExtendibleHash.splitHigh] at hic
          omega
        · rw [if_neg hhj] at hj'
          obtain ⟨-, rfl⟩ := Prod.mk.inj (Option.some.inj hj')
          simp only [ExtendibleHash.splitLow] at hic
          omega
      obtain ⟨rfl, rfl⟩ := hsh _ _ hrc hib
      rw [if_pos rfl] at hi'
      by_cases hhj : j % 2 ^ (ci.localDepth + 1) = ci.flag + 2 ^ ci.localDepth
      · rw [if_pos hhj] at hj'
        obtain ⟨rfl, rfl⟩ := Prod.mk.inj (Option.some.inj hj')
        simp only [ExtendibleHash.splitHigh] at hic
        rw [hi', if_pos hic]
      · rw [if_neg hhj] at hj'
        obtain ⟨rfl, rfl⟩ := Prod.mk.inj (Option.some.inj hj')
        simp only [ExtendibleHash.splitLow] at hic
        rw [hi', if_neg (by omega)]
    · rw [if_neg hrp] at hj'
      obtain ⟨rfl, rfl⟩ := Prod.mk.inj (Option.some.inj hj')
      obtain ⟨rfl, rfl⟩ := hsh _ _ hrc hic
      rw [hi', if_neg hrp]

end ExtendibleHash

namespace ExtendibleHash

variable {K V : Type} [DecidableEq K] [StdHash K]

theorem Inv.slot_eq {s : ExtendibleHash K V} (hinv : Inv s) (key : K) :
    HashKey key &&& s.globalMask_ = HashKey key % 2 ^ s.globalDepth_ := by
  rw [hinv.mask_eq, Nat.and_pow_two_sub_one_eq_mod]

theorem Inv.slot_lt {s : ExtendibleHash K V} (_hinv : Inv s) (key : K) :
    HashKey key % 2 ^ s.globalDepth_ < 2 ^ s.globalDepth_ := mod_pow_lt _ _

/-- The bucket a key is routed to, with its well-formedness. -/
theorem Inv.bucket_of_key {s : ExtendibleHash K V} (hinv : Inv s) (key : K) :
    ∃ p b, bucketAt s (HashKey key &&& s.globalMask_) = some (p, b) ∧
      BucketOk s.globalDepth_ (HashKey key % 2 ^ s.globalDepth_) b ∧
      HashKey key % 2 ^ b.localDepth = b.flag := by
  rw [hinv.slot_eq]
  obtain ⟨p, b, h1, h2⟩ := hinv.slot _ (hinv.slot_lt key)
  refine ⟨p, b, h1, h2, ?_⟩
  have := h2.flag_eq
  rwa [mod_mod_pow _ h2.depth_le] at this

/-- One iteration of the loop of `Insert`: the split succeeds below depth 31, keeps the
invariant, leaves every lookup unchanged, and the bucket of `key` afterwards is one level
deeper and holds the entries of the old bucket that agree with `key` on one more hash bit. -/
theorem extend_at_key {s : ExtendibleHash K V} (hinv : Inv s) (key : K) {p : Nat}
    {b : Bucket K V} (hb : bucketAt s (HashKey key &&& s.globalMask_) = some (p, b))
    (hd : b.localDepth < 31) :
    ∃ s' p' b', extend s (HashKey key &&& s.globalMask_) = some s' ∧ Inv s' ∧
      s'.MaxNumKeyPerBucket = s.MaxNumKeyPerBucket ∧
      bucketAt s' (HashKey key &&& s'.globalMask_) = some (p', b') ∧
      b'.localDepth = b.localDepth + 1 ∧
      b'.store = b.store.filter (fun e =>
        decide (HashKey e.1 % 2 ^ (b.localDepth + 1) = HashKey key % 2 ^ (b.localDepth + 1))) ∧
      ∀ key' : K, Find s' key' = Find s key' := by
  have hb0 := hb
  rw [hinv.slot_eq] at hb
  obtain ⟨s', he, hmax, hGG, hG31, hdG', -, hmask, hlen, hat⟩ :=
    extend_spec hinv (hinv.slot_lt key) hb hd
  have hinv' : Inv s' := extend_inv hinv (hinv.slot_lt key) hb hd he
  obtain ⟨hflt, hok⟩ := hinv.flag_lt (hinv.slot_lt key) hb
  have hsame : ∀ j c, bucketAt s j = some (p, c) → c = b := by
    intro j c hj
    rw [bucketAt_eq_some_iff] at hj hb
    exact Option.some.inj (hj.2.symm.trans hb.2)
  -- the bucket of an arbitrary key after the split
  have hkey : ∀ key' : K, ∀ r c, bucketAt s (HashKey key' % 2 ^ s.globalDepth_) = some (r, c) →
      bucketAt s' (HashKey key' &&& s'.globalMask_) =
        if r = p then
          if HashKey key' % 2 ^ (b.localDepth + 1) = b.flag + 2 ^ b.localDepth then
            some (s.heap.length, splitHigh b)
          else some (p, splitLow b)
        else some (r, c) := by
    intro key' r c hrc
    rw [hinv'.slot_eq]
    have := hat _ (hinv'.slot_lt key') r c (by rw [mod_mod_pow _ hGG]; exact hrc)
    rw [mod_mod_pow _ hdG'] at this
    exact this
  have hkb : HashKey key % 2 ^ b.localDepth = b.flag := by
    have := hok.flag_eq
    rwa [mod_mod_pow _ hok.depth_le] at this
  rw [hinv.slot_eq]
  have hk := hkey key p b hb
  rw [if_pos rfl] at hk
  have hfind : ∀ key' : K, Find s' key' = Find s key' := by
    intro key'
    obtain ⟨r, c, hrc, hokc, hfl⟩ := hinv.bucket_of_key key'
    have h1 := hkey key' r c (by rwa [hinv.slot_eq] at hrc)
    unfold Find
    rw [hrc, h1]
    by_cases hrp : r = p
    · subst hrp
      obtain rfl := hsame _ _ hrc
      rw [if_pos rfl]
      by_cases hhi : HashKey key' % 2 ^ (c.localDepth + 1) = c.flag + 2 ^ c.localDepth
      · rw [if_pos hhi]
        simp only [splitHigh]
        rw [StdMap.find_filter_key
          (fun k => decide (HashKey k % 2 ^ (c.localDepth + 1) = c.flag + 2 ^ c.localDepth))]
        simp [hhi]
      · rw [if_neg hhi]
        simp only [splitLow]
        rw [StdMap.find_filter_key
          (fun k => !decide (HashKey k % 2 ^ (c.localDepth + 1) = c.flag + 2 ^ c.localDepth))]
        simp [hhi]
    · rw [if_neg hrp]
  by_cases hhi : HashKey key % 2 ^ (b.localDepth + 1) = b.flag + 2 ^ b.localDepth
  · rw [if_pos hhi] at hk
    refine ⟨s', _, _, he, hinv', hmax, hk, rfl, ?_, hfind⟩
    simp only [splitHigh, hhi]
  · rw [if_neg hhi] at hk
    refine ⟨s', _, _, he, hinv', hmax, hk, rfl, ?_, hfind⟩
    simp only [splitLow]
    apply List.filter_congr
    intro e he'
    have h0 := hok.keys e he'
    have h1 := mod_pow_succ_cases (HashKey e.1) b.localDepth
    have h2 := mod_pow_succ_cases (HashKey key) b.localDepth
    have h3 : (HashKey e.1 % 2 ^ (b.localDepth + 1) = HashKey key % 2 ^ (b.localDepth + 1)) ↔
        ¬ (HashKey e.1 % 2 ^ (b.localDepth + 1) = b.flag + 2 ^ b.localDepth) := by
      omega
    simp [h3]

end ExtendibleHash

/-! ## The loop of `Insert` -/

namespace ExtendibleHash

variable {K V : Type} [DecidableEq K] [StdHash K]

theorem extend_some_depth {s s' : ExtendibleHash K V} {id p : Nat} {b : Bucket K V}
    (hb : bucketAt s id = some (p, b)) (he : extend s id = some s') : b.localDepth < 31 := by
  by_contra hcon
  unfold extend at he
  rw [hb] at he
  simp only [shl1u_of_ge (show 32 ≤ b.localDepth + 1 by omega)] at he
  exact absurd he (by simp)

theorem extend_none_of_depth {s : ExtendibleHash K V} {id p : Nat} {b : Bucket K V}
    (hb : bucketAt s id = some (p, b)) (hd : 31 ≤ b.localDepth) : extend s id = none := by
  cases he : extend s id with
  | none => rfl
  | some s' => exact absurd (extend_some_depth hb he) (by omega)

/-- What a returning run of the loop of `Insert` guarantees. -/
theorem insertLoop_ok (key : K) :
    ∀ (fuel : Nat) (s s' : ExtendibleHash K V) (p : Nat), Inv s →
      insertLoop fuel s key = .ok (s', p) →
      Inv s' ∧ s'.MaxNumKeyPerBucket = s.MaxNumKeyPerBucket ∧
        (∀ key' : K, Find s' key' = Find s key') ∧
        ∃ b, bucketAt s' (HashKey key &&& s'.globalMask_) = some (p, b) ∧
          b.store.length < s'.MaxNumKeyPerBucket := by
  intro fuel
  induction fuel with
  | zero =>
    intro s s' p hinv h
    obtain ⟨q, b, hb, -, -⟩ := hinv.bucket_of_key key
    unfold insertLoop at h
    rw [hb] at h
    simp only at h
    by_cases hfull : b.store.length ≥ s.MaxNumKeyPerBucket
    · rw [if_pos hfull] at h
      exact absurd h (by simp)
    · rw [if_neg hfull] at h
      obtain ⟨rfl, rfl⟩ := Prod.mk.inj (Outcome.ok.inj h)
      exact ⟨hinv, rfl, fun _ => rfl, b, hb, by omega⟩
  | succ fuel ih =>
    intro s s' p hinv h
    obtain ⟨q, b, hb, -, -⟩ := hinv.bucket_of_key key
    unfold insertLoop at h
    rw [hb] at h
    simp only at h
    by_cases hfull : b.store.length ≥ s.MaxNumKeyPerBucket
    · rw [if_pos hfull] at h
      cases he : extend s (HashKey key &&& s.globalMask_) with
      | none =>
        rw [he] at h
        exact absurd h (by simp)
      | some s1 =>
        rw [he] at h
        simp only at h
        have hd := extend_some_depth hb he
        obtain ⟨s1', p', b', he', hinv1, hmax1, -, -, -, hfind1⟩ := extend_at_key hinv key hb hd
        rw [he] at he'
        obtain rfl := Option.some.inj he'
        obtain ⟨h1, h2, h3, h4⟩ := ih s1 s' p hinv1 h
        exact ⟨h1, h2.trans hmax1, fun k => (h3 k).trans (hfind1 k), h4⟩
    · rw [if_neg hfull] at h
      obtain ⟨rfl, rfl⟩ := Prod.mk.inj (Outcome.ok.inj h)
      exact ⟨hinv, rfl, fun _ => rfl, b, hb, by omega⟩

/-- The number of entries of a store whose hash agrees with that of `key` on the low 31 bits. -/
theorem countP_low_le (st : StdMap K V) (key : K) :
    st.countP (fun e => decide (HashKey e.1 % 2 ^ 31 = HashKey key % 2 ^ 31)) ≤ st.length :=
  List.countP_le_length _

theorem low_bits_of_low31 {x y d : Nat} (hd : d ≤ 31) (h : x % 2 ^ 31 = y % 2 ^ 31) :
    x % 2 ^ d = y % 2 ^ d := by
  rw [← mod_mod_pow x hd, ← mod_mod_pow y hd, h]

/-- The loop of `Insert` returns when fewer than `MaxNumKeyPerBucket` entries of the bucket of
`key` agree with `key` on the low 31 hash bits. -/
theorem insertLoop_terminates (key : K) :
    ∀ (fuel : Nat) (s : ExtendibleHash K V) (p : Nat) (b : Bucket K V), Inv s →
      bucketAt s (HashKey key &&& s.globalMask_) = some (p, b) →
      b.store.countP (fun e => decide (HashKey e.1 % 2 ^ 31 = HashKey key % 2 ^ 31))
        < s.MaxNumKeyPerBucket →
      31 - b.localDepth ≤ fuel →
      ∃ s' p', insertLoop fuel s key = .ok (s', p') := by
  intro fuel
  induction fuel with
  | zero =>
    intro s p b hinv hb hcnt hfuel
    unfold insertLoop
    rw [hb]
    simp only
    by_cases hfull : b.store.length ≥ s.MaxNumKeyPerBucket
    · exfalso
      obtain ⟨p', b', hb', hok, hfl⟩ := hinv.bucket_of_key key
      rw [hb] at hb'
      obtain ⟨rfl, rfl⟩ := Prod.mk.inj (Option.some.inj hb')
      have hd : b.localDepth = 31 := by
        have := hok.depth_le
        have := hinv.depth_le
        omega
      have hall : b.store.countP
          (fun e => decide (HashKey e.1 % 2 ^ 31 = HashKey key % 2 ^ 31)) = b.store.length := by
        rw [List.countP_eq_length]
        intro e he
        have := hok.keys e he
        rw [hd] at this hfl
        exact decide_eq_true (this.trans hfl.symm)
      omega
    · rw [if_neg hfull]
      exact ⟨_, _, rfl⟩
  | succ fuel ih =>
    intro s p b hinv hb hcnt hfuel
    unfold insertLoop
    rw [hb]
    simp only
    by_cases hfull : b.store.length ≥ s.MaxNumKeyPerBucket
    · rw [if_pos hfull]
      obtain ⟨p', b', hb', hok, hfl⟩ := hinv.bucket_of_key key
      rw [hb] at hb'
      obtain ⟨rfl, rfl⟩ := Prod.mk.inj (Option.some.inj hb')
      have hd : b.localDepth < 31 := by
        by_contra hcon
        have hd : b.localDepth = 31 := by
          have := hok.depth_le
          have := hinv.depth_le
          omega
        have hall : b.store.countP
            (fun e => decide (HashKey e.1 % 2 ^ 31 = HashKey key % 2 ^ 31)) = b.store.length := by
          rw [List.countP_eq_length]
          intro e he
          have := hok.keys e he
          rw [hd] at this hfl
          exact decide_eq_true (this.trans hfl.symm)
        omega
      obtain ⟨s1, p1, b1, he, hinv1, hmax1, hb1, hd1, hst1, -⟩ := extend_at_key hinv key hb hd
      rw [he]
      simp only
      apply ih s1 p1 b1 hinv1 hb1
      · rw [hmax1, hst1]
        exact lt_of_le_of_lt (List.Sublist.countP_le _ (List.filter_sublist _)) hcnt
      · omega
    · rw [if_neg hfull]
      exact ⟨_, _, rfl⟩

/-- The loop of `Insert` never returns when at least `MaxNumKeyPerBucket` entries of the bucket
of `key` agree with `key` on the low 31 hash bits. -/
theorem insertLoop_diverges (key : K) :
    ∀ (fuel : Nat) (s : ExtendibleHash K V) (p : Nat) (b : Bucket K V), Inv s →
      bucketAt s (HashKey key &&& s.globalMask_) = some (p, b) →
      s.MaxNumKeyPerBucket ≤
        b.store.countP (fun e => decide (HashKey e.1 % 2 ^ 31 = HashKey key % 2 ^ 31)) →
      ∀ r, insertLoop fuel s key ≠ .ok r := by
  intro fuel
  induction fuel with
  | zero =>
    intro s p b hinv hb hcnt r
    have hfull : b.store.length ≥ s.MaxNumKeyPerBucket := le_trans hcnt (countP_low_le _ _)
    unfold insertLoop
    rw [hb]
    simp only
    rw [if_pos hfull]
    simp
  | succ fuel ih =>
    intro s p b hinv hb hcnt r
    have hfull : b.store.length ≥ s.MaxNumKeyPerBucket := le_trans hcnt (countP_low_le _ _)
    unfold insertLoop
    rw [hb]
    simp only
    rw [if_pos hfull]
    by_cases hd : b.localDepth < 31
    · obtain ⟨s1, p1, b1, he, hinv1, hmax1, hb1, hd1, hst1, -⟩ := extend_at_key hinv key hb hd
      rw [he]
      simp only
      apply ih s1 p1 b1 hinv1 hb1
      rw [hmax1, hst1, List.countP_filter]
      refine le_trans hcnt (le_of_eq ?_)
      apply List.countP_congr
      intro e _
      simp only [decide_eq_true_eq, Bool.and_eq_true]
      constructor
      · intro h
        exact ⟨h, low_bits_of_low31 (by omega) h⟩
      · exact fun h => h.1
    · rw [extend_none_of_depth hb (by omega)]
      simp

end ExtendibleHash

/-! ## `Insert`, `Remove` and reachable tables -/

namespace StdMap

variable {K V : Type} [DecidableEq K]

theorem mem_insert {m : StdMap K V} {key : K} {value : V} {e : K × V}
    (h : e ∈ insert m key value) : e ∈ m ∨ e = (key, value) := by
  unfold insert at h
  cases hf : find m key with
  | some w => rw [hf] at h; exact Or.inl h
  | none =>
    rw [hf] at h
    simpa using h

theorem mem_erase {m : StdMap K V} {key : K} {e : K × V} (h : e ∈ erase m key) : e ∈ m :=
  (List.mem_filter.1 h).1

end StdMap

namespace ExtendibleHash

variable {K V : Type} [DecidableEq K] [StdHash K]

/-- Writing through the pointer `p` is seen by exactly the slots that hold `p`. -/
theorem bucketAt_setHeap (s : ExtendibleHash K V) {p : Nat} (b' : Bucket K V) {i r : Nat}
    {c : Bucket K V} (h : bucketAt s i = some (r, c)) :
    bucketAt { s with heap := s.heap.set p b' } i
      = if r = p then some (p, b') else some (r, c) := by
  rw [bucketAt_eq_some_iff] at h
  obtain ⟨h1, h2⟩ := h
  have hr : r < s.heap.length := by
    by_contra hcon
    rw [List.getElem?_eq_none (by omega)] at h2
    exact absurd h2 (by simp)
  by_cases hrp : r = p
  · subst hrp
    rw [if_pos rfl, bucketAt_eq_some_iff]
    refine ⟨h1, ?_⟩
    simp only
    rw [List.getElem?_set]
    simp [hr]
  · rw [if_neg hrp, bucketAt_eq_some_iff]
    refine ⟨h1, ?_⟩
    simp only
    rw [List.getElem?_set, if_neg (Ne.symm hrp)]
    exact h2

/-- Replacing the store of one bucket by entries that belong there keeps the invariant. -/
theorem Inv.setStore {s : ExtendibleHash K V} (hinv : Inv s) {p : Nat} {b : Bucket K V}
    (hp : s.heap[p]? = some b) (st : StdMap K V)
    (hkeys : ∀ e ∈ st, HashKey e.1 % 2 ^ b.localDepth = b.flag)
    (hnd : (st.map Prod.fst).Nodup) :
    Inv { s with heap := s.heap.set p { b with store := st } } := by
  have hsame : ∀ j c, bucketAt s j = some (p, c) → c = b := by
    intro j c hj
    rw [bucketAt_eq_some_iff] at hj
    exact Option.some.inj (hj.2.symm.trans hp)
  refine ⟨hinv.depth_le, hinv.mask_eq, hinv.dir_len, ?_, ?_⟩
  · intro i hi
    obtain ⟨r, c, hrc, hok⟩ := hinv.slot i hi
    have h := bucketAt_setHeap s { b with store := st } (p := p) hrc
    by_cases hrp : r = p
    · subst hrp
      obtain rfl := hsame _ _ hrc
      rw [if_pos rfl] at h
      exact ⟨_, _, h, ⟨hok.depth_le, hok.mask_eq, hok.flag_eq, hkeys, hnd⟩⟩
    · rw [if_neg hrp] at h
      exact ⟨_, _, h, hok⟩
  · intro i j q c hi hj hjc hic
    obtain ⟨r, c0, hrc, hok⟩ := hinv.slot j hj
    have h := bucketAt_setHeap s { b with store := st } (p := p) hrc
    simp only at hi hj
    rw [hjc] at h
    by_cases hrp : r = p
    · subst hrp
      obtain rfl := hsame _ _ hrc
      rw [if_pos rfl] at h
      obtain ⟨rfl, rfl⟩ := Prod.mk.inj (Option.some.inj h)
      have h1 := hinv.share i j q c0 hi hj hrc hic
      rw [bucketAt_setHeap s _ h1, if_pos rfl]
    · rw [if_neg hrp] at h
      obtain ⟨rfl, rfl⟩ := Prod.mk.inj (Option.some.inj h)
      have h1 := hinv.share i j q c hi hj hrc hic
      rw [bucketAt_setHeap s _ h1, if_neg hrp]

/-- Lookups routed to the bucket whose store is replaced. -/
theorem Find_setStore_same {s : ExtendibleHash K V} {p : Nat} (b : Bucket K V)
    (st : StdMap K V) {key : K} {c : Bucket K V}
    (hc : bucketAt s (HashKey key &&& s.globalMask_) = some (p, c)) :
    Find { s with heap := s.heap.set p { b with store := st } } key
      = .ok (StdMap.find st key) := by
  have h := bucketAt_setHeap s { b with store := st } (p := p) hc
  rw [if_pos rfl] at h
  unfold Find
  simp only at h ⊢
  rw [h]

/-- Lookups routed to any other bucket. -/
theorem Find_setStore_other {s : ExtendibleHash K V} {p : Nat} (b : Bucket K V)
    (st : StdMap K V) {key : K} {r : Nat} {c : Bucket K V}
    (hc : bucketAt s (HashKey key &&& s.globalMask_) = some (r, c)) (hrp : r ≠ p) :
    Find { s with heap := s.heap.set p { b with store := st } } key = Find s key := by
  have h := bucketAt_setHeap s { b with store := st } (p := p) hc
  rw [if_neg hrp] at h
  unfold Find
  simp only at h ⊢
  rw [h, hc]

theorem Find_ok {s : ExtendibleHash K V} (hinv : Inv s) (key : K) :
    ∃ p b, bucketAt s (HashKey key &&& s.globalMask_) = some (p, b) ∧
      Find s key = .ok (StdMap.find b.store key) := by
  obtain ⟨r, c, hrc, -, -⟩ := hinv.bucket_of_key key
  refine ⟨r, c, hrc, ?_⟩
  unfold Find
  rw [hrc]

/-- What a returning `Insert` guarantees. -/
theorem Insert_spec {s s' : ExtendibleHash K V} (hinv : Inv s) {fuel : Nat} {key : K} {value : V}
    (h : Insert fuel s key value = .ok s') :
    Inv s' ∧ s'.MaxNumKeyPerBucket = s.MaxNumKeyPerBucket ∧
      (∀ o, Find s key = .ok o → Find s' key = .ok (some (o.getD value))) ∧
      (∀ key' : K, key' ≠ key → Find s' key' = Find s key') := by
  unfold Insert at h
  cases hl : insertLoop fuel s key with
  | undefinedBehaviour => rw [hl] at h; exact absurd h (by simp)
  | outOfFuel => rw [hl] at h; exact absurd h (by simp)
  | ok r =>
    obtain ⟨s1, p⟩ := r
    rw [hl] at h
    simp only at h
    obtain ⟨hinv1, hmax1, hfind1, b, hb, hlen⟩ := insertLoop_ok key fuel s s1 p hinv hl
    have hp := ((bucketAt_eq_some_iff _ _ _ _).1 hb).2
    rw [hp] at h
    simp only at h
    obtain rfl := Outcome.ok.inj h
    obtain ⟨p', b', hb', hok, hfl⟩ := hinv1.bucket_of_key key
    rw [hb] at hb'
    obtain ⟨rfl, rfl⟩ := Prod.mk.inj (Option.some.inj hb')
    have hkeys : ∀ e ∈ StdMap.insert b.store key value,
        HashKey e.1 % 2 ^ b.localDepth = b.flag := by
      intro e he
      rcases StdMap.mem_insert he with he | rfl
      · exact hok.keys e he
      · exact hfl
    refine ⟨hinv1.setStore hp _ hkeys (StdMap.nodup_insert _ _ hok.nodup), hmax1, ?_, ?_⟩
    · intro o ho
      rw [Find_setStore_same b _ hb, StdMap.find_insert_self]
      have : Find s1 key = .ok (StdMap.find b.store key) := by
        unfold Find
        rw [hb]
      rw [hfind1 key, ho] at this
      rw [Outcome.ok.inj this]
    · intro key' hne
      rw [← hfind1 key']
      obtain ⟨p2, b2, hb2, hf2⟩ := Find_ok hinv1 key'
      by_cases hpp : p2 = p
      · subst hpp
        obtain rfl : b2 = b := by
          rw [bucketAt_eq_some_iff] at hb2
          exact Option.some.inj (hb2.2.symm.trans hp)
        rw [Find_setStore_same b2 _ hb2, hf2, StdMap.find_insert_of_ne _ _ hne]
      · exact Find_setStore_other b _ hb2 hpp

/-- What `Remove` does: it always returns, and only the store of one bucket changes. -/
theorem Remove_spec {s : ExtendibleHash K V} (hinv : Inv s) (key : K) :
    ∃ s' flag p b, Remove s key = .ok (s', flag) ∧ Inv s' ∧
      bucketAt s (HashKey key &&& s.globalMask_) = some (p, b) ∧
      s' = { s with heap := s.heap.set p { b with store := StdMap.erase b.store key } } ∧
      (flag = true ↔ (StdMap.find b.store key).isSome) ∧
      Find s key = .ok (StdMap.find b.store key) ∧
      Find s' key = .ok none ∧
      (∀ key' : K, key' ≠ key → Find s' key' = Find s key') := by
  obtain ⟨p, b, hb, hok, hfl⟩ := hinv.bucket_of_key key
  have hp := ((bucketAt_eq_some_iff _ _ _ _).1 hb).2
  have hkeys : ∀ e ∈ StdMap.erase b.store key, HashKey e.1 % 2 ^ b.localDepth = b.flag :=
    fun e he => hok.keys e (StdMap.mem_erase he)
  refine ⟨{ s with heap := s.heap.set p { b with store := StdMap.erase b.store key } },
    decide (StdMap.eraseCount b.store key > 0), p, b, ?_,
    hinv.setStore hp _ hkeys (StdMap.nodup_filter _ hok.nodup), hb, rfl, ?_, ?_, ?_, ?_⟩
  · unfold Remove
    rw [hb]
  · rw [decide_eq_true_eq, gt_iff_lt, StdMap.eraseCount_pos_iff]
  · unfold Find
    rw [hb]
  · rw [Find_setStore_same b _ hb, StdMap.find_erase, if_pos rfl]
  · intro key' hne
    obtain ⟨p2, b2, hb2, hf2⟩ := Find_ok hinv key'
    by_cases hpp : p2 = p
    · subst hpp
      obtain rfl : b2 = b := by
        rw [bucketAt_eq_some_iff] at hb2
        exact Option.some.inj (hb2.2.symm.trans hp)
      rw [Find_setStore_same b2 _ hb2, hf2, StdMap.find_erase, if_neg hne]
    · exact Find_setStore_other b _ hb2 hpp

theorem inv_new (B : Nat) : Inv (new B : ExtendibleHash K V) := by
  refine ⟨by simp [ExtendibleHash.new], by simp [ExtendibleHash.new], by simp [ExtendibleHash.new], ?_, ?_⟩
  · intro i hi
    simp only [ExtendibleHash.new, pow_zero, Nat.lt_one_iff] at hi
    subst hi
    refine ⟨0, { store := [], localDepth := 0, mask := (1 <<< 0) % 2 ^ 32 - 1, flag := 0 },
      rfl, ?_⟩
    exact ⟨Nat.le_refl _, by simp, by simp, by simp, by simp⟩
  · intro i j p b hi hj hb _
    simp only [ExtendibleHash.new, pow_zero, Nat.lt_one_iff] at hi hj
    subst hi; subst hj
    exact hb

/-- Every reachable table satisfies the invariant and keeps its capacity. -/
theorem Reachable.inv {B : Nat} {s : ExtendibleHash K V} (h : Reachable B s) :
    Inv s ∧ s.MaxNumKeyPerBucket = B := by
  induction h with
  | init => exact ⟨inv_new B, rfl⟩
  | insert fuel key value _ hins ih =>
    obtain ⟨h1, h2, -, -⟩ := Insert_spec ih.1 hins
    exact ⟨h1, h2.trans ih.2⟩
  | remove key flag _ hrem ih =>
    obtain ⟨s1, f1, p, b, h1, h2, -, h3, -⟩ := Remove_spec ih.1 key
    rw [h1] at hrem
    obtain ⟨rfl, rfl⟩ := Prod.mk.inj (Outcome.ok.inj hrem)
    refine ⟨h2, ?_⟩
    rw [h3]
    exact ih.2

end ExtendibleHash

/-! ## Stored keys; termination of `Insert` -/

namespace ExtendibleHash

variable {K V : Type} [DecidableEq K] [StdHash K]

theorem Inv.slot_of_ptr {s : ExtendibleHash K V} (hinv : Inv s) {p : Nat}
    (hp : p ∈ s.buckets_) :
    ∃ i b, i < 2 ^ s.globalDepth_ ∧ bucketAt s i = some (p, b) := by
  obtain ⟨i, hi⟩ := List.mem_iff_getElem?.1 hp
  have hlt : i < 2 ^ s.globalDepth_ := by
    by_contra hcon
    rw [List.getElem?_eq_none (by rw [hinv.dir_len]; omega)] at hi
    exact absurd hi (by simp)
  obtain ⟨r, b, hrb, -⟩ := hinv.slot i hlt
  have := ((bucketAt_eq_some_iff _ _ _ _).1 hrb).1
  rw [hi] at this
  obtain rfl := Option.some.inj this
  exact ⟨i, b, hlt, hrb⟩

theorem bucketAt_lt {s : ExtendibleHash K V} (hinv : Inv s) {i p : Nat} {b : Bucket K V}
    (h : bucketAt s i = some (p, b)) : i < 2 ^ s.globalDepth_ := by
  by_contra hcon
  have := ((bucketAt_eq_some_iff _ _ _ _).1 h).1
  rw [List.getElem?_eq_none (by rw [hinv.dir_len]; omega)] at this
  exact absurd this (by simp)

/-- Every entry of a referenced bucket sits in the bucket its key is routed to. -/
theorem Inv.key_home {s : ExtendibleHash K V} (hinv : Inv s) {i p : Nat} {b : Bucket K V}
    (hb : bucketAt s i = some (p, b)) {e : K × V} (he : e ∈ b.store) :
    bucketAt s (HashKey e.1 &&& s.globalMask_) = some (p, b) := by
  have hi := bucketAt_lt hinv hb
  obtain ⟨-, hok⟩ := hinv.flag_lt hi hb
  rw [hinv.slot_eq]
  apply hinv.share _ i p b (hinv.slot_lt _) hi hb
  rw [mod_mod_pow _ hok.depth_le]
  exact hok.keys e he

theorem bucketKeys_of_bucketAt {s : ExtendibleHash K V} {i p : Nat} {b : Bucket K V}
    (hb : bucketAt s i = some (p, b)) : bucketKeys s p = b.store.map Prod.fst := by
  unfold bucketKeys
  rw [((bucketAt_eq_some_iff _ _ _ _).1 hb).2]

theorem mem_buckets_of_bucketAt {s : ExtendibleHash K V} {i p : Nat} {b : Bucket K V}
    (hb : bucketAt s i = some (p, b)) : p ∈ s.buckets_ :=
  List.mem_iff_getElem?.2 ⟨i, ((bucketAt_eq_some_iff _ _ _ _).1 hb).1⟩

/-- A key is stored exactly when `Find` succeeds on it. -/
theorem mem_storedKeys_iff {s : ExtendibleHash K V} (hinv : Inv s) (key : K) :
    key ∈ storedKeys s ↔ ∃ v, Find s key = .ok (some v) := by
  obtain ⟨pk, bk, hbk, hfk⟩ := Find_ok hinv key
  unfold storedKeys
  rw [List.mem_flatMap]
  constructor
  · rintro ⟨p, hp, hmem⟩
    rw [List.mem_dedup] at hp
    obtain ⟨i, b, hi, hb⟩ := hinv.slot_of_ptr hp
    rw [bucketKeys_of_bucketAt hb] at hmem
    obtain ⟨e, he, rfl⟩ := List.mem_map.1 hmem
    have := hinv.key_home hb he
    rw [hbk] at this
    obtain ⟨rfl, rfl⟩ := Prod.mk.inj (Option.some.inj this)
    have hsome : (StdMap.find bk.store e.1).isSome :=
      (StdMap.find_isSome_iff _ _).2 (List.mem_map_of_mem _ he)
    obtain ⟨v, hv⟩ := Option.isSome_iff_exists.1 hsome
    exact ⟨v, by rw [hfk, hv]⟩
  · rintro ⟨v, hv⟩
    rw [hfk] at hv
    have hv' := Outcome.ok.inj hv
    refine ⟨pk, List.mem_dedup.2 (mem_buckets_of_bucketAt hbk), ?_⟩
    rw [bucketKeys_of_bucketAt hbk]
    exact (StdMap.find_isSome_iff _ _).1 (by rw [hv']; rfl)

theorem nodup_storedKeys {s : ExtendibleHash K V} (hinv : Inv s) : (storedKeys s).Nodup := by
  unfold storedKeys
  rw [List.nodup_flatMap]
  constructor
  · intro p hp
    rw [List.mem_dedup] at hp
    obtain ⟨i, b, hi, hb⟩ := hinv.slot_of_ptr hp
    rw [bucketKeys_of_bucketAt hb]
    exact (hinv.flag_lt hi hb).2.nodup
  · apply List.Nodup.pairwise_of_forall_ne (List.nodup_dedup _)
    intro p hp q hq hpq
    rw [List.mem_dedup] at hp hq
    obtain ⟨i, b, hi, hb⟩ := hinv.slot_of_ptr hp
    obtain ⟨j, c, hj, hc⟩ := hinv.slot_of_ptr hq
    show List.Disjoint (bucketKeys s p) (bucketKeys s q)
    rw [bucketKeys_of_bucketAt hb, bucketKeys_of_bucketAt hc]
    intro k hk1 hk2
    obtain ⟨e1, he1, rfl⟩ := List.mem_map.1 hk1
    obtain ⟨e2, he2, h12⟩ := List.mem_map.1 hk2
    have h1 := hinv.key_home hb he1
    have h2 := hinv.key_home hc he2
    rw [h12, h1] at h2
    exact hpq (Prod.mk.inj (Option.some.inj h2)).1

/-- The keys of the bucket a key is routed to are among the stored keys. -/
theorem bucket_sublist_storedKeys {s : ExtendibleHash K V} {i p : Nat} {b : Bucket K V}
    (hb : bucketAt s i = some (p, b)) : (b.store.map Prod.fst).Sublist (storedKeys s) := by
  unfold storedKeys
  rw [← bucketKeys_of_bucketAt hb, List.flatMap]
  apply List.sublist_flatten_of_mem
  exact List.mem_map_of_mem _ (List.mem_dedup.2 (mem_buckets_of_bucketAt hb))

/-- Under the invariant `Insert` returns whenever fewer than `MaxNumKeyPerBucket` stored keys
agree with `key` on the low 31 hash bits; 31 iterations of its loop are enough. -/
theorem Insert_terminates {s : ExtendibleHash K V} (hinv : Inv s) (key : K) (value : V)
    (hcnt : (storedKeys s).countP
        (fun k => decide (HashKey k % 2 ^ 31 = HashKey key % 2 ^ 31)) < s.MaxNumKeyPerBucket)
    {fuel : Nat} (hfuel : 31 ≤ fuel) :
    ∃ s', Insert fuel s key value = .ok s' := by
  obtain ⟨p, b, hb, -, -⟩ := hinv.bucket_of_key key
  have hle : b.store.countP (fun e => decide (HashKey e.1 % 2 ^ 31 = HashKey key % 2 ^ 31))
      ≤ (storedKeys s).countP (fun k => decide (HashKey k % 2 ^ 31 = HashKey key % 2 ^ 31)) := by
    have := List.Sublist.countP_le
      (fun k => decide (HashKey k % 2 ^ 31 = HashKey key % 2 ^ 31)) (bucket_sublist_storedKeys hb)
    rwa [List.countP_map] at this
  obtain ⟨s1, p1, hl⟩ := insertLoop_terminates key fuel s p b hinv hb (by omega) (by omega)
  obtain ⟨-, -, -, b1, hb1, -⟩ := insertLoop_ok key fuel s s1 p1 hinv hl
  unfold Insert
  rw [hl]
  simp only
  rw [((bucketAt_eq_some_iff _ _ _ _).1 hb1).2]
  exact ⟨_, rfl⟩

/-- The method `Insert` never returns on a key whose bucket already holds
`MaxNumKeyPerBucket` entries agreeing with the key on the low 31 hash bits. -/
theorem Insert_diverges {s : ExtendibleHash K V} (hinv : Inv s) (key : K) (value : V)
    {p : Nat} {b : Bucket K V}
    (hb : bucketAt s (HashKey key &&& s.globalMask_) = some (p, b))
    (hcnt : s.MaxNumKeyPerBucket ≤
      b.store.countP (fun e => decide (HashKey e.1 % 2 ^ 31 = HashKey key % 2 ^ 31)))
    (fuel : Nat) (s' : ExtendibleHash K V) : Insert fuel s key value ≠ .ok s' := by
  have h := insertLoop_diverges key fuel s p b hinv hb hcnt
  unfold Insert
  cases hl : insertLoop fuel s key with
  | ok r => exact absurd hl (h r)
  | undefinedBehaviour => simp
  | outOfFuel => simp

end ExtendibleHash

/-! ## Fuel; the access list -/

namespace ExtendibleHash

variable {K V : Type} [DecidableEq K] [StdHash K]

/-- More fuel does not change the result of a returning loop. -/
theorem insertLoop_mono (key : K) :
    ∀ (fuel fuel' : Nat) (s : ExtendibleHash K V) (r : ExtendibleHash K V × Nat),
      fuel ≤ fuel' → insertLoop fuel s key = .ok r → insertLoop fuel' s key = .ok r := by
  intro fuel
  induction fuel with
  | zero =>
    intro fuel' s r _ h
    cases hb : bucketAt s (HashKey key &&& s.globalMask_) with
    | none => unfold insertLoop at h; rw [hb] at h; exact absurd h (by simp)
    | some pb =>
      obtain ⟨p, b⟩ := pb
      unfold insertLoop at h
      rw [hb] at h
      simp only at h
      by_cases hfull : b.store.length ≥ s.MaxNumKeyPerBucket
      · rw [if_pos hfull] at h
        exact absurd h (by simp)
      · rw [if_neg hfull] at h
        cases fuel' with
        | zero => unfold insertLoop; rw [hb]; simp only; rw [if_neg hfull]; exact h
        | succ f => unfold insertLoop; rw [hb]; simp only; rw [if_neg hfull]; exact h
  | succ fuel ih =>
    intro fuel' s r hle h
    obtain ⟨f, rfl⟩ : ∃ f, fuel' = f + 1 := ⟨fuel' - 1, by omega⟩
    cases hb : bucketAt s (HashKey key &&& s.globalMask_) with
    | none => unfold insertLoop at h; rw [hb] at h; exact absurd h (by simp)
    | some pb =>
      obtain ⟨p, b⟩ := pb
      unfold insertLoop at h ⊢
      rw [hb] at h ⊢
      simp only at h ⊢
      by_cases hfull : b.store.length ≥ s.MaxNumKeyPerBucket
      · rw [if_pos hfull] at h ⊢
        cases he : extend s (HashKey key &&& s.globalMask_) with
        | none => rw [he] at h; exact absurd h (by simp)
        | some s1 => rw [he] at h; exact ih f s1 r (by omega) h
      · rw [if_neg hfull] at h ⊢
        exact h

theorem Insert_mono {fuel fuel' : Nat} {s s' : ExtendibleHash K V} {key : K} {value : V}
    (hle : fuel ≤ fuel') (h : Insert fuel s key value = .ok s') :
    Insert fuel' s key value = .ok s' := by
  unfold Insert at h ⊢
  cases hl : insertLoop fuel s key with
  | undefinedBehaviour => rw [hl] at h; exact absurd h (by simp)
  | outOfFuel => rw [hl] at h; exact absurd h (by simp)
  | ok r =>
    rw [hl] at h
    rw [insertLoop_mono key fuel fuel' s r hle hl]
    exact h

/-- With more than 31 units of fuel a loop that cannot return reaches the undefined shift. -/
theorem insertLoop_ub (key : K) :
    ∀ (fuel : Nat) (s : ExtendibleHash K V) (p : Nat) (b : Bucket K V), Inv s →
      bucketAt s (HashKey key &&& s.globalMask_) = some (p, b) →
      s.MaxNumKeyPerBucket ≤
        b.store.countP (fun e => decide (HashKey e.1 % 2 ^ 31 = HashKey key % 2 ^ 31)) →
      31 - b.localDepth < fuel →
      insertLoop fuel s key = .undefinedBehaviour := by
  intro fuel
  induction fuel with
  | zero => intro s p b _ _ _ h; omega
  | succ fuel ih =>
    intro s p b hinv hb hcnt hfuel
    have hfull : b.store.length ≥ s.MaxNumKeyPerBucket := le_trans hcnt (countP_low_le _ _)
    unfold insertLoop
    rw [hb]
    simp only
    rw [if_pos hfull]
    by_cases hd : b.localDepth < 31
    · obtain ⟨s1, p1, b1, he, hinv1, hmax1, hb1, hd1, hst1, -⟩ := extend_at_key hinv key hb hd
      rw [he]
      simp only
      apply ih s1 p1 b1 hinv1 hb1
      · rw [hmax1, hst1, List.countP_filter]
        refine le_trans hcnt (le_of_eq ?_)
        apply List.countP_congr
        intro e _
        simp only [decide_eq_true_eq, Bool.and_eq_true]
        constructor
        · intro h
          exact ⟨h, low_bits_of_low31 (by omega) h⟩
        · exact fun h => h.1
      · omega
    · rw [extend_none_of_depth hb (by omega)]

theorem Insert_ub {s : ExtendibleHash K V} (hinv : Inv s) (key : K) (value : V)
    {p : Nat} {b : Bucket K V}
    (hb : bucketAt s (HashKey key &&& s.globalMask_) = some (p, b))
    (hcnt : s.MaxNumKeyPerBucket ≤
      b.store.countP (fun e => decide (HashKey e.1 % 2 ^ 31 = HashKey key % 2 ^ 31)))
    {fuel : Nat} (hfuel : 31 < fuel) : Insert fuel s key value = .undefinedBehaviour := by
  unfold Insert
  rw [insertLoop_ub key fuel s p b hinv hb hcnt (by omega)]

end ExtendibleHash

namespace LRUReplacer

variable {T : Type} [DecidableEq T] [StdHash T]

omit [DecidableEq T] [StdHash T] in
/-- A successful `list_.erase(p)` unlinks the one node whose identity is `p`. -/
theorem listErase_some {l l' : List (Nat × T)} {p : Nat} (h : listErase l p = some l') :
    ∃ l1 node l2, l = l1 ++ node :: l2 ∧ node.1 = p ∧ l' = l1 ++ l2 := by
  induction l generalizing l' with
  | nil => simp [listErase] at h
  | cons n rest ih =>
    unfold listErase at h
    by_cases hn : n.1 = p
    · rw [if_pos hn] at h
      obtain rfl := Option.some.inj h
      exact ⟨[], n, rest, rfl, hn, rfl⟩
    · rw [if_neg hn] at h
      cases hr : listErase rest p with
      | none => rw [hr] at h; exact absurd h (by simp)
      | some rest' =>
        rw [hr] at h
        obtain rfl := Option.some.inj h
        obtain ⟨l1, node, l2, h1, h2, h3⟩ := ih hr
        exact ⟨n :: l1, node, l2, by rw [h1]; rfl, h2, by rw [h3]; rfl⟩

omit [DecidableEq T] [StdHash T] in
theorem listErase_of_mem {l : List (Nat × T)} {p : Nat} (h : p ∈ l.map Prod.fst) :
    ∃ l', listErase l p = some l' := by
  induction l with
  | nil => simp at h
  | cons n rest ih =>
    unfold listErase
    by_cases hn : n.1 = p
    · rw [if_pos hn]; exact ⟨_, rfl⟩
    · rw [if_neg hn]
      have : p ∈ rest.map Prod.fst := by
        rw [List.map_cons, List.mem_cons] at h
        rcases h with h | h
        · exact absurd h.symm hn
        · exact h
      obtain ⟨l', hl'⟩ := ih this
      rw [hl']
      exact ⟨_, rfl⟩

omit [DecidableEq T] [StdHash T] in
theorem listErase_none {l : List (Nat × T)} {p : Nat} (h : p ∉ l.map Prod.fst) :
    listErase l p = none := by
  cases hl : listErase l p with
  | none => rfl
  | some l' =>
    obtain ⟨l1, node, l2, h1, h2, -⟩ := listErase_some hl
    exfalso
    apply h
    rw [h1, ← h2]
    simp

theorem pushFront_ok {fuel : Nat} {r r' : LRUReplacer T} {value : T}
    (h : pushFront fuel r value = .ok r') :
    ∃ hash', ExtendibleHash.Insert fuel r.hash_ value r.nextNode = .ok hash' ∧
      r' = { r with list_ := (r.nextNode, value) :: r.list_, nextNode := r.nextNode + 1,
                    hash_ := hash' } := by
  unfold pushFront at h
  cases hi : ExtendibleHash.Insert fuel r.hash_ value r.nextNode with
  | ok hash' =>
    rw [hi] at h
    exact ⟨hash', rfl, (Outcome.ok.inj h).symm⟩
  | undefinedBehaviour => rw [hi] at h; exact absurd h (by simp)
  | outOfFuel => rw [hi] at h; exact absurd h (by simp)

end LRUReplacer

/-! ## Claims about the hash table -/

namespace ExtendibleHash

variable {K V : Type} [DecidableEq K] [StdHash K]

theorem oneKeyTable_reachable : Reachable 1 oneKeyTable :=
  Reachable.insert 0 0 5 Reachable.init (by decide)

theorem singletonTable_reachable : Reachable 2 singletonTable :=
  Reachable.insert 0 1 10 Reachable.init (by decide)

theorem fullTable_reachable : Reachable 2 fullTable :=
  Reachable.insert 0 3 30 singletonTable_reachable (by decide)

theorem splitTable_reachable : Reachable 2 splitTable :=
  Reachable.insert 2 5 50 fullTable_reachable (by decide)

/-- C1, as stated, fails: in the reachable table of capacity 1 holding key 0, the key `2 ^ 31`
is not stored, yet `Insert(2 ^ 31, 7)` returns for no amount of fuel, and once the fuel allows
32 iterations the loop reaches the undefined shift `1u << 32`: no `Find(2 ^ 31)` follows the
call and yields 7. -/
theorem roundtrip_counterexample :
    Reachable 1 oneKeyTable ∧ Find oneKeyTable (2 ^ 31) = .ok none ∧
    (∀ fuel s', Insert fuel oneKeyTable (2 ^ 31) 7 ≠ .ok s') ∧
    (∀ fuel, 31 < fuel → Insert fuel oneKeyTable (2 ^ 31) 7 = .undefinedBehaviour) ∧
    ¬ ∃ fuel s', Insert fuel oneKeyTable (2 ^ 31) 7 = .ok s' ∧
      Find s' (2 ^ 31) = .ok (some 7) := by
  have hdiv : ∀ fuel s', Insert fuel oneKeyTable (2 ^ 31) 7 ≠ .ok s' := by
    intro fuel s'
    exact Insert_diverges oneKeyTable_reachable.inv.1 (2 ^ 31) 7
      (p := 0) (b := { store := [(0, 5)], localDepth := 0, mask := 0, flag := 0 })
      (by decide) (by decide) fuel s'
  refine ⟨oneKeyTable_reachable, by decide, hdiv, ?_, ?_⟩
  · intro fuel hfuel
    exact Insert_ub oneKeyTable_reachable.inv.1 (2 ^ 31) 7
      (p := 0) (b := { store := [(0, 5)], localDepth := 0, mask := 0, flag := 0 })
      (by decide) (by decide) hfuel
  · rintro ⟨fuel, s', h, -⟩
    exact hdiv fuel s' h

/-- C1, amended. Round trip for a new key: in a table reachable by `Insert`/`Remove` calls, for
a key `k` on which `Find` fails, whenever `Insert(k, v)` returns (whatever number of splits and
directory doublings it made) the following `Find(k)` returns `true` with value `v`; and when
fewer than `B` stored keys agree with `k` on the low 31 hash bits, `Insert(k, v)` does return,
within 31 splits, and the following `Find(k)` returns `true` with value `v`. -/
theorem insert_find_roundtrip (B : Nat) (s : ExtendibleHash K V) (hs : Reachable B s)
    (k : K) (v : V) (hk : Find s k = .ok none) :
    (∀ fuel s', Insert fuel s k v = .ok s' → Find s' k = .ok (some v)) ∧
    ((storedKeys s).countP (fun k' => decide (HashKey k' % 2 ^ 31 = HashKey k % 2 ^ 31)) < B →
      ∀ fuel, 31 ≤ fuel → ∃ s', Insert fuel s k v = .ok s' ∧ Find s' k = .ok (some v)) := by
  obtain ⟨hinv, hB⟩ := hs.inv
  have h1 : ∀ fuel s', Insert fuel s k v = .ok s' → Find s' k = .ok (some v) := by
    intro fuel s' h
    exact (Insert_spec hinv h).2.2.1 none hk
  refine ⟨h1, ?_⟩
  intro hcnt fuel hfuel
  obtain ⟨s', hs'⟩ := Insert_terminates hinv k v (by rw [hB]; exact hcnt) hfuel
  exact ⟨s', hs', h1 fuel s' hs'⟩

/-- The round trip on the full table holding keys 1 and 3: no stored key agrees with key 5 on
the low 31 hash bits, and inserting key 5 splits twice. -/
theorem insert_find_roundtrip_witness :
    Reachable 2 fullTable ∧ Find fullTable 5 = .ok none ∧
    (storedKeys fullTable).countP
      (fun k' => decide (HashKey k' % 2 ^ 31 = HashKey 5 % 2 ^ 31)) < 2 ∧
    Insert 2 fullTable 5 50 = .ok splitTable ∧ Find splitTable 5 = .ok (some 50) ∧
    (∀ fuel s', Insert fuel fullTable 5 50 = .ok s' → Find s' 5 = .ok (some 50)) ∧
    (∀ fuel, 31 ≤ fuel →
      ∃ s', Insert fuel fullTable 5 50 = .ok s' ∧ Find s' 5 = .ok (some 50)) :=
  ⟨fullTable_reachable, by decide, by decide, by decide, by decide,
    (insert_find_roundtrip 2 fullTable fullTable_reachable 5 50 (by decide)).1,
    (insert_find_roundtrip 2 fullTable fullTable_reachable 5 50 (by decide)).2 (by decide)⟩

/-- C2. Overwrite semantics fail: with key 1 stored with value 10, `Insert(1, 20)` returns and
the following `Find(1)` still yields 10. -/
theorem insert_duplicate_keeps_old_value :
    Insert 0 (new 2) 1 10 = .ok singletonTable ∧
    Find singletonTable 1 = .ok (some 10) ∧
    Insert 0 singletonTable 1 20 = .ok singletonTable ∧
    (∀ fuel s', Insert fuel singletonTable 1 20 = .ok s' → Find s' 1 = .ok (some 10)) := by
  refine ⟨by decide, by decide, by decide, ?_⟩
  intro fuel s' h
  exact (Insert_spec singletonTable_reachable.inv.1 h).2.2.1 (some 10) (by decide)

/-- C3. Frame property of `Insert`: in a reachable table a returning `Insert(k, v)` leaves the
result of `Find(k')` unchanged for every `k' ≠ k`, whatever splits it made; `Insert(k, v)`
does return, within 31 splits, when fewer than `B` stored keys agree with `k` on the low 31
hash bits; and every entry of every bucket referenced by the directory sits in the bucket at
the slot `HashKey(key) & globalMask_`. -/
theorem insert_preserves_other_keys (B : Nat) (s : ExtendibleHash K V) (hs : Reachable B s) :
    (∀ (k k' : K) (v : V) (fuel : Nat) (s' : ExtendibleHash K V), k' ≠ k →
      Insert fuel s k v = .ok s' → Find s' k' = Find s k') ∧
    (∀ (k : K) (v : V),
      (storedKeys s).countP (fun k' => decide (HashKey k' % 2 ^ 31 = HashKey k % 2 ^ 31)) < B →
      ∀ fuel, 31 ≤ fuel →
        ∃ s', Insert fuel s k v = .ok s' ∧ ∀ k' : K, k' ≠ k → Find s' k' = Find s k') ∧
    (∀ (i p : Nat) (b : Bucket K V) (e : K × V), bucketAt s i = some (p, b) → e ∈ b.store →
      bucketAt s (HashKey e.1 &&& s.globalMask_) = some (p, b)) := by
  obtain ⟨hinv, hB⟩ := hs.inv
  refine ⟨?_, ?_, ?_⟩
  · intro k k' v fuel s' hne h
    exact (Insert_spec hinv h).2.2.2 k' hne
  · intro k v hcnt fuel hfuel
    obtain ⟨s', hs'⟩ := Insert_terminates hinv k v (by rw [hB]; exact hcnt) hfuel
    exact ⟨s', hs', (Insert_spec hinv hs').2.2.2⟩
  · intro i p b e hb he
    exact hinv.key_home hb he

/-- The frame property on the full table holding keys 1 and 3. -/
theorem insert_preserves_other_keys_witness :
    Reachable 2 fullTable ∧
    ((∀ (k k' : Nat) (v : Nat) (fuel : Nat) (s' : ExtendibleHash Nat Nat), k' ≠ k →
      Insert fuel fullTable k v = .ok s' → Find s' k' = Find fullTable k') ∧
    (∀ (k : Nat) (v : Nat),
      (storedKeys fullTable).countP
        (fun k' => decide (HashKey k' % 2 ^ 31 = HashKey k % 2 ^ 31)) < 2 →
      ∀ fuel, 31 ≤ fuel →
        ∃ s', Insert fuel fullTable k v = .ok s' ∧
          ∀ k' : Nat, k' ≠ k → Find s' k' = Find fullTable k') ∧
    (∀ (i p : Nat) (b : Bucket Nat Nat) (e : Nat × Nat), bucketAt fullTable i = some (p, b) →
      e ∈ b.store → bucketAt fullTable (HashKey e.1 &&& fullTable.globalMask_) = some (p, b))) :=
  ⟨fullTable_reachable, insert_preserves_other_keys 2 fullTable fullTable_reachable⟩

/-- C6. Result and effect of `Remove`: in a reachable table `Remove(k)` returns, its flag is
`true` exactly when `Find(k)` succeeds beforehand, `Find(k)` fails afterwards, and an
immediately repeated `Remove(k)` returns `false`. -/
theorem remove_result_and_effect (B : Nat) (s : ExtendibleHash K V) (hs : Reachable B s)
    (k : K) :
    ∃ s' flag, Remove s k = .ok (s', flag) ∧
      (flag = true ↔ ∃ v, Find s k = .ok (some v)) ∧
      Find s' k = .ok none ∧
      ∃ s'', Remove s' k = .ok (s'', false) := by
  obtain ⟨hinv, -⟩ := hs.inv
  obtain ⟨s', flag, p, b, hrem, hinv', hb, -, hflag, hfind, hfind', -⟩ := Remove_spec hinv k
  refine ⟨s', flag, hrem, ?_, hfind', ?_⟩
  · rw [hflag, hfind, Option.isSome_iff_exists]
    constructor
    · rintro ⟨v, hv⟩
      exact ⟨v, by rw [hv]⟩
    · rintro ⟨v, hv⟩
      exact ⟨v, Outcome.ok.inj hv⟩
  · obtain ⟨s'', flag', p', b', hrem', -, -, -, hflag', hfind'', -, -⟩ := Remove_spec hinv' k
    rw [hfind'] at hfind''
    have hnone : StdMap.find b'.store k = none := (Outcome.ok.inj hfind'').symm
    have : flag' = false := by
      cases flag' with
      | false => rfl
      | true =>
        have := hflag'.1 rfl
        rw [hnone] at this
        exact absurd this (by simp)
    exact ⟨s'', by rw [hrem', this]⟩

/-- Removing key 3 from the table obtained after two splits. -/
theorem remove_result_and_effect_witness :
    Reachable 2 splitTable ∧
    ∃ s' flag, Remove splitTable 3 = .ok (s', flag) ∧
      (flag = true ↔ ∃ v, Find splitTable 3 = .ok (some v)) ∧
      Find s' 3 = .ok none ∧
      ∃ s'', Remove s' 3 = .ok (s'', false) :=
  ⟨splitTable_reachable, remove_result_and_effect 2 splitTable splitTable_reachable 3⟩

/-- C9. A duplicate insert with capacity 1 never returns: after `Insert(0, 5)` on a fresh table
of capacity 1, the call `Insert(0, 5)` returns for no amount of fuel; once the fuel allows 32
iterations the loop reaches the undefined shift `1u << 32`. -/
theorem duplicate_insert_never_returns :
    Insert 0 (new 1) 0 5 = .ok oneKeyTable ∧
    (∀ fuel s', Insert fuel oneKeyTable 0 5 ≠ .ok s') ∧
    (∀ fuel, 31 < fuel → Insert fuel oneKeyTable 0 5 = .undefinedBehaviour) := by
  refine ⟨by decide, ?_, ?_⟩
  · intro fuel s'
    exact Insert_diverges oneKeyTable_reachable.inv.1 0 5
      (p := 0) (b := { store := [(0, 5)], localDepth := 0, mask := 0, flag := 0 })
      (by decide) (by decide) fuel s'
  · intro fuel hfuel
    exact Insert_ub oneKeyTable_reachable.inv.1 0 5
      (p := 0) (b := { store := [(0, 5)], localDepth := 0, mask := 0, flag := 0 })
      (by decide) (by decide) hfuel

/-- C10, as stated, fails: in the table of capacity 1 holding key 0, the key `2 ^ 31` is not
stored and no stored key has its 64-bit hash value, yet `Insert(2 ^ 31, 7)` never returns. -/
theorem insert_terminates_counterexample :
    Reachable 1 oneKeyTable ∧ Find oneKeyTable (2 ^ 31) = .ok none ∧
    (storedKeys oneKeyTable).countP
      (fun k' => decide (HashKey k' = HashKey ((2 : Nat) ^ 31))) < 1 ∧
    (∀ fuel s', Insert fuel oneKeyTable (2 ^ 31) 7 ≠ .ok s') := by
  refine ⟨oneKeyTable_reachable, by decide, by decide, ?_⟩
  intro fuel s'
  exact Insert_diverges oneKeyTable_reachable.inv.1 (2 ^ 31) 7
    (p := 0) (b := { store := [(0, 5)], localDepth := 0, mask := 0, flag := 0 })
    (by decide) (by decide) fuel s'

/-- C10, amended. In a reachable table of capacity `B`, if fewer than `B` of the stored keys
agree with `k` on the low 31 bits of the hash value, then `Insert(k, v)` returns after at
most 31 calls of `extend`. -/
theorem insert_terminates_low31 (B : Nat) (s : ExtendibleHash K V) (hs : Reachable B s)
    (k : K) (v : V)
    (hcnt : (storedKeys s).countP
      (fun k' => decide (HashKey k' % 2 ^ 31 = HashKey k % 2 ^ 31)) < B) :
    ∀ fuel, 31 ≤ fuel → ∃ s', Insert fuel s k v = .ok s' := by
  obtain ⟨hinv, hB⟩ := hs.inv
  intro fuel hfuel
  exact Insert_terminates hinv k v (by rw [hB]; exact hcnt) hfuel

/-- Termination of `Insert(5, 50)` on the full table holding keys 1 and 3. -/
theorem insert_terminates_low31_witness :
    Reachable 2 fullTable ∧
    (storedKeys fullTable).countP
      (fun k' => decide (HashKey k' % 2 ^ 31 = HashKey 5 % 2 ^ 31)) < 2 ∧
    ∀ fuel, 31 ≤ fuel → ∃ s', Insert fuel fullTable 5 50 = .ok s' :=
  ⟨fullTable_reachable, by decide,
    insert_terminates_low31 2 fullTable fullTable_reachable 5 50 (by decide)⟩

end ExtendibleHash

/-! ## The invariant of the replacer -/

namespace LRUReplacer

variable {T : Type} [DecidableEq T] [StdHash T]

open ExtendibleHash in
/-- Under the invariant `Find` on the index returns. -/
theorem LInv.find_ok {r : LRUReplacer T} (h : LInv r) (x : T) :
    ∃ o, ExtendibleHash.Find r.hash_ x = .ok o := by
  obtain ⟨p, b, -, hf⟩ := Find_ok h.hash_inv x
  exact ⟨_, hf⟩

theorem LInv.find_none {r : LRUReplacer T} (h : LInv r) {x : T} (hx : x ∉ values r) :
    ExtendibleHash.Find r.hash_ x = .ok none := by
  obtain ⟨o, ho⟩ := h.find_ok x
  cases o with
  | none => exact ho
  | some p => exact absurd ((h.tracked x).2 ⟨p, ho⟩) hx

theorem linv_new : LInv (new : LRUReplacer T) where
  hash_inv := ExtendibleHash.inv_new 2
  capacity := rfl
  size_eq := rfl
  nodup := List.nodup_nil
  ids_lt := by intro node h; simp [LRUReplacer.new] at h
  cursor_lt := by
    intro x p h
    simp [LRUReplacer.new, ExtendibleHash.new, ExtendibleHash.Find, ExtendibleHash.bucketAt,
      StdMap.find] at h
  cursor := by intro x p _ node h; simp [LRUReplacer.new] at h
  tracked := by
    intro x
    simp [LRUReplacer.new, values, ExtendibleHash.new, ExtendibleHash.Find,
      ExtendibleHash.bucketAt, StdMap.find]

/-- The invariant after pushing an element that was not tracked. -/
theorem LInv.push_new {r : LRUReplacer T} (h : LInv r) {x : T} (hx : x ∉ values r)
    {fuel : Nat} {hash' : ExtendibleHash T Nat}
    (hi : ExtendibleHash.Insert fuel r.hash_ x r.nextNode = .ok hash') :
    LInv { r with size_ := r.size_ + 1, list_ := (r.nextNode, x) :: r.list_,
                  nextNode := r.nextNode + 1, hash_ := hash' } := by
  obtain ⟨hinv', hcap', hself, hother⟩ := ExtendibleHash.Insert_spec h.hash_inv hi
  have hfx := hself none (h.find_none hx)
  simp only [Option.getD_none] at hfx
  refine ⟨hinv', hcap'.trans h.capacity, ?_, ?_, ?_, ?_, ?_, ?_⟩
  · simp [h.size_eq]
  · show (x :: values r).Nodup
    exact List.nodup_cons.2 ⟨hx, h.nodup⟩
  · intro node hn
    simp only [List.mem_cons] at hn
    rcases hn with rfl | hn
    · simp
    · have := h.ids_lt node hn
      simp only
      omega
  · intro y p hy
    simp only at hy ⊢
    by_cases hyx : y = x
    · subst hyx
      rw [hfx] at hy
      have := Option.some.inj (Outcome.ok.inj hy)
      omega
    · rw [hother y hyx] at hy
      have := h.cursor_lt y p hy
      omega
  · intro y p hy node hn hnp
    simp only at hy hn
    simp only [List.mem_cons] at hn
    by_cases hyx : y = x
    · subst hyx
      rw [hfx] at hy
      have hp := Option.some.inj (Outcome.ok.inj hy)
      rcases hn with rfl | hn
      · rfl
      · have := h.ids_lt node hn
        omega
    · rw [hother y hyx] at hy
      rcases hn with rfl | hn
      · have := h.cursor_lt y p hy
        simp only at hnp
        omega
      · exact h.cursor y p hy node hn hnp
  · intro y
    show y ∈ x :: values r ↔ _
    simp only [List.mem_cons]
    by_cases hyx : y = x
    · subst hyx
      simp only [true_or, true_iff]
      exact ⟨_, hfx⟩
    · rw [hother y hyx, ← h.tracked y]
      simp [hyx]

omit [DecidableEq T] [StdHash T] in
theorem values_split {r : LRUReplacer T} {l1 l2 : List (Nat × T)} {node : Nat × T}
    (hl : r.list_ = l1 ++ node :: l2) :
    values r = l1.map Prod.snd ++ node.2 :: l2.map Prod.snd := by
  simp [values, hl]

/-- The invariant after an already tracked element is unlinked and pushed again. -/
theorem LInv.push_touch {r : LRUReplacer T} (h : LInv r) {l1 l2 : List (Nat × T)}
    {node : Nat × T} (hl : r.list_ = l1 ++ node :: l2)
    {fuel : Nat} {hash' : ExtendibleHash T Nat}
    (hi : ExtendibleHash.Insert fuel r.hash_ node.2 r.nextNode = .ok hash') :
    LInv { r with list_ := (r.nextNode, node.2) :: (l1 ++ l2),
                  nextNode := r.nextNode + 1, hash_ := hash' } := by
  obtain ⟨hinv', hcap', hself, hother⟩ := ExtendibleHash.Insert_spec h.hash_inv hi
  have hvals := values_split hl
  have hnd := h.nodup
  rw [hvals] at hnd
  have hmem : node.2 ∈ values r := by rw [hvals]; simp
  obtain ⟨p, hp⟩ := (h.tracked node.2).1 hmem
  have hfx := hself _ hp
  simp only [Option.getD_some] at hfx
  have hfind : ∀ y, ExtendibleHash.Find hash' y = ExtendibleHash.Find r.hash_ y := by
    intro y
    by_cases hyx : y = node.2
    · rw [hyx, hfx, hp]
    · exact hother y hyx
  have hsub : ∀ n ∈ l1 ++ l2, n ∈ r.list_ := by
    intro n hn
    rw [hl]
    simp only [List.mem_append, List.mem_cons] at hn ⊢
    tauto
  have hnd' : (l1.map Prod.snd ++ l2.map Prod.snd).Nodup ∧
      node.2 ∉ l1.map Prod.snd ++ l2.map Prod.snd := by
    rw [List.nodup_append] at hnd ⊢
    obtain ⟨h1, h2, h3⟩ := hnd
    rw [List.nodup_cons] at h2
    refine ⟨⟨h1, h2.2, ?_⟩, ?_⟩
    · intro a ha hb
      exact h3 ha (List.mem_cons_of_mem _ hb)
    · intro hmem
      rw [List.mem_append] at hmem
      rcases hmem with hm | hm
      · exact h3 hm (List.mem_cons_self _ _)
      · exact h2.1 hm
  refine ⟨hinv', hcap'.trans h.capacity, ?_, ?_, ?_, ?_, ?_, ?_⟩
  · simp only [List.length_cons, List.length_append]
    rw [h.size_eq, hl]
    simp
    omega
  · show (List.map Prod.snd ((r.nextNode, node.2) :: (l1 ++ l2))).Nodup
    rw [List.map_cons, List.map_append]
    exact List.nodup_cons.2 ⟨hnd'.2, hnd'.1⟩
  · intro n hn
    simp only [List.mem_cons] at hn
    rcases hn with rfl | hn
    · simp
    · have := h.ids_lt n (hsub n hn)
      simp only
      omega
  · intro y q hy
    simp only at hy ⊢
    rw [hfind y] at hy
    have := h.cursor_lt y q hy
    omega
  · intro y q hy n hn hnq
    simp only at hy hn
    rw [hfind y] at hy
    simp only [List.mem_cons] at hn
    rcases hn with rfl | hn
    · have := h.cursor_lt y q hy
      simp only at hnq
      omega
    · exact h.cursor y q hy n (hsub n hn) hnq
  · intro y
    show y ∈ List.map Prod.snd ((r.nextNode, node.2) :: (l1 ++ l2)) ↔ _
    rw [hfind y, ← h.tracked y, hvals]
    simp only [List.map_cons, List.map_append, List.mem_cons, List.mem_append]
    tauto

/-- The invariant after a node is unlinked and its element dropped from the index. -/
theorem LInv.remove_node {r : LRUReplacer T} (h : LInv r) {l1 l2 : List (Nat × T)}
    {node : Nat × T} (hl : r.list_ = l1 ++ node :: l2)
    {hash' : ExtendibleHash T Nat} {flag : Bool}
    (hrem : ExtendibleHash.Remove r.hash_ node.2 = .ok (hash', flag)) :
    LInv { r with hash_ := hash', list_ := l1 ++ l2, size_ := r.size_ - 1 } := by
  obtain ⟨s', f', p, b, hrem', hinv', -, hs', -, -, hnone, hother⟩ :=
    ExtendibleHash.Remove_spec h.hash_inv node.2
  rw [hrem] at hrem'
  obtain ⟨rfl, rfl⟩ := Prod.mk.inj (Outcome.ok.inj hrem')
  have hvals := values_split hl
  have hnd := h.nodup
  rw [hvals] at hnd
  have hsub : ∀ n ∈ l1 ++ l2, n ∈ r.list_ := by
    intro n hn
    rw [hl]
    simp only [List.mem_append, List.mem_cons] at hn ⊢
    tauto
  have hnd' : (l1.map Prod.snd ++ l2.map Prod.snd).Nodup ∧
      node.2 ∉ l1.map Prod.snd ++ l2.map Prod.snd := by
    rw [List.nodup_append] at hnd ⊢
    obtain ⟨h1, h2, h3⟩ := hnd
    rw [List.nodup_cons] at h2
    refine ⟨⟨h1, h2.2, ?_⟩, ?_⟩
    · intro a ha hb
      exact h3 ha (List.mem_cons_of_mem _ hb)
    · intro hmem
      rw [List.mem_append] at hmem
      rcases hmem with hm | hm
      · exact h3 hm (List.mem_cons_self _ _)
      · exact h2.1 hm
  have hfind : ∀ y q, ExtendibleHash.Find hash' y = .ok (some q) →
      y ≠ node.2 ∧ ExtendibleHash.Find r.hash_ y = .ok (some q) := by
    intro y q hy
    have hne : y ≠ node.2 := by
      rintro rfl
      rw [hnone] at hy
      exact absurd hy (by simp)
    exact ⟨hne, by rw [← hother y hne]; exact hy⟩
  refine ⟨hinv', ?_, ?_, ?_, ?_, ?_, ?_, ?_⟩
  · rw [hs']
    exact h.capacity
  · simp only [List.length_append]
    rw [h.size_eq, hl]
    simp
  · show (List.map Prod.snd (l1 ++ l2)).Nodup
    rw [List.map_append]
    exact hnd'.1
  · intro n hn
    exact h.ids_lt n (hsub n hn)
  · intro y q hy
    exact h.cursor_lt y q (hfind y q hy).2
  · intro y q hy n hn hnq
    exact h.cursor y q (hfind y q hy).2 n (hsub n hn) hnq
  · intro y
    show y ∈ List.map Prod.snd (l1 ++ l2) ↔ _
    by_cases hyx : y = node.2
    · subst hyx
      rw [List.map_append]
      constructor
      · intro hm
        exact absurd hm hnd'.2
      · rintro ⟨q, hq⟩
        simp only at hq
        rw [hnone] at hq
        exact absurd hq (by simp)
    · simp only
      rw [hother y hyx, ← h.tracked y, hvals]
      simp only [List.map_append, List.mem_cons, List.mem_append]
      tauto

end LRUReplacer

/-! ## Operations of the replacer -/

namespace LRUReplacer

variable {T : Type} [DecidableEq T] [StdHash T]

theorem erase_middle {l1 l2 : List T} {x : T} (hx : x ∉ l1) :
    (l1 ++ x :: l2).erase x = l1 ++ l2 := by
  rw [List.erase_append_right _ hx, List.erase_cons_head]

/-- What a returning `Insert` does to the replacer. -/
theorem Insert_lru_spec {r r' : LRUReplacer T} (h : LInv r) {fuel : Nat} {x : T}
    (hins : Insert fuel r x = .ok r') :
    LInv r' ∧ values r' = x :: (values r).erase x ∧
      r'.size_ = (if x ∈ values r then r.size_ else r.size_ + 1) ∧
      r'.nextNode = r.nextNode + 1 := by
  obtain ⟨o, ho⟩ := h.find_ok x
  unfold Insert at hins
  rw [ho] at hins
  cases o with
  | none =>
    simp only at hins
    have hx : x ∉ values r := by
      intro hmem
      obtain ⟨p, hp⟩ := (h.tracked x).1 hmem
      rw [ho] at hp
      exact absurd hp (by simp)
    obtain ⟨hash', hi, rfl⟩ := pushFront_ok hins
    refine ⟨h.push_new hx hi, ?_, ?_, rfl⟩
    · rw [List.erase_of_not_mem hx]
      rfl
    · rw [if_neg hx]
  | some p =>
    simp only at hins
    cases hl : listErase r.list_ p with
    | none => rw [hl] at hins; exact absurd hins (by simp)
    | some l =>
      rw [hl] at hins
      simp only at hins
      obtain ⟨l1, node, l2, hsplit, hnp, rfl⟩ := listErase_some hl
      have hnx : node.2 = x :=
        h.cursor x p ho node (by rw [hsplit]; simp) hnp
      subst hnx
      obtain ⟨hash', hi, rfl⟩ := pushFront_ok hins
      have hvals := values_split hsplit
      have hnd := h.nodup
      rw [hvals, List.nodup_append] at hnd
      have hx1 : node.2 ∉ l1.map Prod.snd := fun hm => hnd.2.2 hm (List.mem_cons_self _ _)
      refine ⟨h.push_touch hsplit hi, ?_, ?_, rfl⟩
      · rw [hvals, erase_middle hx1]
        simp [values]
      · rw [if_pos (by rw [hvals]; simp)]

/-- What `Victim` does to the replacer: it always returns under the invariant. -/
theorem Victim_lru_spec {r : LRUReplacer T} (h : LInv r) :
    ∃ r' res, Victim r = .ok (r', res) ∧ LInv r' ∧
      ((r.list_ = [] ∧ res = none ∧ r' = r) ∨
       (∃ l node, r.list_ = l ++ [node] ∧ res = some node.2 ∧ r'.list_ = l ∧
          r'.size_ + 1 = r.size_)) := by
  cases hlast : r.list_.getLast? with
  | none =>
    refine ⟨r, none, ?_, h, Or.inl ⟨List.getLast?_eq_none_iff.1 hlast, rfl, rfl⟩⟩
    unfold Victim
    rw [hlast]
  | some node =>
    obtain ⟨l, hl⟩ := List.getLast?_eq_some_iff.1 hlast
    obtain ⟨s', flag, -, -, hrem, -⟩ := ExtendibleHash.Remove_spec h.hash_inv node.2
    have hdrop : r.list_.dropLast = l := by rw [hl]; exact List.dropLast_concat
    have hinv' := h.remove_node (show r.list_ = l ++ node :: [] from hl) hrem
    rw [List.append_nil] at hinv'
    refine ⟨{ r with hash_ := s', list_ := l, size_ := r.size_ - 1 }, some node.2, ?_, hinv',
      Or.inr ⟨l, node, hl, rfl, rfl, ?_⟩⟩
    · unfold Victim
      rw [hlast]
      simp only
      rw [hrem, hdrop]
    · simp only
      have := h.size_eq
      rw [hl] at this
      simp at this
      omega

/-- What a returning `Erase` does to the replacer. -/
theorem Erase_lru_spec {r r' : LRUReplacer T} (h : LInv r) {x : T} {flag : Bool}
    (hers : Erase r x = .ok (r', flag)) :
    LInv r' ∧ (flag = true ↔ x ∈ values r) ∧ (flag = false → r' = r) ∧
      (flag = true → r'.size_ + 1 = r.size_ ∧ values r' = (values r).erase x) := by
  obtain ⟨o, ho⟩ := h.find_ok x
  unfold Erase at hers
  rw [ho] at hers
  cases o with
  | none =>
    simp only at hers
    obtain ⟨rfl, rfl⟩ := Prod.mk.inj (Outcome.ok.inj hers)
    have hx : x ∉ values r := by
      intro hmem
      obtain ⟨p, hp⟩ := (h.tracked x).1 hmem
      rw [ho] at hp
      exact absurd hp (by simp)
    exact ⟨h, by simp [hx], fun _ => rfl, fun hf => absurd hf (by simp)⟩
  | some p =>
    simp only at hers
    obtain ⟨s', f', -, -, hrem, -⟩ := ExtendibleHash.Remove_spec h.hash_inv x
    rw [hrem] at hers
    simp only at hers
    cases hl : listErase r.list_ p with
    | none => rw [hl] at hers; exact absurd hers (by simp)
    | some l =>
      rw [hl] at hers
      simp only at hers
      obtain ⟨rfl, rfl⟩ := Prod.mk.inj (Outcome.ok.inj hers)
      obtain ⟨l1, node, l2, hsplit, hnp, rfl⟩ := listErase_some hl
      have hnx : node.2 = x :=
        h.cursor x p ho node (by rw [hsplit]; simp) hnp
      subst hnx
      have hvals := values_split hsplit
      have hnd := h.nodup
      rw [hvals, List.nodup_append] at hnd
      have hx1 : node.2 ∉ l1.map Prod.snd := fun hm => hnd.2.2 hm (List.mem_cons_self _ _)
      have hmem : node.2 ∈ values r := by rw [hvals]; simp
      refine ⟨h.remove_node hsplit hrem, by simp [hmem], fun hf => absurd hf (by simp), ?_⟩
      intro _
      constructor
      · simp only
        have := h.size_eq
        rw [hsplit] at this
        simp at this
        omega
      · rw [hvals, erase_middle hx1]
        simp [values]

/-- Every reachable replacer satisfies the invariant. -/
theorem Reachable.linv {r : LRUReplacer T} (h : Reachable r) : LInv r := by
  induction h with
  | init => exact linv_new
  | insert fuel value _ hins ih => exact (Insert_lru_spec ih hins).1
  | victim res _ hv ih =>
    obtain ⟨r1, res1, h1, h2, -⟩ := Victim_lru_spec ih
    rw [hv] at h1
    obtain ⟨rfl, rfl⟩ := Prod.mk.inj (Outcome.ok.inj h1)
    exact h2
  | erase value flag _ he ih => exact (Erase_lru_spec ih he).1

end LRUReplacer

/-! ## Runs of replacer operations -/

namespace LRUReplacer

variable {T : Type} [DecidableEq T] [StdHash T]

open ExtendibleHash (HashKey storedKeys)

theorem pushFront_mono {fuel fuel' : Nat} {r r' : LRUReplacer T} {x : T} (hle : fuel ≤ fuel')
    (h : pushFront fuel r x = .ok r') : pushFront fuel' r x = .ok r' := by
  obtain ⟨hash', hi, rfl⟩ := pushFront_ok h
  unfold pushFront
  rw [ExtendibleHash.Insert_mono hle hi]

/-- More fuel does not change the result of a returning `Insert`. -/
theorem Insert_lru_mono {fuel fuel' : Nat} {r r' : LRUReplacer T} {x : T} (hle : fuel ≤ fuel')
    (h : Insert fuel r x = .ok r') : Insert fuel' r x = .ok r' := by
  unfold Insert at h ⊢
  cases hf : ExtendibleHash.Find r.hash_ x with
  | undefinedBehaviour => rw [hf] at h; exact absurd h (by simp)
  | outOfFuel => rw [hf] at h; exact absurd h (by simp)
  | ok o =>
    rw [hf] at h
    cases o with
    | none => exact pushFront_mono hle h
    | some p =>
      simp only at h ⊢
      cases hl : listErase r.list_ p with
      | none => rw [hl] at h; exact absurd h (by simp)
      | some l =>
        rw [hl] at h
        exact pushFront_mono hle h

/-- The index and the list hold the same elements. -/
theorem LInv.storedKeys_perm {r : LRUReplacer T} (h : LInv r) :
    (storedKeys r.hash_).Perm (values r) := by
  rw [List.perm_ext_iff_of_nodup (ExtendibleHash.nodup_storedKeys h.hash_inv) h.nodup]
  intro x
  rw [ExtendibleHash.mem_storedKeys_iff h.hash_inv, h.tracked]

/-- An `Insert` of an untracked element returns when at most one tracked element agrees
with it on the low 31 hash bits. -/
theorem Insert_lru_fresh {r : LRUReplacer T} (h : LInv r) {x : T} (hx : x ∉ values r)
    (hcol : (values r).countP (fun y => decide (HashKey y % 2 ^ 31 = HashKey x % 2 ^ 31)) ≤ 1)
    {fuel : Nat} (hfuel : 31 ≤ fuel) :
    ∃ r', Insert fuel r x = .ok r' := by
  have hcnt : (storedKeys r.hash_).countP
      (fun y => decide (HashKey y % 2 ^ 31 = HashKey x % 2 ^ 31)) < r.hash_.MaxNumKeyPerBucket := by
    rw [h.capacity, h.storedKeys_perm.countP_eq]
    omega
  obtain ⟨hash', hi⟩ := ExtendibleHash.Insert_terminates h.hash_inv x r.nextNode hcnt hfuel
  unfold Insert
  rw [h.find_none hx]
  simp only
  unfold pushFront
  simp only
  rw [hi]
  exact ⟨_, rfl⟩

/-- An `Insert` of an untracked element never returns when its bucket in the index is full of
elements agreeing with it on the low 31 hash bits. -/
theorem Insert_lru_diverges {r : LRUReplacer T} (h : LInv r) {x : T} (hx : x ∉ values r)
    {p : Nat} {b : Bucket T Nat}
    (hb : ExtendibleHash.bucketAt r.hash_ (HashKey x &&& r.hash_.globalMask_) = some (p, b))
    (hcnt : r.hash_.MaxNumKeyPerBucket ≤
      b.store.countP (fun e => decide (HashKey e.1 % 2 ^ 31 = HashKey x % 2 ^ 31)))
    (fuel : Nat) (r' : LRUReplacer T) : Insert fuel r x ≠ .ok r' := by
  intro hins
  unfold Insert at hins
  rw [h.find_none hx] at hins
  simp only at hins
  obtain ⟨hash', hi, -⟩ := pushFront_ok hins
  exact ExtendibleHash.Insert_diverges h.hash_inv x r.nextNode hb hcnt fuel hash' hi

/-- With fuel for 32 iterations such an `Insert` reaches the undefined shift `1u << 32`. -/
theorem Insert_lru_ub {r : LRUReplacer T} (h : LInv r) {x : T} (hx : x ∉ values r)
    {p : Nat} {b : Bucket T Nat}
    (hb : ExtendibleHash.bucketAt r.hash_ (HashKey x &&& r.hash_.globalMask_) = some (p, b))
    (hcnt : r.hash_.MaxNumKeyPerBucket ≤
      b.store.countP (fun e => decide (HashKey e.1 % 2 ^ 31 = HashKey x % 2 ^ 31)))
    {fuel : Nat} (hfuel : 31 < fuel) : Insert fuel r x = .undefinedBehaviour := by
  unfold Insert
  rw [h.find_none hx]
  simp only
  unfold pushFront
  simp only
  rw [ExtendibleHash.Insert_ub h.hash_inv x r.nextNode hb hcnt hfuel]

/-- A run of inserts of fresh, pairwise distinct elements, no three of which (counting the
tracked ones) agree on the low 31 hash bits, returns and stacks them on the list. -/
theorem insertAll_fresh {fuel : Nat} (hfuel : 31 ≤ fuel) :
    ∀ (xs : List T) (r : LRUReplacer T), LInv r → (xs ++ values r).Nodup →
      (∀ x ∈ xs, (xs ++ values r).countP
        (fun y => decide (HashKey y % 2 ^ 31 = HashKey x % 2 ^ 31)) ≤ 2) →
      ∃ r', insertAll fuel r xs = .ok r' ∧ LInv r' ∧ values r' = xs.reverse ++ values r := by
  intro xs
  induction xs with
  | nil =>
    intro r h _ _
    exact ⟨r, rfl, h, rfl⟩
  | cons x xs ih =>
    intro r h hnd hcol
    rw [List.cons_append, List.nodup_cons] at hnd
    have hx : x ∉ values r := fun hm => hnd.1 (List.mem_append_right _ hm)
    have hcx := hcol x (List.mem_cons_self _ _)
    rw [List.cons_append, List.countP_cons_of_pos _ _ (by simp), List.countP_append] at hcx
    obtain ⟨r1, hr1⟩ := Insert_lru_fresh h hx (by omega) hfuel
    obtain ⟨hinv1, hvals1, -, -⟩ := Insert_lru_spec h hr1
    rw [List.erase_of_not_mem hx] at hvals1
    have hperm : (xs ++ values r1).Perm (x :: (xs ++ values r)) := by
      rw [hvals1]
      exact List.perm_middle
    obtain ⟨r', hr', hinv', hvals'⟩ := ih r1 hinv1 (hperm.nodup_iff.2 (List.nodup_cons.2 hnd))
      (by
        intro y hy
        rw [hperm.countP_eq]
        exact hcol y (List.mem_cons_of_mem _ hy))
    refine ⟨r', ?_, hinv', ?_⟩
    · unfold insertAll
      rw [hr1]
      exact hr'
    · rw [hvals', hvals1]
      simp

/-- Draining a replacer: `n` victims in list order from the back, then a failing call. -/
theorem victims_all :
    ∀ (n : Nat) (r : LRUReplacer T), LInv r → r.list_.length = n →
      ∃ r', victims (n + 1) r = .ok (r', (values r).reverse.map some ++ [none]) ∧
        LInv r' ∧ r'.list_ = [] ∧ r'.size_ = 0 := by
  intro n
  induction n with
  | zero =>
    intro r h hlen
    have hnil : r.list_ = [] := List.length_eq_zero.1 hlen
    refine ⟨r, ?_, h, hnil, by rw [h.size_eq, hlen]⟩
    unfold victims Victim
    simp [hnil, victims, values]
  | succ n ih =>
    intro r h hlen
    obtain ⟨r1, res, hv, hinv1, hcase⟩ := Victim_lru_spec h
    rcases hcase with ⟨hnil, -, -⟩ | ⟨l, node, hl, rfl, hl1, -⟩
    · rw [hnil] at hlen
      simp at hlen
    · have hlen1 : r1.list_.length = n := by
        rw [hl1]
        rw [hl] at hlen
        simpa using hlen
      obtain ⟨r', hr', hinv', hnil', hsz'⟩ := ih r1 hinv1 hlen1
      refine ⟨r', ?_, hinv', hnil', hsz'⟩
      unfold victims
      rw [hv]
      simp only
      rw [hr']
      simp only [values, hl, hl1]
      simp

end LRUReplacer

/-! ## Claims about the replacer -/

namespace LRUReplacer

variable {T : Type} [DecidableEq T] [StdHash T]

open ExtendibleHash (HashKey storedKeys)

theorem insertAll_append (fuel : Nat) :
    ∀ (xs ys : List T) (r : LRUReplacer T),
      insertAll fuel r (xs ++ ys) =
        match insertAll fuel r xs with
        | .ok r1 => insertAll fuel r1 ys
        | .undefinedBehaviour => .undefinedBehaviour
        | .outOfFuel => .outOfFuel := by
  intro xs
  induction xs with
  | nil => intro ys r; rfl
  | cons x xs ih =>
    intro ys r
    rw [List.cons_append]
    simp only [insertAll]
    cases Insert fuel r x with
    | ok r1 => exact ih ys r1
    | undefinedBehaviour => rfl
    | outOfFuel => rfl

theorem insertAll_mono {fuel fuel' : Nat} (hle : fuel ≤ fuel') :
    ∀ (xs : List T) (r r' : LRUReplacer T),
      insertAll fuel r xs = .ok r' → insertAll fuel' r xs = .ok r' := by
  intro xs
  induction xs with
  | nil => intro r r' h; exact h
  | cons x xs ih =>
    intro r r' h
    unfold insertAll at h ⊢
    cases hi : Insert fuel r x with
    | ok r1 =>
      rw [hi] at h
      rw [Insert_lru_mono hle hi]
      exact ih r1 r' h
    | undefinedBehaviour => rw [hi] at h; exact absurd h (by simp)
    | outOfFuel => rw [hi] at h; exact absurd h (by simp)

theorem reachable_insertAll {fuel : Nat} :
    ∀ (xs : List T) (r r' : LRUReplacer T), Reachable r →
      insertAll fuel r xs = .ok r' → Reachable r' := by
  intro xs
  induction xs with
  | nil =>
    intro r r' hr h
    obtain rfl := Outcome.ok.inj h
    exact hr
  | cons x xs ih =>
    intro r r' hr h
    unfold insertAll at h
    cases hi : Insert fuel r x with
    | ok r1 =>
      rw [hi] at h
      exact ih r1 r' (Reachable.insert fuel x hr hi) h
    | undefinedBehaviour => rw [hi] at h; exact absurd h (by simp)
    | outOfFuel => rw [hi] at h; exact absurd h (by simp)

theorem touchedReplacer_reachable : Reachable touchedReplacer :=
  reachable_insertAll [1, 1] new touchedReplacer Reachable.init
    (by decide : insertAll 0 new [1, 1] = .ok touchedReplacer)

theorem collidingReplacer_reachable : Reachable collidingReplacer :=
  reachable_insertAll [0, 2147483648] new collidingReplacer Reachable.init
    (by decide : insertAll 0 new [0, 2147483648] = .ok collidingReplacer)

theorem abcaReplacer_reachable : Reachable abcaReplacer :=
  reachable_insertAll [1, 2, 3, 1] new abcaReplacer Reachable.init
    (by decide : insertAll 2 new [1, 2, 3, 1] = .ok abcaReplacer)

/-- C4. Repeated touches are not supported: after `Insert(1); Insert(1)` the index still holds
the cursor of the node erased by the second call, so a third `Insert(1)` erases through an
invalidated iterator, whatever the fuel; the run `Insert(1); Insert(1); Insert(1)` is
undefined. With a single touch the order is as claimed: after
`Insert(1); Insert(2); Insert(3); Insert(1)` the victims are 2, 3, 1. -/
theorem third_insert_is_undefined :
    insertAll 0 new [1, 1] = .ok touchedReplacer ∧
    ExtendibleHash.Find touchedReplacer.hash_ 1 = .ok (some 0) ∧
    touchedReplacer.list_ = [(1, 1)] ∧
    (∀ fuel, Insert fuel touchedReplacer 1 = .undefinedBehaviour) ∧
    (∀ fuel, insertAll fuel (new : LRUReplacer Nat) [1, 1, 1] = .undefinedBehaviour) ∧
    insertAll 2 new [1, 2, 3, 1] = .ok abcaReplacer ∧
    (∃ r, victims 3 abcaReplacer = .ok (r, [some 2, some 3, some 1])) := by
  have h3 : ∀ fuel, Insert fuel touchedReplacer 1 = .undefinedBehaviour := fun _ => rfl
  refine ⟨by decide, by decide, rfl, h3, ?_, by decide, ⟨_, rfl⟩⟩
  intro fuel
  have h2 : insertAll fuel (new : LRUReplacer Nat) [1, 1] = .ok touchedReplacer :=
    insertAll_mono (Nat.zero_le fuel) _ _ _ (by decide)
  have := insertAll_append fuel [1, 1] [1] (new : LRUReplacer Nat)
  rw [h2] at this
  simp only [List.cons_append, List.nil_append] at this
  rw [this]
  unfold insertAll
  rw [h3 fuel]

/-- A returning run of inserts of fresh, pairwise distinct elements stacks them on the list. -/
theorem insertAll_values {fuel : Nat} :
    ∀ (xs : List T) (r r' : LRUReplacer T), LInv r → (xs ++ values r).Nodup →
      insertAll fuel r xs = .ok r' → LInv r' ∧ values r' = xs.reverse ++ values r := by
  intro xs
  induction xs with
  | nil =>
    intro r r' h _ hr
    obtain rfl := Outcome.ok.inj hr
    exact ⟨h, rfl⟩
  | cons x xs ih =>
    intro r r' h hnd hr
    rw [List.cons_append, List.nodup_cons] at hnd
    have hx : x ∉ values r := fun hm => hnd.1 (List.mem_append_right _ hm)
    unfold insertAll at hr
    cases hi : Insert fuel r x with
    | undefinedBehaviour => rw [hi] at hr; exact absurd hr (by simp)
    | outOfFuel => rw [hi] at hr; exact absurd hr (by simp)
    | ok r1 =>
      rw [hi] at hr
      simp only at hr
      obtain ⟨hinv1, hvals1, -, -⟩ := Insert_lru_spec h hi
      rw [List.erase_of_not_mem hx] at hvals1
      have hperm : (xs ++ values r1).Perm (x :: (xs ++ values r)) := by
        rw [hvals1]
        exact List.perm_middle
      obtain ⟨hinv', hvals'⟩ :=
        ih r1 r' hinv1 (hperm.nodup_iff.2 (List.nodup_cons.2 hnd)) hr
      refine ⟨hinv', ?_⟩
      rw [hvals', hvals1]
      simp

/-- C5, as stated, fails: the elements `0`, `2 ^ 31`, `2 ^ 32` are pairwise distinct, yet the
run of their three `Insert` calls on an empty replacer returns for no amount of fuel, and once
the fuel allows 32 iterations the third call reaches the undefined shift `1u << 32`: no
`Victim` call follows the inserts and returns the elements in order. -/
theorem fifo_counterexample :
    ([0, 2147483648, 4294967296] : List Nat).Nodup ∧
    insertAll 0 (new : LRUReplacer Nat) [0, 2147483648] = .ok collidingReplacer ∧
    (∀ fuel r, insertAll fuel (new : LRUReplacer Nat) [0, 2147483648, 4294967296] ≠ .ok r) ∧
    (∀ fuel, 31 < fuel →
      insertAll fuel (new : LRUReplacer Nat) [0, 2147483648, 4294967296]
        = .undefinedBehaviour) ∧
    ¬ ∃ fuel r r', insertAll fuel (new : LRUReplacer Nat) [0, 2147483648, 4294967296] = .ok r ∧
      victims 4 r = .ok (r', [some 0, some 2147483648, some 4294967296, none]) := by
  have happ : ∀ fuel, insertAll fuel (new : LRUReplacer Nat) [0, 2147483648, 4294967296]
      = insertAll fuel collidingReplacer [4294967296] := by
    intro fuel
    have h2 : insertAll fuel (new : LRUReplacer Nat) [0, 2147483648] = .ok collidingReplacer :=
      insertAll_mono (Nat.zero_le fuel) _ _ _ (by decide)
    have := insertAll_append fuel [0, 2147483648] [4294967296] (new : LRUReplacer Nat)
    rw [h2] at this
    simp only [List.cons_append, List.nil_append] at this
    exact this
  have hdiv : ∀ fuel r,
      insertAll fuel (new : LRUReplacer Nat) [0, 2147483648, 4294967296] ≠ .ok r := by
    intro fuel r
    rw [happ fuel]
    have hd := Insert_lru_diverges collidingReplacer_reachable.linv (x := 4294967296)
      (p := 0)
      (b := { store := [(0, 0), (2147483648, 1)], localDepth := 0, mask := 0, flag := 0 })
      (by decide) (by decide) (by decide) fuel
    unfold insertAll
    cases hi : Insert fuel collidingReplacer 4294967296 with
    | ok r1 => exact absurd hi (hd r1)
    | undefinedBehaviour => simp
    | outOfFuel => simp
  refine ⟨by decide, by decide, hdiv, ?_, ?_⟩
  · intro fuel hfuel
    rw [happ fuel]
    unfold insertAll
    rw [Insert_lru_ub collidingReplacer_reachable.linv (x := 4294967296)
      (p := 0)
      (b := { store := [(0, 0), (2147483648, 1)], localDepth := 0, mask := 0, flag := 0 })
      (by decide) (by decide) (by decide) hfuel]
  · rintro ⟨fuel, r, r', h, -⟩
    exact hdiv fuel r h

/-- C5, amended. FIFO order without touches: for every list of pairwise distinct elements,
whenever inserting them in order into an empty replacer returns, the next `n` `Victim` calls
return them in insertion order and the call after that returns `false` and leaves the list and
the index empty with `Size() = 0`; and when no three of the elements agree on the low 31 bits
of their hash value, the inserts do return, with at most 31 iterations of the split loop per
call, and the `n + 1` `Victim` calls behave as said. -/
theorem fifo_without_touches (xs : List T) (hnd : xs.Nodup) :
    (∀ fuel r, insertAll fuel new xs = .ok r →
      ∃ r', victims (xs.length + 1) r = .ok (r', xs.map some ++ [none]) ∧
        r'.list_ = [] ∧ storedKeys r'.hash_ = [] ∧ Size r' = 0) ∧
    ((∀ x ∈ xs, xs.countP (fun y => decide (HashKey y % 2 ^ 31 = HashKey x % 2 ^ 31)) ≤ 2) →
      ∀ fuel, 31 ≤ fuel → ∃ r r', insertAll fuel new xs = .ok r ∧
        victims (xs.length + 1) r = .ok (r', xs.map some ++ [none]) ∧
        r'.list_ = [] ∧ storedKeys r'.hash_ = [] ∧ Size r' = 0) := by
  have h1 : ∀ fuel r, insertAll fuel new xs = .ok r →
      ∃ r', victims (xs.length + 1) r = .ok (r', xs.map some ++ [none]) ∧
        r'.list_ = [] ∧ storedKeys r'.hash_ = [] ∧ Size r' = 0 := by
    intro fuel r hr
    obtain ⟨hinv, hvals⟩ := insertAll_values xs new r linv_new
      (by simpa [values, LRUReplacer.new] using hnd) hr
    have hvals' : values r = xs.reverse := by
      rw [hvals]
      simp [values, LRUReplacer.new]
    have hlen : r.list_.length = xs.length := by
      have := congrArg List.length hvals'
      simpa [values] using this
    obtain ⟨r', hr', hinv', hnil, hsz⟩ := victims_all xs.length r hinv hlen
    refine ⟨r', ?_, hnil, ?_, hsz⟩
    · rw [hr', hvals', List.reverse_reverse]
    · have := hinv'.storedKeys_perm
      rw [values, hnil] at this
      exact List.Perm.eq_nil this
  refine ⟨h1, ?_⟩
  intro hcol fuel hfuel
  obtain ⟨r, hr, -, -⟩ := insertAll_fresh hfuel xs new linv_new
    (by simpa [values, LRUReplacer.new] using hnd)
    (by simpa [values, LRUReplacer.new] using hcol)
  obtain ⟨r', hr'⟩ := h1 fuel r hr
  exact ⟨r, r', hr, hr'⟩

/-- The scenario of the specification: inserting 1 to 5, no three of which agree on the low 31
hash bits, and draining the replacer. -/
theorem fifo_without_touches_witness :
    ([1, 2, 3, 4, 5] : List Nat).Nodup ∧
    (∀ x ∈ ([1, 2, 3, 4, 5] : List Nat),
      ([1, 2, 3, 4, 5] : List Nat).countP
        (fun y => decide (HashKey y % 2 ^ 31 = HashKey x % 2 ^ 31)) ≤ 2) ∧
    (∀ fuel r, insertAll fuel new ([1, 2, 3, 4, 5] : List Nat) = .ok r →
      ∃ r', victims (([1, 2, 3, 4, 5] : List Nat).length + 1) r
          = .ok (r', ([1, 2, 3, 4, 5] : List Nat).map some ++ [none]) ∧
        r'.list_ = [] ∧ storedKeys r'.hash_ = [] ∧ Size r' = 0) ∧
    (∀ fuel, 31 ≤ fuel → ∃ r r', insertAll fuel new ([1, 2, 3, 4, 5] : List Nat) = .ok r ∧
      victims (([1, 2, 3, 4, 5] : List Nat).length + 1) r
        = .ok (r', ([1, 2, 3, 4, 5] : List Nat).map some ++ [none]) ∧
      r'.list_ = [] ∧ storedKeys r'.hash_ = [] ∧ Size r' = 0) :=
  ⟨by decide, by decide,
    (fifo_without_touches [1, 2, 3, 4, 5] (by decide)).1,
    (fifo_without_touches [1, 2, 3, 4, 5] (by decide)).2 (by decide)⟩

/-- C7. `Erase` of a touched element is undefined: after `Insert(1); Insert(1)` the element 1
is tracked, but `Erase(1)` finds the cursor of the node erased by the second `Insert` and
erases through it instead of returning `true`. -/
theorem erase_after_touch_is_undefined :
    insertAll 0 new [1, 1] = .ok touchedReplacer ∧
    1 ∈ values touchedReplacer ∧
    Erase touchedReplacer 1 = .undefinedBehaviour := by
  refine ⟨by decide, by decide, by decide⟩

/-- C8. The agreement is not kept by sequences that insert an element several times: the run
`Insert(1); Insert(2); Insert(3); Insert(1)` returns in a state that tracks 1 while the index
maps 1 to node 0, which the last call erased from the list. From there `Insert(1)` is undefined
whatever the fuel, and so is `Erase(1)`: the sequences
`Insert(1); Insert(2); Insert(3); Insert(1); Insert(1)` and
`Insert(1); Insert(2); Insert(3); Insert(1); Erase(1)` end in no state in which `Size()` agrees
with the list and the index. -/
theorem repeated_insert_leaves_no_state :
    insertAll 1 new [1, 2, 3, 1] = .ok abcaReplacer ∧
    1 ∈ values abcaReplacer ∧
    ExtendibleHash.Find abcaReplacer.hash_ 1 = .ok (some 0) ∧
    (∀ node ∈ abcaReplacer.list_, node.1 ≠ 0) ∧
    (∀ fuel, Insert fuel abcaReplacer 1 = .undefinedBehaviour) ∧
    Erase abcaReplacer 1 = .undefinedBehaviour ∧
    (∀ fuel r, insertAll fuel (new : LRUReplacer Nat) [1, 2, 3, 1, 1] ≠ .ok r) ∧
    (∀ fuel, 1 ≤ fuel →
      insertAll fuel (new : LRUReplacer Nat) [1, 2, 3, 1, 1] = .undefinedBehaviour) := by
  have h5 : ∀ fuel, Insert fuel abcaReplacer 1 = .undefinedBehaviour := fun _ => rfl
  have hub : ∀ fuel, 1 ≤ fuel →
      insertAll fuel (new : LRUReplacer Nat) [1, 2, 3, 1, 1] = .undefinedBehaviour := by
    intro fuel hfuel
    have h4 : insertAll fuel (new : LRUReplacer Nat) [1, 2, 3, 1] = .ok abcaReplacer :=
      insertAll_mono hfuel _ _ _ (by decide)
    have := insertAll_append fuel [1, 2, 3, 1] [1] (new : LRUReplacer Nat)
    rw [h4] at this
    simp only [List.cons_append, List.nil_append] at this
    rw [this]
    unfold insertAll
    rw [h5 fuel]
  refine ⟨by decide, by decide, by decide, by decide, h5, by decide, ?_, hub⟩
  intro fuel r
  by_cases hfuel : 1 ≤ fuel
  · rw [hub fuel hfuel]
    simp
  · obtain rfl : fuel = 0 := by omega
    have h0 : insertAll 0 (new : LRUReplacer Nat) [1, 2, 3, 1, 1] = .outOfFuel := by decide
    rw [h0]
    simp

/-- Size, list and index agree in every state reached by `Insert`, `Victim` and `Erase` calls
that returned: `Size()` is the length of the access list and the number of keys stored in the
index, and no element occurs twice in the list; a returning `Insert(x)` leaves `Size()`
unchanged when `x` is tracked and adds one otherwise, and `Victim` and `Erase` never increase
it. -/
theorem size_list_index_agree (r : LRUReplacer T) (hr : Reachable r) :
    Size r = r.list_.length ∧ Size r = (storedKeys r.hash_).length ∧ (values r).Nodup ∧
    (∀ fuel x r', Insert fuel r x = .ok r' →
      Size r' = if x ∈ values r then Size r else Size r + 1) ∧
    (∀ r' res, Victim r = .ok (r', res) → Size r' ≤ Size r) ∧
    (∀ x r' flag, Erase r x = .ok (r', flag) → Size r' ≤ Size r) := by
  have h := hr.linv
  refine ⟨h.size_eq, ?_, h.nodup, ?_, ?_, ?_⟩
  · rw [h.storedKeys_perm.length_eq]
    simp [Size, values, h.size_eq]
  · intro fuel x r' hins
    exact (Insert_lru_spec h hins).2.2.1
  · intro r' res hv
    obtain ⟨r1, res1, hv1, -, hcase⟩ := Victim_lru_spec h
    rw [hv] at hv1
    obtain ⟨rfl, rfl⟩ := Prod.mk.inj (Outcome.ok.inj hv1)
    rcases hcase with ⟨-, -, rfl⟩ | ⟨l, node, -, -, -, hsz⟩
    · exact Nat.le_refl _
    · simp only [Size]
      omega
  · intro x r' flag he
    obtain ⟨-, -, hf, ht⟩ := Erase_lru_spec h he
    cases flag with
    | false => rw [hf rfl]
    | true =>
      have := (ht rfl).1
      simp only [Size]
      omega

/-- The agreement in the state reached by `Insert(1); Insert(2); Insert(3); Insert(1)`. -/
theorem size_list_index_agree_witness :
    Reachable abcaReplacer ∧
    (Size abcaReplacer = abcaReplacer.list_.length ∧
    Size abcaReplacer = (storedKeys abcaReplacer.hash_).length ∧
    (values abcaReplacer).Nodup ∧
    (∀ fuel x r', Insert fuel abcaReplacer x = .ok r' →
      Size r' = if x ∈ values abcaReplacer then Size abcaReplacer else Size abcaReplacer + 1) ∧
    (∀ r' res, Victim abcaReplacer = .ok (r', res) → Size r' ≤ Size abcaReplacer) ∧
    (∀ x r' flag, Erase abcaReplacer x = .ok (r', flag) → Size r' ≤ Size abcaReplacer)) :=
  ⟨abcaReplacer_reachable, size_list_index_agree abcaReplacer abcaReplacer_reachable⟩

end LRUReplacer

/-! ## Integer results; returning inserts -/

theorem toInt_of_lt {n : Nat} (h : n < 2 ^ 31) : toInt n = (n : Int) := by
  unfold toInt
  have h1 : n % 2 ^ 32 = n := Nat.mod_eq_of_lt (by omega)
  rw [h1, if_pos h]

theorem toInt_two_pow_31 : toInt (2 ^ 31) = -2147483648 := by decide

namespace ExtendibleHash

variable {K V : Type} [DecidableEq K] [StdHash K]

/-- The closed form of `extend` in a well-formed table. -/
theorem extend_of_inv {s : ExtendibleHash K V} (hinv : Inv s) {id p : Nat} {b : Bucket K V}
    (hb : bucketAt s id = some (p, b)) (hd : b.localDepth < 31) :
    extend s id = some
      { s with
        heap := s.heap.set p (splitLow b) ++ [splitHigh b]
        buckets_ :=
          if b.localDepth + 1 > s.globalDepth_ then
            rewriteLoop (2 ^ (b.localDepth + 1) - 1) (b.flag + 2 ^ b.localDepth) s.heap.length
              (s.buckets_ ++ s.buckets_).length 0 (s.buckets_ ++ s.buckets_)
          else
            rewriteLoop (2 ^ (b.localDepth + 1) - 1) (b.flag + 2 ^ b.localDepth) s.heap.length
              s.buckets_.length 0 s.buckets_
        globalDepth_ :=
          if b.localDepth + 1 > s.globalDepth_ then s.globalDepth_ + 1 else s.globalDepth_
        globalMask_ :=
          if b.localDepth + 1 > s.globalDepth_ then 2 ^ (s.globalDepth_ + 1) - 1
          else s.globalMask_ } := by
  obtain ⟨-, hok⟩ := hinv.flag_lt (bucketAt_lt hinv hb) hb
  exact extend_eq hb hd hok.depth_le hinv.mask_eq hinv.dir_len hok.nodup

/-- A returning `Insert` is a returning loop followed by one store insertion. -/
theorem Insert_ok_decompose {fuel : Nat} {s s' : ExtendibleHash K V} {key : K} {value : V}
    (h : Insert fuel s key value = .ok s') :
    ∃ s1 p b, insertLoop fuel s key = .ok (s1, p) ∧ s1.heap[p]? = some b ∧
      s' = { s1 with
        heap := s1.heap.set p { b with store := StdMap.insert b.store key value } } := by
  unfold Insert at h
  cases hl : insertLoop fuel s key with
  | undefinedBehaviour => rw [hl] at h; exact absurd h (by simp)
  | outOfFuel => rw [hl] at h; exact absurd h (by simp)
  | ok r =>
    obtain ⟨s1, p⟩ := r
    rw [hl] at h
    simp only at h
    cases hp : s1.heap[p]? with
    | none => rw [hp] at h; exact absurd h (by simp)
    | some b =>
      rw [hp] at h
      exact ⟨s1, p, b, rfl, hp, (Outcome.ok.inj h).symm⟩

/-- A property kept by every split of the loop of `Insert` holds when the loop returns. -/
theorem insertLoop_preserves (key : K) (P : ExtendibleHash K V → Prop)
    (hstep : ∀ (s s' : ExtendibleHash K V) (p : Nat) (b : Bucket K V), Inv s → P s →
      bucketAt s (HashKey key &&& s.globalMask_) = some (p, b) → b.localDepth < 31 →
      extend s (HashKey key &&& s.globalMask_) = some s' → P s') :
    ∀ (fuel : Nat) (s s' : ExtendibleHash K V) (p : Nat), Inv s → P s →
      insertLoop fuel s key = .ok (s', p) → P s' := by
  intro fuel
  induction fuel with
  | zero =>
    intro s s' p hinv hP h
    obtain ⟨q, b, hb, -, -⟩ := hinv.bucket_of_key key
    unfold insertLoop at h
    rw [hb] at h
    simp only at h
    by_cases hfull : b.store.length ≥ s.MaxNumKeyPerBucket
    · rw [if_pos hfull] at h
      exact absurd h (by simp)
    · rw [if_neg hfull] at h
      obtain ⟨rfl, rfl⟩ := Prod.mk.inj (Outcome.ok.inj h)
      exact hP
  | succ fuel ih =>
    intro s s' p hinv hP h
    obtain ⟨q, b, hb, -, -⟩ := hinv.bucket_of_key key
    unfold insertLoop at h
    rw [hb] at h
    simp only at h
    by_cases hfull : b.store.length ≥ s.MaxNumKeyPerBucket
    · rw [if_pos hfull] at h
      cases he : extend s (HashKey key &&& s.globalMask_) with
      | none =>
        rw [he] at h
        exact absurd h (by simp)
      | some s1 =>
        rw [he] at h
        simp only at h
        have hd := extend_some_depth hb he
        have hinv1 : Inv s1 := by
          have hb' := hb
          rw [hinv.slot_eq] at hb' he
          exact extend_inv hinv (hinv.slot_lt key) hb' hd he
        exact ih s1 s' p hinv1 (hstep s s1 q b hinv hP hb hd he) h
    · rw [if_neg hfull] at h
      obtain ⟨rfl, rfl⟩ := Prod.mk.inj (Outcome.ok.inj h)
      exact hP

end ExtendibleHash

/-! ## Bucket capacity -/

namespace ExtendibleHash

variable {K V : Type} [DecidableEq K] [StdHash K]

/-- A slot seen after a write through `p` was already a slot before it. -/
theorem bucketAt_setHeap_inv {s : ExtendibleHash K V} {p : Nat} {b0 : Bucket K V} {i r : Nat}
    {c' : Bucket K V} (h : bucketAt { s with heap := s.heap.set p b0 } i = some (r, c')) :
    ∃ c, bucketAt s i = some (r, c) := by
  rw [bucketAt_eq_some_iff] at h
  obtain ⟨h1, h2⟩ := h
  simp only at h1 h2
  have hr : r < s.heap.length := by
    by_contra hcon
    rw [List.getElem?_eq_none (by simp; omega)] at h2
    exact absurd h2 (by simp)
  exact ⟨s.heap[r], (bucketAt_eq_some_iff _ _ _ _).2 ⟨h1, List.getElem?_eq_getElem hr⟩⟩

theorem extend_sizeOk {s s' : ExtendibleHash K V} (hinv : Inv s) (hsz : SizeOk s) {id p : Nat}
    {b : Bucket K V} (hb : bucketAt s id = some (p, b)) (hd : b.localDepth < 31)
    (he : extend s id = some s') : SizeOk s' := by
  have hid := bucketAt_lt hinv hb
  obtain ⟨s'', he', hmax, -, -, -, -, -, -, hat⟩ := extend_spec hinv hid hb hd
  rw [he] at he'
  obtain rfl := Option.some.inj he'
  have hinv' := extend_inv hinv hid hb hd he
  have hpos : 0 < 2 ^ s.globalDepth_ := Nat.pos_pow_of_pos _ (by norm_num)
  intro i q c hc
  have hi := bucketAt_lt hinv' hc
  obtain ⟨r, c0, hrc, -⟩ := hinv.slot (i % 2 ^ s.globalDepth_) (Nat.mod_lt _ hpos)
  have h := hat i hi r c0 hrc
  rw [hc] at h
  rw [hmax]
  have hbsz := hsz id p b hb
  by_cases hrp : r = p
  · rw [if_pos hrp] at h
    split at h
    · obtain ⟨-, rfl⟩ := Prod.mk.inj (Option.some.inj h)
      exact le_trans (List.length_filter_le _ _) hbsz
    · obtain ⟨-, rfl⟩ := Prod.mk.inj (Option.some.inj h)
      exact le_trans (List.length_filter_le _ _) hbsz
  · rw [if_neg hrp] at h
    obtain ⟨-, rfl⟩ := Prod.mk.inj (Option.some.inj h)
    exact hsz _ _ _ hrc

theorem setStore_sizeOk {s : ExtendibleHash K V} (hsz : SizeOk s) {p : Nat} {b : Bucket K V}
    (st : StdMap K V) (hst : st.length ≤ s.MaxNumKeyPerBucket) :
    SizeOk { s with heap := s.heap.set p { b with store := st } } := by
  intro i r c' hc'
  obtain ⟨c, hc⟩ := bucketAt_setHeap_inv hc'
  have h := bucketAt_setHeap s { b with store := st } (p := p) hc
  rw [hc'] at h
  by_cases hrp : r = p
  · rw [if_pos hrp] at h
    obtain ⟨-, rfl⟩ := Prod.mk.inj (Option.some.inj h)
    exact hst
  · rw [if_neg hrp] at h
    obtain ⟨-, rfl⟩ := Prod.mk.inj (Option.some.inj h)
    exact hsz _ _ _ hc

theorem sizeOk_new (B : Nat) : SizeOk (new B : ExtendibleHash K V) := by
  intro i p b hb
  rw [bucketAt_eq_some_iff] at hb
  obtain ⟨h1, h2⟩ := hb
  simp only [ExtendibleHash.new] at h1 h2
  cases i with
  | zero =>
    simp only [List.getElem?_cons_zero, Option.some.injEq] at h1
    subst h1
    simp only [List.getElem?_cons_zero, Option.some.injEq] at h2
    subst h2
    simp [ExtendibleHash.new]
  | succ n => simp at h1

theorem Insert_sizeOk {s s' : ExtendibleHash K V} (hinv : Inv s) (hsz : SizeOk s) {fuel : Nat}
    {key : K} {value : V} (h : Insert fuel s key value = .ok s') : SizeOk s' := by
  obtain ⟨s1, p, b, hl, hp, rfl⟩ := Insert_ok_decompose h
  obtain ⟨hinv1, -, -, b1, hb1, hlen⟩ := insertLoop_ok key fuel s s1 p hinv hl
  have hsz1 : SizeOk s1 := insertLoop_preserves key SizeOk
    (fun s s' p b hi hP hb hd he => extend_sizeOk hi hP hb hd he) fuel s s1 p hinv hsz hl
  obtain rfl : b1 = b := by
    have := ((bucketAt_eq_some_iff _ _ _ _).1 hb1).2
    rw [hp] at this
    exact (Option.some.inj this).symm
  apply setStore_sizeOk hsz1
  rw [StdMap.length_insert]
  split <;> omega

/-- In every reachable table no referenced bucket exceeds the capacity. -/
theorem Reachable.sizeOk {B : Nat} {s : ExtendibleHash K V} (h : Reachable B s) : SizeOk s := by
  induction h with
  | init => exact sizeOk_new B
  | insert fuel key value hr hins ih => exact Insert_sizeOk hr.inv.1 ih hins
  | remove key flag hr hrem ih =>
    obtain ⟨s1, f1, p, b, h1, -, hb, h3, -⟩ := Remove_spec hr.inv.1 key
    rw [h1] at hrem
    obtain ⟨rfl, rfl⟩ := Prod.mk.inj (Outcome.ok.inj hrem)
    rw [h3]
    apply setStore_sizeOk ih
    exact le_trans (List.length_filter_le _ _) (ih _ _ _ hb)

end ExtendibleHash

/-! ## The deepest bucket -/

namespace ExtendibleHash

variable {K V : Type} [DecidableEq K] [StdHash K]

theorem extend_depth_le {s s' : ExtendibleHash K V} (hinv : Inv s) {id p : Nat}
    {b : Bucket K V} (hb : bucketAt s id = some (p, b)) (hd : b.localDepth < 31)
    (he : extend s id = some s') : s.globalDepth_ ≤ s'.globalDepth_ := by
  obtain ⟨s'', he', -, hGG, -⟩ := extend_spec hinv (bucketAt_lt hinv hb) hb hd
  rw [he] at he'
  obtain rfl := Option.some.inj he'
  exact hGG

theorem extend_maxDepth {s s' : ExtendibleHash K V} (hinv : Inv s) (hmx : MaxDepth s)
    {id p : Nat} {b : Bucket K V} (hb : bucketAt s id = some (p, b)) (hd : b.localDepth < 31)
    (he : extend s id = some s') : MaxDepth s' := by
  have hid := bucketAt_lt hinv hb
  obtain ⟨s'', he', -, hGG, -, hdG', hG1, -, -, hat⟩ := extend_spec hinv hid hb hd
  rw [he] at he'
  obtain rfl := Option.some.inj he'
  have hdepth : s'.globalDepth_ =
      if b.localDepth + 1 > s.globalDepth_ then s.globalDepth_ + 1 else s.globalDepth_ := by
    have := extend_of_inv hinv hb hd
    rw [he] at this
    rw [Option.some.inj this]
  obtain ⟨-, hok⟩ := hinv.flag_lt hid hb
  have hdG := hok.depth_le
  have hsame : ∀ j c, bucketAt s j = some (p, c) → c = b := by
    intro j c hj
    rw [bucketAt_eq_some_iff] at hj hb
    exact Option.some.inj (hj.2.symm.trans hb.2)
  by_cases hg : b.localDepth + 1 > s.globalDepth_
  · rw [if_pos hg] at hdepth
    have hid' : id < 2 ^ s'.globalDepth_ :=
      lt_of_lt_of_le hid (Nat.pow_le_pow_right (by norm_num) hGG)
    have h := hat id hid' p b (by rw [Nat.mod_eq_of_lt hid]; exact hb)
    rw [if_pos rfl] at h
    split at h
    · exact ⟨id, _, _, h, by simp only [splitHigh]; omega⟩
    · exact ⟨id, _, _, h, by simp only [splitLow]; omega⟩
  · rw [if_neg hg] at hdepth
    obtain ⟨j, r, c, hjc, hcd⟩ := hmx
    have hj := bucketAt_lt hinv hjc
    have hrp : r ≠ p := by
      rintro rfl
      obtain rfl := hsame _ _ hjc
      omega
    have h := hat j (by rw [hdepth]; exact hj) r c (by rw [Nat.mod_eq_of_lt hj]; exact hjc)
    rw [if_neg hrp] at h
    exact ⟨j, r, c, h, by rw [hdepth]; exact hcd⟩

theorem setStore_maxDepth {s : ExtendibleHash K V} (hmx : MaxDepth s) {p : Nat}
    {b : Bucket K V} (hp : s.heap[p]? = some b) (st : StdMap K V) :
    MaxDepth { s with heap := s.heap.set p { b with store := st } } := by
  obtain ⟨j, r, c, hjc, hcd⟩ := hmx
  have h := bucketAt_setHeap s { b with store := st } (p := p) hjc
  by_cases hrp : r = p
  · subst hrp
    rw [if_pos rfl] at h
    obtain rfl : c = b := by
      rw [bucketAt_eq_some_iff] at hjc
      exact Option.some.inj (hjc.2.symm.trans hp)
    exact ⟨j, _, _, h, hcd⟩
  · rw [if_neg hrp] at h
    exact ⟨j, _, _, h, hcd⟩

theorem maxDepth_new (B : Nat) : MaxDepth (new B : ExtendibleHash K V) :=
  ⟨0, 0, _, rfl, rfl⟩

/-- A returning `Insert` never lowers the global depth. -/
theorem Insert_depth_le {s s' : ExtendibleHash K V} (hinv : Inv s) {fuel : Nat}
    {key : K} {value : V} (h : Insert fuel s key value = .ok s') :
    s.globalDepth_ ≤ s'.globalDepth_ := by
  obtain ⟨s1, p, b, hl, hp, rfl⟩ := Insert_ok_decompose h
  exact insertLoop_preserves key (fun t => s.globalDepth_ ≤ t.globalDepth_)
    (fun t t' p b hi hP hb hd he => le_trans hP (extend_depth_le hi hb hd he))
    fuel s s1 p hinv (Nat.le_refl _) hl

theorem Insert_maxDepth {s s' : ExtendibleHash K V} (hinv : Inv s) (hmx : MaxDepth s)
    {fuel : Nat} {key : K} {value : V} (h : Insert fuel s key value = .ok s') :
    MaxDepth s' := by
  obtain ⟨s1, p, b, hl, hp, rfl⟩ := Insert_ok_decompose h
  have hmx1 : MaxDepth s1 := insertLoop_preserves key MaxDepth
    (fun s s' p b hi hP hb hd he => extend_maxDepth hi hP hb hd he) fuel s s1 p hinv hmx hl
  exact setStore_maxDepth hmx1 hp _

/-- In every reachable table some referenced bucket is as deep as the directory. -/
theorem Reachable.maxDepth {B : Nat} {s : ExtendibleHash K V} (h : Reachable B s) :
    MaxDepth s := by
  induction h with
  | init => exact maxDepth_new B
  | insert fuel key value hr hins ih => exact Insert_maxDepth hr.inv.1 ih hins
  | remove key flag hr hrem ih =>
    obtain ⟨s1, f1, p, b, h1, -, hb, h3, -⟩ := Remove_spec hr.inv.1 key
    rw [h1] at hrem
    obtain ⟨rfl, rfl⟩ := Prod.mk.inj (Outcome.ok.inj hrem)
    rw [h3]
    exact setStore_maxDepth ih ((bucketAt_eq_some_iff _ _ _ _).1 hb).2 _

end ExtendibleHash

/-! ## Claims about the directory, the capacity and `Remove` -/

namespace ExtendibleHash

variable {K V : Type} [DecidableEq K] [StdHash K]

/-- C11, as stated, fails: on the table of capacity 1 holding key 0, `Insert(2 ^ 30, 7)`
returns a table of global depth 31 whose directory has `2 ^ 31` slots, and `GetNumBuckets()`
converts that size to `int`: it returns `-2147483648`, not `2 ^ 31`. -/
theorem num_buckets_counterexample :
    ∃ s, Insert 31 oneKeyTable 1073741824 7 = .ok s ∧ Reachable 1 s ∧
      GetGlobalDepth s = 31 ∧ s.buckets_.length = 2 ^ 31 ∧
      GetNumBuckets s = -2147483648 ∧ GetNumBuckets s ≠ 2 ^ 31 := by
  have hinv0 : Inv oneKeyTable := oneKeyTable_reachable.inv.1
  obtain ⟨s', hs'⟩ := Insert_terminates hinv0 1073741824 7 (by decide) (Nat.le_refl 31)
  have hreach : Reachable 1 s' := Reachable.insert 31 1073741824 7 oneKeyTable_reachable hs'
  obtain ⟨s1, p, b, hl, hp, hs1⟩ := Insert_ok_decompose hs'
  obtain ⟨hinv1, hmax1, hfind1, b1, hb1, hlen1⟩ :=
    insertLoop_ok (1073741824 : Nat) 31 oneKeyTable s1 p hinv0 hl
  have hmax : s1.MaxNumKeyPerBucket = 1 := hmax1
  -- the bucket of key 0 is not empty
  obtain ⟨p0, b0, hb0, hf0⟩ := Find_ok hinv1 (0 : Nat)
  have hfind0 : Find s1 (0 : Nat) = .ok (some 5) := by
    rw [hfind1]
    decide
  rw [hfind0] at hf0
  have hne : b0.store ≠ [] := by
    intro hnil
    rw [hnil] at hf0
    simp [StdMap.find] at hf0
  -- so it is not the bucket of the new key, which the loop left empty
  obtain ⟨p1, b1', hb1', hok1, hfl1⟩ := hinv1.bucket_of_key (1073741824 : Nat)
  rw [hb1] at hb1'
  obtain ⟨rfl, rfl⟩ := Prod.mk.inj (Option.some.inj hb1')
  have hdepth : 31 ≤ b1.localDepth := by
    by_contra hcon
    have hle : b1.localDepth ≤ 30 := by omega
    have hdvd : 2 ^ b1.localDepth ∣ 2 ^ 30 := Nat.pow_dvd_pow 2 hle
    have hk : (HashKey (1073741824 : Nat)) = 2 ^ 30 := by decide
    have h0 : (HashKey (0 : Nat)) = 0 := by decide
    have hflag : b1.flag = 0 := by
      rw [← hfl1, hk]
      exact Nat.mod_eq_zero_of_dvd hdvd
    have hsame := hinv1.share (HashKey (0 : Nat) % 2 ^ s1.globalDepth_)
      (HashKey (1073741824 : Nat) % 2 ^ s1.globalDepth_) p b1
      (hinv1.slot_lt _) (hinv1.slot_lt _) (by rw [← hinv1.slot_eq]; exact hb1)
      (by rw [h0, hflag]; simp)
    rw [← hinv1.slot_eq, hb0] at hsame
    obtain ⟨-, rfl⟩ := Prod.mk.inj (Option.some.inj hsame)
    rw [hmax] at hlen1
    have : b0.store.length = 0 := by omega
    exact hne (List.length_eq_zero.1 this)
  have hG1 : s1.globalDepth_ = 31 := by
    have := hok1.depth_le
    have := hinv1.depth_le
    omega
  have hG : s'.globalDepth_ = 31 := by rw [hs1]; exact hG1
  have hlen : s'.buckets_.length = 2 ^ 31 := by
    rw [hreach.inv.1.dir_len, hG]
  have hnum : GetNumBuckets s' = -2147483648 := by
    unfold GetNumBuckets
    rw [hlen]
    exact toInt_two_pow_31
  refine ⟨s', hs', hreach, ?_, hlen, hnum, ?_⟩
  · unfold GetGlobalDepth
    rw [hG]
    decide
  · rw [hnum]
    decide

/-- C11, amended. In every reachable table the directory has exactly `2 ^ G` slots, where
`G = GetGlobalDepth()` is at most 31, and `GetNumBuckets() = 2 ^ G` whenever `G ≤ 30`; at
`G = 31` the `2 ^ 31` slots do not fit the `int` result and `GetNumBuckets()` returns
`-2147483648`. A fresh table reports global depth 0 and 1 bucket. -/
theorem directory_length (B : Nat) (s : ExtendibleHash K V) (hs : Reachable B s) :
    s.buckets_.length = 2 ^ s.globalDepth_ ∧ s.globalDepth_ ≤ 31 ∧
    GetGlobalDepth s = (s.globalDepth_ : Int) ∧
    (s.globalDepth_ ≤ 30 → GetNumBuckets s = 2 ^ s.globalDepth_) ∧
    (s.globalDepth_ = 31 → GetNumBuckets s = -2147483648) ∧
    GetGlobalDepth (new B : ExtendibleHash K V) = 0 ∧
    GetNumBuckets (new B : ExtendibleHash K V) = 1 := by
  obtain ⟨hinv, -⟩ := hs.inv
  have hG := hinv.depth_le
  refine ⟨hinv.dir_len, hG, ?_, ?_, ?_, by simp [GetGlobalDepth, ExtendibleHash.new, toInt],
    by simp [GetNumBuckets, ExtendibleHash.new, toInt]⟩
  · unfold GetGlobalDepth
    exact toInt_of_lt (by omega)
  · intro h30
    unfold GetNumBuckets
    rw [hinv.dir_len, toInt_of_lt (Nat.pow_lt_pow_right (by norm_num) (by omega))]
    push_cast
    rfl
  · intro h31
    unfold GetNumBuckets
    rw [hinv.dir_len, h31]
    exact toInt_two_pow_31

/-- The directory of the table obtained after two splits has `2 ^ 2` slots. -/
theorem directory_length_witness :
    Reachable 2 splitTable ∧
    (splitTable.buckets_.length = 2 ^ splitTable.globalDepth_ ∧ splitTable.globalDepth_ ≤ 31 ∧
    GetGlobalDepth splitTable = (splitTable.globalDepth_ : Int) ∧
    (splitTable.globalDepth_ ≤ 30 → GetNumBuckets splitTable = 2 ^ splitTable.globalDepth_) ∧
    (splitTable.globalDepth_ = 31 → GetNumBuckets splitTable = -2147483648) ∧
    GetGlobalDepth (new 2 : ExtendibleHash Nat Nat) = 0 ∧
    GetNumBuckets (new 2 : ExtendibleHash Nat Nat) = 1) :=
  ⟨splitTable_reachable, directory_length 2 splitTable splitTable_reachable⟩

/-- C12. Bucket capacity: in every table reached by `Insert` and `Remove` calls that
returned, every bucket referenced by the directory holds at most `B` entries. -/
theorem bucket_capacity (B : Nat) (s : ExtendibleHash K V) (hs : Reachable B s) :
    ∀ i p b, bucketAt s i = some (p, b) → b.store.length ≤ B := by
  intro i p b hb
  have := hs.sizeOk i p b hb
  rwa [hs.inv.2] at this

/-- The capacity bound in the table obtained after two splits. -/
theorem bucket_capacity_witness :
    Reachable 2 splitTable ∧
    ∀ i p b, bucketAt splitTable i = some (p, b) → b.store.length ≤ 2 :=
  ⟨splitTable_reachable, bucket_capacity 2 splitTable splitTable_reachable⟩

/-- The local depth behind a slot is not changed by replacing the store of a bucket. -/
theorem GetLocalDepth_setStore {s : ExtendibleHash K V} {p : Nat} {b : Bucket K V}
    (hp : s.heap[p]? = some b) (st : StdMap K V) (i : Nat) :
    GetLocalDepth { s with heap := s.heap.set p { b with store := st } } i
      = GetLocalDepth s i := by
  unfold GetLocalDepth
  cases hi : bucketAt s i with
  | some rc =>
    obtain ⟨r, c⟩ := rc
    have h := bucketAt_setHeap s { b with store := st } (p := p) hi
    rw [h]
    by_cases hrp : r = p
    · subst hrp
      obtain rfl : c = b := by
        rw [bucketAt_eq_some_iff] at hi
        exact Option.some.inj (hi.2.symm.trans hp)
      rw [if_pos rfl]
    · rw [if_neg hrp]
  | none =>
    cases hi' : bucketAt { s with heap := s.heap.set p { b with store := st } } i with
    | none => rfl
    | some rc =>
      obtain ⟨r, c'⟩ := rc
      obtain ⟨c, hc⟩ := bucketAt_setHeap_inv hi'
      rw [hi] at hc
      exact absurd hc (by simp)

/-- C13. `Remove` never restructures the table: in a reachable table `Remove(k)` returns and
leaves `GetGlobalDepth()`, `GetNumBuckets()`, `GetLocalDepth(i)` for every slot `i`, the
directory itself (which pointer each slot holds) and the result of `Find` on every other key
unchanged; the removed entry is the only thing that leaves the bucket. -/
theorem remove_keeps_structure (B : Nat) (s : ExtendibleHash K V) (hs : Reachable B s)
    (k : K) :
    ∃ s' flag, Remove s k = .ok (s', flag) ∧
      GetGlobalDepth s' = GetGlobalDepth s ∧ GetNumBuckets s' = GetNumBuckets s ∧
      (∀ i, GetLocalDepth s' i = GetLocalDepth s i) ∧
      s'.buckets_ = s.buckets_ ∧ s'.heap.length = s.heap.length ∧
      (∀ k' : K, k' ≠ k → Find s' k' = Find s k') := by
  obtain ⟨hinv, -⟩ := hs.inv
  obtain ⟨s', flag, p, b, hrem, -, hb, hs', -, -, -, hother⟩ := Remove_spec hinv k
  have hp := ((bucketAt_eq_some_iff _ _ _ _).1 hb).2
  refine ⟨s', flag, hrem, ?_, ?_, ?_, ?_, ?_, hother⟩
  · rw [hs']; rfl
  · rw [hs']; rfl
  · intro i
    rw [hs']
    exact GetLocalDepth_setStore hp _ i
  · rw [hs']
  · rw [hs']
    simp

/-- Removing key 3, the only entry of its bucket, from the table obtained after two splits. -/
theorem remove_keeps_structure_witness :
    Reachable 2 splitTable ∧
    ∃ s' flag, Remove splitTable 3 = .ok (s', flag) ∧
      GetGlobalDepth s' = GetGlobalDepth splitTable ∧
      GetNumBuckets s' = GetNumBuckets splitTable ∧
      (∀ i, GetLocalDepth s' i = GetLocalDepth splitTable i) ∧
      s'.buckets_ = splitTable.buckets_ ∧ s'.heap.length = splitTable.heap.length ∧
      (∀ k' : Nat, k' ≠ 3 → Find s' k' = Find splitTable k') :=
  ⟨splitTable_reachable, remove_keeps_structure 2 splitTable splitTable_reachable 3⟩

end ExtendibleHash

/-! ## Claims about depths, the eight-key scenario and the cursors of the replacer -/

namespace ExtendibleHash

variable {K V : Type} [DecidableEq K] [StdHash K]

theorem insertList_mono {fuel fuel' : Nat} (hle : fuel ≤ fuel') :
    ∀ (kvs : List (K × V)) (s s' : ExtendibleHash K V),
      insertList fuel s kvs = .ok s' → insertList fuel' s kvs = .ok s' := by
  intro kvs
  induction kvs with
  | nil => intro s s' h; exact h
  | cons kv rest ih =>
    intro s s' h
    unfold insertList at h ⊢
    cases hi : Insert fuel s kv.1 kv.2 with
    | ok s1 =>
      rw [hi] at h
      rw [Insert_mono hle hi]
      exact ih s1 s' h
    | undefinedBehaviour => rw [hi] at h; exact absurd h (by simp)
    | outOfFuel => rw [hi] at h; exact absurd h (by simp)

/-- The result of a returning run does not depend on the fuel. -/
theorem insertList_unique {fuel fuel' : Nat} {kvs : List (K × V)}
    {s s1 s2 : ExtendibleHash K V} (h1 : insertList fuel s kvs = .ok s1)
    (h2 : insertList fuel' s kvs = .ok s2) : s1 = s2 := by
  have a := insertList_mono (Nat.le_max_left fuel fuel') kvs s s1 h1
  have b := insertList_mono (Nat.le_max_right fuel fuel') kvs s s2 h2
  rw [a] at b
  exact Outcome.ok.inj b

theorem toInt_depth {s : ExtendibleHash K V} (hinv : Inv s) {d : Nat}
    (hd : d ≤ s.globalDepth_) : toInt d = (d : Int) :=
  toInt_of_lt (by have := hinv.depth_le; omega)

/-- C19. In every reachable table the global depth is the maximum of the local depths of the
buckets the directory references: no slot reports a local depth above `GetGlobalDepth()` and
some slot reports exactly `GetGlobalDepth()`; a returning `Insert` never lowers
`GetGlobalDepth()` and `Remove` leaves it unchanged. -/
theorem global_depth_is_max_local_depth (B : Nat) (s : ExtendibleHash K V)
    (hs : Reachable B s) :
    (∀ i d, GetLocalDepth s i = .ok d → d ≤ GetGlobalDepth s) ∧
    (∃ i, GetLocalDepth s i = .ok (GetGlobalDepth s)) ∧
    (∀ fuel k v s', Insert fuel s k v = .ok s' → GetGlobalDepth s ≤ GetGlobalDepth s') ∧
    (∀ k s' flag, Remove s k = .ok (s', flag) → GetGlobalDepth s' = GetGlobalDepth s) := by
  obtain ⟨hinv, -⟩ := hs.inv
  have hG : GetGlobalDepth s = (s.globalDepth_ : Int) := toInt_depth hinv (Nat.le_refl _)
  refine ⟨?_, ?_, ?_, ?_⟩
  · intro i d hd
    unfold GetLocalDepth at hd
    cases hb : bucketAt s i with
    | none => rw [hb] at hd; exact absurd hd (by simp)
    | some pb =>
      obtain ⟨p, b⟩ := pb
      rw [hb] at hd
      simp only at hd
      obtain rfl := Outcome.ok.inj hd
      have hle := (hinv.flag_lt (bucketAt_lt hinv hb) hb).2.depth_le
      rw [hG, toInt_depth hinv hle]
      exact_mod_cast hle
  · obtain ⟨i, p, b, hb, hd⟩ := hs.maxDepth
    refine ⟨i, ?_⟩
    unfold GetLocalDepth
    rw [hb]
    simp only
    rw [hd]
    rfl
  · intro fuel k v s' hins
    have hle := Insert_depth_le hinv hins
    have hinv' := (Reachable.insert fuel k v hs hins).inv.1
    rw [hG]
    unfold GetGlobalDepth
    rw [toInt_depth hinv' (Nat.le_refl _)]
    exact_mod_cast hle
  · intro k s' flag hrem
    obtain ⟨s1, f1, p, b, h1, -, -, h3, -⟩ := Remove_spec hinv k
    rw [h1] at hrem
    obtain ⟨rfl, rfl⟩ := Prod.mk.inj (Outcome.ok.inj hrem)
    rw [h3]
    rfl

/-- The depths of the table obtained after two splits: slots 0 and 2 share a bucket of local
depth 1, slots 1 and 3 have local depth 2, the global depth. -/
theorem global_depth_is_max_local_depth_witness :
    Reachable 2 splitTable ∧
    ((∀ i d, GetLocalDepth splitTable i = .ok d → d ≤ GetGlobalDepth splitTable) ∧
    (∃ i, GetLocalDepth splitTable i = .ok (GetGlobalDepth splitTable)) ∧
    (∀ fuel k v s', Insert fuel splitTable k v = .ok s' →
      GetGlobalDepth splitTable ≤ GetGlobalDepth s') ∧
    (∀ k s' flag, Remove splitTable k = .ok (s', flag) →
      GetGlobalDepth s' = GetGlobalDepth splitTable)) :=
  ⟨splitTable_reachable, global_depth_is_max_local_depth 2 splitTable splitTable_reachable⟩

/-- C14, as stated, fails: after the keys 0 to 7 are inserted in that order into a fresh table
of capacity 2, the global depth is 2 and each of the four slots has its own bucket of local
depth 2, so no slot has `GetLocalDepth(i) < GetGlobalDepth()`. -/
theorem scenario3_counterexample :
    insertList 2 (new 2)
      [(0, 0), (1, 10), (2, 20), (3, 30), (4, 40), (5, 50), (6, 60), (7, 70)]
      = .ok eightKeyTable ∧
    (∀ fuel s, insertList fuel (new 2)
      [(0, 0), (1, 10), (2, 20), (3, 30), (4, 40), (5, 50), (6, 60), (7, 70)] = .ok s →
      s = eightKeyTable) ∧
    GetGlobalDepth eightKeyTable = 2 ∧ GetNumBuckets eightKeyTable = 4 ∧
    ¬ ∃ i d, GetLocalDepth eightKeyTable i = .ok d ∧ d < GetGlobalDepth eightKeyTable := by
  have hrun : insertList 2 (new 2)
      [(0, 0), (1, 10), (2, 20), (3, 30), (4, 40), (5, 50), (6, 60), (7, 70)]
      = .ok eightKeyTable := by decide
  refine ⟨hrun, fun fuel s h => insertList_unique h hrun, by decide, by decide, ?_⟩
  rintro ⟨i, d, h1, h2⟩
  by_cases hi : i < 4
  · have hd : d = 2 := by
      interval_cases i
      · exact (Outcome.ok.inj h1).symm
      · exact (Outcome.ok.inj h1).symm
      · exact (Outcome.ok.inj h1).symm
      · exact (Outcome.ok.inj h1).symm
    rw [hd] at h2
    exact absurd h2 (by decide)
  · have hnone : bucketAt eightKeyTable i = none := by
      unfold bucketAt
      rw [List.getElem?_eq_none (by simp [eightKeyTable]; omega)]
    unfold GetLocalDepth at h1
    rw [hnone] at h1
    exact absurd h1 (by simp)

/-- C14, amended. Starting from a fresh table of capacity 2, after the keys 0, 1, 2, 3, 4 are
inserted in that order the global depth is 2 while slots 1 and 3 share a bucket of local
depth 1; after the keys 5, 6, 7 follow, the global depth is still 2 and each of the four
slots has local depth 2. -/
theorem scenario3_local_depths :
    insertList 2 (new 2) [(0, 0), (1, 10), (2, 20), (3, 30), (4, 40)] = .ok fiveKeyTable ∧
    GetGlobalDepth fiveKeyTable = 2 ∧
    GetLocalDepth fiveKeyTable 1 = .ok 1 ∧ GetLocalDepth fiveKeyTable 3 = .ok 1 ∧
    fiveKeyTable.buckets_[1]? = fiveKeyTable.buckets_[3]? ∧
    insertList 2 fiveKeyTable [(5, 50), (6, 60), (7, 70)] = .ok eightKeyTable ∧
    GetGlobalDepth eightKeyTable = 2 ∧
    (∀ i, i < 4 → GetLocalDepth eightKeyTable i = .ok 2) := by
  refine ⟨by decide, by decide, by decide, by decide, by decide, by decide, by decide, ?_⟩
  intro i hi
  interval_cases i <;> decide

end ExtendibleHash

namespace LRUReplacer

/-- C15. The index is not updated on a touch: after `Insert(1); Insert(1)` the list holds the
element 1 in the newly pushed node 1, but the index still records for it the cursor of node 0,
the node the second call unlinked, which designates no node of the list. -/
theorem touch_keeps_old_cursor :
    Insert 0 new 1 = .ok singleReplacer ∧
    singleReplacer.list_ = [(0, 1)] ∧
    ExtendibleHash.Find singleReplacer.hash_ 1 = .ok (some 0) ∧
    Insert 0 singleReplacer 1 = .ok touchedReplacer ∧
    (∀ fuel r', Insert fuel singleReplacer 1 = .ok r' → r' = touchedReplacer) ∧
    touchedReplacer.list_ = [(1, 1)] ∧
    ExtendibleHash.Find touchedReplacer.hash_ 1 = .ok (some 0) ∧
    listErase touchedReplacer.list_ 0 = none := by
  have h2 : Insert 0 singleReplacer 1 = .ok touchedReplacer := by decide
  refine ⟨by decide, rfl, by decide, h2, ?_, rfl, by decide, by decide⟩
  intro fuel r' h
  have := Insert_lru_mono (Nat.zero_le fuel) h2
  rw [this] at h
  exact (Outcome.ok.inj h).symm

end LRUReplacer

/-! ## The directory after `extend`; slots of a bucket -/

theorem range_filter_mod_length (G d f : Nat) (hd : d ≤ G) (hf : f < 2 ^ d) :
    ((List.range (2 ^ G)).filter (fun i => decide (i % 2 ^ d = f))).length = 2 ^ (G - d) := by
  have hpos : 0 < 2 ^ d := Nat.pos_pow_of_pos _ (by norm_num)
  have h := @Nat.count_modEq_card (2 ^ G) (2 ^ d) hpos f
  rw [Nat.count, List.countP_eq_length_filter] at h
  have hdiv : 2 ^ G / 2 ^ d = 2 ^ (G - d) := Nat.pow_div hd (by norm_num)
  have hmod : 2 ^ G % 2 ^ d = 0 := Nat.mod_eq_zero_of_dvd (Nat.pow_dvd_pow 2 hd)
  rw [hdiv, hmod, if_neg (Nat.not_lt_zero _), Nat.add_zero] at h
  rw [← h]
  congr 1
  apply List.filter_congr
  intro i _
  simp only [Nat.ModEq, Nat.mod_eq_of_lt hf]

/-- Below bit `d` fixed, agreeing with `f + 2 ^ d` on `d + 1` bits is having bit `d` set. -/
theorem mod_succ_eq_iff_testBit {x d f : Nat} (h : x % 2 ^ d = f) :
    x % 2 ^ (d + 1) = f + 2 ^ d ↔ x.testBit d = true := by
  have hpos : 0 < 2 ^ d := Nat.pos_pow_of_pos _ (by norm_num)
  rw [Nat.testBit_to_div_mod, decide_eq_true_eq, Nat.mod_pow_succ, h]
  rcases Nat.mod_two_eq_zero_or_one (x / 2 ^ d) with h2 | h2
  · rw [h2]
    simp
  · rw [h2]
    simp

namespace ExtendibleHash

variable {K V : Type} [DecidableEq K] [StdHash K]

/-- The heap, the depth and the directory that `extend` leaves in a well-formed table. -/
theorem extend_directory {s s' : ExtendibleHash K V} (hinv : Inv s) {id p : Nat}
    {b : Bucket K V} (hb : bucketAt s id = some (p, b)) (he : extend s id = some s') :
    s'.heap = s.heap.set p (splitLow b) ++ [splitHigh b] ∧
    s'.globalDepth_ =
      (if b.localDepth + 1 > s.globalDepth_ then s.globalDepth_ + 1 else s.globalDepth_) ∧
    s'.buckets_.length = 2 ^ s'.globalDepth_ ∧
    ∀ i, i < 2 ^ s'.globalDepth_ →
      s'.buckets_[i]? =
        if i &&& (2 ^ (b.localDepth + 1) - 1) = b.flag + 2 ^ b.localDepth then
          some s.heap.length
        else s.buckets_[i % 2 ^ s.globalDepth_]? := by
  have hd := extend_some_depth hb he
  have heq := extend_of_inv hinv hb hd
  rw [he] at heq
  obtain rfl := Option.some.inj heq
  have hlen := hinv.dir_len
  refine ⟨rfl, rfl, ?_, ?_⟩
  · simp only
    split
    · rw [length_rewriteLoop, List.length_append, hlen, Nat.pow_succ]
      omega
    · rw [length_rewriteLoop, hlen]
  · intro i hi
    simp only at hi ⊢
    by_cases hg : b.localDepth + 1 > s.globalDepth_
    · rw [if_pos hg] at hi ⊢
      rw [Nat.pow_succ] at hi
      rw [rewriteLoop_get_full _ _ _ _ _ (by rw [List.length_append, hlen]; omega)]
      congr 1
      by_cases hlt : i < 2 ^ s.globalDepth_
      · rw [List.getElem?_append_left (by omega), Nat.mod_eq_of_lt hlt]
      · rw [List.getElem?_append_right (by omega), hlen]
        congr 1
        rw [Nat.mod_eq_sub_mod (by omega), Nat.mod_eq_of_lt (by omega)]
    · rw [if_neg hg] at hi ⊢
      rw [rewriteLoop_get_full _ _ _ _ _ (by rw [hlen]; exact hi), Nat.mod_eq_of_lt hi]

/-- C16. Directory/bucket consistency: in every reachable table the bucket `b` behind a slot
`i` has `localDepth ≤ G` and `(i & b.mask) = b.flag`; every slot `i < 2 ^ G` with
`(i & (2 ^ d - 1)) = b.flag` holds the pointer to `b`; so the slots holding that pointer are
exactly those indices, and there are `2 ^ (G - d)` of them. -/
theorem directory_bucket_consistency (B : Nat) (s : ExtendibleHash K V) (hs : Reachable B s) :
    (∀ i p b, bucketAt s i = some (p, b) →
      b.localDepth ≤ s.globalDepth_ ∧ i &&& b.mask = b.flag) ∧
    (∀ i j p b, i < 2 ^ s.globalDepth_ → bucketAt s j = some (p, b) →
      i &&& (2 ^ b.localDepth - 1) = b.flag → s.buckets_[i]? = some p) ∧
    (∀ j p b, bucketAt s j = some (p, b) →
      slotsOf s p = (List.range (2 ^ s.globalDepth_)).filter
          (fun i => decide (i &&& (2 ^ b.localDepth - 1) = b.flag)) ∧
      (slotsOf s p).length = 2 ^ (s.globalDepth_ - b.localDepth)) := by
  obtain ⟨hinv, -⟩ := hs.inv
  have hshare : ∀ i j p b, i < 2 ^ s.globalDepth_ → bucketAt s j = some (p, b) →
      i &&& (2 ^ b.localDepth - 1) = b.flag → s.buckets_[i]? = some p := by
    intro i j p b hi hb hm
    rw [Nat.and_pow_two_sub_one_eq_mod] at hm
    exact ((bucketAt_eq_some_iff _ _ _ _).1
      (hinv.share i j p b hi (bucketAt_lt hinv hb) hb hm)).1
  refine ⟨?_, hshare, ?_⟩
  · intro i p b hb
    obtain ⟨-, hok⟩ := hinv.flag_lt (bucketAt_lt hinv hb) hb
    refine ⟨hok.depth_le, ?_⟩
    rw [hok.mask_eq, Nat.and_pow_two_sub_one_eq_mod]
    exact hok.flag_eq
  · intro j p b hb
    obtain ⟨hflt, hok⟩ := hinv.flag_lt (bucketAt_lt hinv hb) hb
    have hslots : slotsOf s p = (List.range (2 ^ s.globalDepth_)).filter
        (fun i => decide (i &&& (2 ^ b.localDepth - 1) = b.flag)) := by
      unfold slotsOf
      rw [hinv.dir_len]
      apply List.filter_congr
      intro i hi
      rw [List.mem_range] at hi
      rw [decide_eq_decide]
      constructor
      · intro hp
        obtain ⟨r, c, hrc, hokc⟩ := hinv.slot i hi
        have h1 := ((bucketAt_eq_some_iff _ _ _ _).1 hrc)
        rw [hp] at h1
        obtain rfl := Option.some.inj h1.1
        obtain rfl : c = b :=
          Option.some.inj (h1.2.symm.trans ((bucketAt_eq_some_iff _ _ _ _).1 hb).2)
        rw [Nat.and_pow_two_sub_one_eq_mod]
        exact hokc.flag_eq
      · exact hshare i j p b hi hb
    refine ⟨hslots, ?_⟩
    rw [hslots]
    simp only [Nat.and_pow_two_sub_one_eq_mod]
    exact range_filter_mod_length _ _ _ hok.depth_le hflt

/-- The consistency in the table obtained after two splits, where slots 0 and 2 share a
bucket. -/
theorem directory_bucket_consistency_witness :
    Reachable 2 splitTable ∧
    ((∀ i p b, bucketAt splitTable i = some (p, b) →
      b.localDepth ≤ splitTable.globalDepth_ ∧ i &&& b.mask = b.flag) ∧
    (∀ i j p b, i < 2 ^ splitTable.globalDepth_ → bucketAt splitTable j = some (p, b) →
      i &&& (2 ^ b.localDepth - 1) = b.flag → splitTable.buckets_[i]? = some p) ∧
    (∀ j p b, bucketAt splitTable j = some (p, b) →
      slotsOf splitTable p = (List.range (2 ^ splitTable.globalDepth_)).filter
          (fun i => decide (i &&& (2 ^ b.localDepth - 1) = b.flag)) ∧
      (slotsOf splitTable p).length = 2 ^ (splitTable.globalDepth_ - b.localDepth))) :=
  ⟨splitTable_reachable, directory_bucket_consistency 2 splitTable splitTable_reachable⟩

end ExtendibleHash

/-! ## Claims about `extend` -/

namespace ExtendibleHash

variable {K V : Type} [DecidableEq K] [StdHash K]

theorem bucketAt_ptr_lt {s : ExtendibleHash K V} {i p : Nat} {b : Bucket K V}
    (hb : bucketAt s i = some (p, b)) : p < s.heap.length := by
  have h2 := ((bucketAt_eq_some_iff _ _ _ _).1 hb).2
  by_contra hcon
  rw [List.getElem?_eq_none (by omega)] at h2
  exact absurd h2 (by simp)

/-- The two buckets `extend` leaves: the split one behind `p`, the new one at the end of the
heap; every other bucket is untouched. -/
theorem extend_heap {s s' : ExtendibleHash K V} (hinv : Inv s) {id p : Nat}
    {b : Bucket K V} (hb : bucketAt s id = some (p, b)) (he : extend s id = some s') :
    s'.heap[p]? = some (splitLow b) ∧ s'.heap[s.heap.length]? = some (splitHigh b) ∧
    ∀ r, r ≠ p → r < s.heap.length → s'.heap[r]? = s.heap[r]? := by
  obtain ⟨hheap, -, -, -⟩ := extend_directory hinv hb he
  have hp := bucketAt_ptr_lt hb
  rw [hheap]
  refine ⟨?_, ?_, ?_⟩
  · rw [List.getElem?_append_left (by simpa using hp), List.getElem?_set]
    simp [hp]
  · have : s.heap.length = (s.heap.set p (splitLow b)).length := by simp
    rw [List.getElem?_append_right (by omega), ← this]
    simp
  · intro r hrp hr
    rw [List.getElem?_append_left (by simpa using hr), List.getElem?_set, if_neg (Ne.symm hrp)]

/-- C17. Key placement: in every reachable table every entry of a bucket `b` behind a slot
satisfies `(HashKey(key) & b.mask) = b.flag`; `extend` on a slot whose bucket has local depth
`d` is defined when `d < 31`, and whenever it is defined the new bucket receives exactly the
entries of the old bucket whose hash has bit `d` set, the old bucket keeps exactly the
others, entries are moved unchanged, and no other bucket is touched. -/
theorem key_placement (B : Nat) (s : ExtendibleHash K V) (hs : Reachable B s) :
    (∀ i p b e, bucketAt s i = some (p, b) → e ∈ b.store →
      HashKey e.1 &&& b.mask = b.flag) ∧
    (∀ id p b, bucketAt s id = some (p, b) →
      (b.localDepth < 31 → ∃ s', extend s id = some s') ∧
      ∀ s', extend s id = some s' →
        ∃ kept moved, s'.heap[p]? = some kept ∧ s'.heap[s.heap.length]? = some moved ∧
          moved.store = b.store.filter (fun e => (HashKey e.1).testBit b.localDepth) ∧
          kept.store = b.store.filter (fun e => !(HashKey e.1).testBit b.localDepth) ∧
          ∀ r, r ≠ p → r < s.heap.length → s'.heap[r]? = s.heap[r]?) := by
  obtain ⟨hinv, -⟩ := hs.inv
  constructor
  · intro i p b e hb he
    obtain ⟨-, hok⟩ := hinv.flag_lt (bucketAt_lt hinv hb) hb
    rw [hok.mask_eq, Nat.and_pow_two_sub_one_eq_mod]
    exact hok.keys e he
  · intro id p b hb
    obtain ⟨-, hok⟩ := hinv.flag_lt (bucketAt_lt hinv hb) hb
    constructor
    · intro hd
      exact ⟨_, extend_of_inv hinv hb hd⟩
    · intro s' he
      obtain ⟨h1, h2, h3⟩ := extend_heap hinv hb he
      refine ⟨_, _, h1, h2, ?_, ?_, h3⟩
      · simp only [splitHigh]
        apply List.filter_congr
        intro e he'
        have := mod_succ_eq_iff_testBit (hok.keys e he')
        by_cases hbit : (HashKey e.1).testBit b.localDepth = true
        · simp [hbit, this.2 hbit]
        · have hn : ¬ HashKey e.1 % 2 ^ (b.localDepth + 1) = b.flag + 2 ^ b.localDepth :=
            fun h => hbit (this.1 h)
          simp [hbit, hn]
      · simp only [splitLow]
        apply List.filter_congr
        intro e he'
        have := mod_succ_eq_iff_testBit (hok.keys e he')
        by_cases hbit : (HashKey e.1).testBit b.localDepth = true
        · simp [hbit, this.2 hbit]
        · have hn : ¬ HashKey e.1 % 2 ^ (b.localDepth + 1) = b.flag + 2 ^ b.localDepth :=
            fun h => hbit (this.1 h)
          simp [hbit, hn]

/-- The split of the full bucket of the table holding keys 1 and 3. -/
theorem key_placement_witness :
    Reachable 2 fullTable ∧
    ((∀ i p b e, bucketAt fullTable i = some (p, b) → e ∈ b.store →
      HashKey e.1 &&& b.mask = b.flag) ∧
    (∀ id p b, bucketAt fullTable id = some (p, b) →
      (b.localDepth < 31 → ∃ s', extend fullTable id = some s') ∧
      ∀ s', extend fullTable id = some s' →
        ∃ kept moved, s'.heap[p]? = some kept ∧
          s'.heap[fullTable.heap.length]? = some moved ∧
          moved.store = b.store.filter (fun e => (HashKey e.1).testBit b.localDepth) ∧
          kept.store = b.store.filter (fun e => !(HashKey e.1).testBit b.localDepth) ∧
          ∀ r, r ≠ p → r < fullTable.heap.length → s'.heap[r]? = fullTable.heap[r]?)) :=
  ⟨fullTable_reachable, key_placement 2 fullTable fullTable_reachable⟩

end ExtendibleHash
